import Mathlib

/-!
# nord: a Bitcask-style key-value store

A shallow embedding of the storage engine of `sudo-nick16/nord`
(`src/nord.go`, `src/bitcask/keydir.go`) and theorems about it.

Conventions of the embedding.

* A Go `[]byte` and a Go `string` are both `Bytes`, a list of bytes.
* Go `int` values that hold lengths and offsets are `Nat`; a conversion to a
  fixed-width type is written out (`% 2 ^ 32`, `toInt64`).
* The data directory is a list of `(file name, contents)`; `path.Join(dirname, x)`
  is the name `x`.
* Every reading of the wall clock and every outcome of a system call that the
  program cannot control is an explicit argument (`Env`).
* A Go map is an association list without duplicate keys; `range` over the map
  visits it in list order, so a theorem for all lists holds for every
  iteration order.
-/

namespace Bitcask

/-! ## Bytes and fixed-width integers -/

abbrev Byte := Fin 256

abbrev Bytes := List Byte

/-- The low eight bits of a number, as a byte. -/
def byte (x : Nat) : Byte := ⟨x % 256, Nat.mod_lt x (by decide)⟩

/-- Conversion of a Go integer to `uint32`. -/
def toUint32 (x : Int) : Nat := (x % 4294967296).toNat

/-- Conversion `int(x)` of a 64-bit `uint` to the 64-bit signed `int`. -/
def toInt64 (x : Nat) : Int :=
  if x % 18446744073709551616 < 9223372036854775808 then
    ((x % 18446744073709551616 : Nat) : Int)
  else
    ((x % 18446744073709551616 : Nat) : Int) - 18446744073709551616

/-- The four bytes written by `binary.LittleEndian.PutUint32`. -/
def putUint32 (v : Nat) : Bytes :=
  [byte v, byte (v / 256), byte (v / 65536), byte (v / 16777216)]

/-- The number read by `binary.LittleEndian.Uint32` from the first four bytes of
a slice. Every caller passes a four-byte slice of a header that was read in
full, so the last case (a panic in Go) is never reached. -/
def uint32LE : Bytes → Nat
  | b0 :: b1 :: b2 :: b3 :: _ => b0.val + 256 * b1.val + 65536 * b2.val + 16777216 * b3.val
  | _ => 0

/-! ## Decimal strings: `strconv.Itoa`, `strconv.Atoi`, `strings.Split` -/

/-- Decimal digits of `n`, most significant first; `fuel` bounds the number of
digits. -/
def digitsAux : Nat → Nat → List Nat
  | 0, _ => []
  | fuel + 1, n => if n < 10 then [n] else digitsAux fuel (n / 10) ++ [n % 10]

/-- The decimal text `strconv.Itoa(n)` of a non-negative `n`. -/
def Itoa (n : Nat) : Bytes := (digitsAux (n + 1) n).map (fun d => byte (d + 48))

/-- Whether a byte is one of `0` .. `9`. -/
def isDigit (b : Byte) : Bool := 48 ≤ b.val && b.val ≤ 57

/-- Value of a run of decimal digits, or `none` when a byte is not a digit. -/
def digitsVal : Bytes → Nat → Option Nat
  | [], acc => some acc
  | b :: bs, acc => if isDigit b then digitsVal bs (acc * 10 + (b.val - 48)) else none

/-- The error of a `strconv` conversion: `ErrSyntax` (`malformed`) or `ErrRange`
(`outOfRange`). -/
inductive NumError where
  | malformed
  | outOfRange
  deriving DecidableEq

/-- The loop of `strconv.ParseUint(s, 10, 64)` over the bytes of `s`, with `n` the
value read so far. The bytes are taken from left to right: one that is not a
digit ends the loop with 0 and `ErrSyntax`; a value that leaves the 64 bits
(`n >= cutoff`, or `n * 10 + d` above `2 ^ 64 - 1`) ends it with `2 ^ 64 - 1` and
`ErrRange`, whatever bytes follow. -/
def parseUintLoop : Bytes → Nat → Nat × Option NumError
  | [], n => (n, none)
  | c :: cs, n =>
    if isDigit c then
      if n ≥ 1844674407370955162 then (18446744073709551615, some NumError.outOfRange)
      else
        let n1 := n * 10 + (c.val - 48)
        if n1 > 18446744073709551615 then (18446744073709551615, some NumError.outOfRange)
        else parseUintLoop cs n1
    else (0, some NumError.malformed)

/-- `strconv.ParseUint(s, 10, 64)`: the value and the error. -/
def ParseUint64 (s : Bytes) : Nat × Option NumError :=
  match s with
  | [] => (0, some NumError.malformed)
  | _ => parseUintLoop s 0

/-- `strconv.ParseInt(s, 10, 0)` with a 64-bit `int`: the value and the error.
A sign is taken off, the rest goes through `ParseUint`; on `ErrRange` the value
is the nearest 64-bit bound. -/
def ParseInt (s : Bytes) : Int × Option NumError :=
  match s with
  | [] => (0, some NumError.malformed)
  | b :: bs =>
    let neg : Bool := decide (b.val = 45)
    let rest := if b.val = 43 ∨ b.val = 45 then bs else b :: bs
    match ParseUint64 rest with
    | (_, some NumError.malformed) => (0, some NumError.malformed)
    | (un, _) =>
      if neg = false ∧ un ≥ 9223372036854775808 then
        (9223372036854775807, some NumError.outOfRange)
      else if neg = true ∧ un > 9223372036854775808 then
        (-9223372036854775808, some NumError.outOfRange)
      else (if neg then - (un : Int) else (un : Int), none)

/-- `strconv.Atoi(s)` with a 64-bit `int`: the value and the error. Strings of 1
to 18 bytes take the fast path (a sign, then digits only); all others go
through `ParseInt`. -/
def AtoiErr (s : Bytes) : Int × Option NumError :=
  if 0 < s.length ∧ s.length < 19 then
    match s with
    | [] => (0, some NumError.malformed)
    | b :: bs =>
      let ds := if b.val = 45 ∨ b.val = 43 then bs else b :: bs
      if ds.length < 1 then (0, some NumError.malformed)
      else
        match digitsVal ds 0 with
        | none => (0, some NumError.malformed)
        | some n => (if b.val = 45 then - (n : Int) else (n : Int), none)
  else ParseInt s

/-- The number `strconv.Atoi(s)` returns, its error ignored as the callers do:
`0` on a syntax error, the nearest 64-bit bound on a range error (which is found
before a later byte that is not a digit is looked at). -/
def Atoi (s : Bytes) : Int := (AtoiErr s).1

/-- Auxiliary of `Split`: `cur` is the field read so far, reversed. -/
def splitAux : Bytes → Bytes → List Bytes
  | [], cur => [cur.reverse]
  | b :: bs, cur =>
    if b.val = 46 then cur.reverse :: splitAux bs [] else splitAux bs (b :: cur)

/-- The fields `strings.Split(s, ".")`: always at least one. -/
def Split (s : Bytes) : List Bytes := splitAux s []

/-- The text `.data`. -/
def dotData : Bytes := [46, 100, 97, 116, 97]

/-- The text `.hint`. -/
def dotHint : Bytes := [46, 104, 105, 110, 116]

/-- The text `data`. -/
def strData : Bytes := [100, 97, 116, 97]

/-- The text `hint`. -/
def strHint : Bytes := [104, 105, 110, 116]

/-- Name of the data file with id `fid`: `strconv.Itoa(int(fid)) + ".data"`. -/
def dataName (fid : Nat) : Bytes := Itoa fid ++ dotData

/-- Name of the hint file with id `fid`: `strconv.Itoa(int(fid)) + ".hint"`. -/
def hintName (fid : Nat) : Bytes := Itoa fid ++ dotHint

/-! ## The directory -/

/-- Contents of the data directory: file names with their bytes. -/
abbrev FS := List (Bytes × Bytes)

namespace FS

/-- Contents of the file called `name`, if there is one. -/
def read : FS → Bytes → Option Bytes
  | [], _ => none
  | (n, d) :: rest, name => if n = name then some d else read rest name

/-- Effect of `os.OpenFile(name, O_CREATE|...)`: an absent file is created empty,
an existing file is left as it is. -/
def create (fs : FS) (name : Bytes) : FS :=
  match fs.read name with
  | some _ => fs
  | none => fs ++ [(name, [])]

/-- Effect of a write through an `O_APPEND` handle on `name`: the bytes go to
the end of the file. A handle whose file has been unlinked writes to no name of
the directory. -/
def append : FS → Bytes → Bytes → FS
  | [], _, _ => []
  | (n, d) :: rest, name, bs =>
    if n = name then (n, d ++ bs) :: rest else (n, d) :: append rest name bs

/-- Effect of `os.Remove(name)`; removing an absent file changes nothing. -/
def remove : FS → Bytes → FS
  | [], _ => []
  | (n, d) :: rest, name => if n = name then rest else (n, d) :: remove rest name

/-- Bytewise order of Go strings. -/
def nameLe : Bytes → Bytes → Bool
  | [], _ => true
  | _ :: _, [] => false
  | a :: as, b :: bs => if a.val < b.val then true else if b.val < a.val then false else nameLe as bs

/-- A stable sort by the order `le` (insertion sort): elements that compare equal
keep their order, as with `sort.SliceStable`. -/
def sortBy {α : Type} (le : α → α → Bool) (l : List α) : List α :=
  List.insertionSort (fun a b => le a b = true) l

/-- The names `os.ReadDir` returns: all files, sorted by file name. -/
def readDir (fs : FS) : List Bytes := sortBy nameLe (fs.map Prod.fst)

/-- `ReadAt(buf, off)` with `len(buf) = len`: the bytes, or `none` when the file
ends before `len` bytes were read. Reading zero bytes always succeeds. -/
def readAt (content : Bytes) (off len : Nat) : Option Bytes :=
  if len = 0 then some []
  else if off + len ≤ content.length then some ((content.drop off).take len)
  else none

end FS

/-! ## Records -/

/-- A record of a data file (`DataFileEntry`). -/
structure DataFileEntry where
  Timestamp : Nat
  Ksz : Nat
  Vsz : Nat
  Key : Bytes
  Value : Bytes
  deriving DecidableEq

def DataFileEntryHdrLen : Nat := 12

def HintFileEntryHdrLen : Nat := 16

/-- `DataFileEntry.Serialize`: the length and the buffer. -/
def DataFileEntry.Serialize (df : DataFileEntry) : Nat × Bytes :=
  let n := DataFileEntryHdrLen + df.Key.length + df.Value.length
  (n, putUint32 df.Timestamp ++ putUint32 df.Ksz ++ putUint32 df.Vsz ++ df.Key ++ df.Value)

/-- A record of a hint file (`HintFileEntry`). -/
structure HintFileEntry where
  Timestamp : Nat
  Ksz : Nat
  Vsz : Nat
  ValPos : Nat
  Key : Bytes
  deriving DecidableEq

/-- `HintFileEntry.Serialize`: the length and the buffer. -/
def HintFileEntry.Serialize (hf : HintFileEntry) : Nat × Bytes :=
  let n := HintFileEntryHdrLen + hf.Key.length
  (n, putUint32 hf.Timestamp ++ putUint32 hf.Ksz ++ putUint32 hf.Vsz ++ putUint32 hf.ValPos
        ++ hf.Key)

/-! ## The key directory -/

/-- A locator (`KeyDirEntry`); the four fields are `uint32`. -/
structure KeyDirEntry where
  FileId : Nat
  ValueSz : Nat
  ValuePos : Nat
  Timestamp : Nat
  deriving DecidableEq

/-- The map `KeyDir` from key to locator. -/
abbrev KeyDir := List (Bytes × KeyDirEntry)

namespace KeyDir

/-- The map lookup `kd[k]`. -/
def get : KeyDir → Bytes → Option KeyDirEntry
  | [], _ => none
  | (k, e) :: rest, key => if k = key then some e else get rest key

/-- The map assignment `kd[k] = e`. -/
def set : KeyDir → Bytes → KeyDirEntry → KeyDir
  | [], key, e => [(key, e)]
  | (k, e0) :: rest, key, e => if k = key then (k, e) :: rest else (k, e0) :: set rest key e

end KeyDir

/-! ## The engine -/

/-- An error value returned by an operation, named by the call it comes from. -/
inductive Error where
  | close
  | openFile
  | write
  | readDir
  | read
  | parse
  deriving DecidableEq

/-- How a call that may panic ends. -/
inductive Outcome (α : Type) where
  | ok (a : α)
  | error (e : Error)
  | panic
  deriving DecidableEq

/-- The engine (`Nord`) together with the directory `dirname` it works in.

`activeFile` is the name the open handle was opened on, `none` for a nil or
closed handle. `MaxFileSize` is `Config.MaxFileSize`, a `uint`. -/
structure Nord where
  fs : FS
  keyDir : KeyDir
  activeFileId : Nat
  activeFile : Option Bytes
  writePos : Nat
  MaxFileSize : Nat
  deriving DecidableEq

/-- What `Put` takes from outside the program: the three readings of the clock
(`time.Now().Unix()` for the record, in `updateActiveFile`, for the locator) and
the outcome of the system calls. `writeFails = some m` is a write that returns
an error after `m` bytes reached the file. `Open` and `Merge` read `now`,
`openFails` (the first `os.OpenFile` of the call), `readDirFails`
(`os.ReadDir`) and `openHintFails` (the `os.OpenFile` of the hint file). -/
structure Env where
  now : Nat
  nowRotate : Nat
  nowIndex : Nat
  closeFails : Bool
  openFails : Bool
  writeFails : Option Nat
  readDirFails : Bool
  openHintFails : Bool
  deriving DecidableEq

/-- An environment without failures whose clock reads `t` throughout. -/
def Env.at (t : Nat) : Env :=
  { now := t, nowRotate := t, nowIndex := t, closeFails := false, openFails := false,
    writeFails := none, readDirFails := false, openHintFails := false }

/-- `Nord.updateActiveFile`: close the active file and open `<now>.data`. -/
def updateActiveFile (n : Nord) (env : Env) : Option Error × Nord :=
  let fid := env.nowRotate % 4294967296
  let fpath := dataName fid
  match n.activeFile with
  | none => (some Error.close, n)
  | some _ =>
    if env.closeFails then (some Error.close, { n with activeFile := none })
    else if env.openFails then (some Error.openFile, { n with activeFile := none })
    else
      (none, { n with fs := n.fs.create fpath, activeFile := some fpath, activeFileId := fid,
                      writePos := 0 })

/-- `activeFile.Write(buf)`: the error, if any, and the directory afterwards. -/
def writeActive (n : Nord) (env : Env) (buf : Bytes) : Option Error × FS :=
  match n.activeFile with
  | none => (some Error.write, n.fs)
  | some name =>
    match env.writeFails with
    | some m => (some Error.write, n.fs.append name (buf.take m))
    | none => (none, n.fs.append name buf)

/-- `Nord.Put`. -/
def Put (n : Nord) (key val : Bytes) (env : Env) : Option Error × Nord :=
  let ksz := key.length
  let vsz := val.length
  let dfe : DataFileEntry :=
    { Timestamp := env.now % 4294967296, Ksz := ksz % 4294967296, Vsz := vsz % 4294967296,
      Key := key, Value := val }
  let (nbytes, buf) := dfe.Serialize
  let rotated : Option Error × Nord :=
    if ((nbytes + n.writePos : Nat) : Int) ≥ toInt64 n.MaxFileSize then updateActiveFile n env
    else (none, n)
  match rotated with
  | (some err, n1) => (some err, n1)
  | (none, n1) =>
    match writeActive n1 env buf with
    | (some err, fs1) => (some err, { n1 with fs := fs1 })
    | (none, fs1) =>
      (none, { n1 with
        fs := fs1
        keyDir := n1.keyDir.set key
          { FileId := n1.activeFileId, ValueSz := vsz % 4294967296,
            ValuePos := n1.writePos % 4294967296, Timestamp := env.nowIndex % 4294967296 }
        writePos := n1.writePos + nbytes })

/-- `Nord.Get`: the value and whether it was found. -/
def Get (n : Nord) (key : Bytes) : Bytes × Bool :=
  match n.keyDir.get key with
  | none => ([], false)
  | some e =>
    if e.ValueSz = 0 then ([], false)
    else
      match n.fs.read (dataName e.FileId) with
      | none => ([], false)
      | some content =>
        match FS.readAt content (e.ValuePos + 12 + key.length) e.ValueSz with
        | none => ([], false)
        | some val => (val, true)

/-- `Nord.Delete`. -/
def Delete (n : Nord) (key : Bytes) : Nord :=
  match n.keyDir.get key with
  | none => n
  | some e =>
    if e.ValueSz = 0 then n
    else { n with keyDir := n.keyDir.set key
                    { FileId := 0, ValueSz := 0, ValuePos := 0, Timestamp := 0 } }

/-- `Nord.ListKeys`: `make([]string, len(keyDir))` followed by one `append` per
key of the map. -/
def ListKeys (n : Nord) : List Bytes :=
  List.replicate n.keyDir.length [] ++ n.keyDir.map Prod.fst

/-- `Nord.Close`. -/
def Close (n : Nord) : Nord := { n with activeFile := none }

/-! ## Building the key directory at startup -/

/-- A directory entry with the id and the kind `getFileInfo` reads from its name. -/
structure FileInfo where
  name : Bytes
  id : Nat
  ftype : Bytes
  deriving DecidableEq

/-- `getFileInfo`: `none` is the panic of `f[1]` on a name without a dot. -/
def getFileInfo (fname : Bytes) : Option (Nat × Bytes) :=
  match Split fname with
  | f0 :: f1 :: _ => some (toUint32 (Atoi f0), f1)
  | _ => none

/-- `getFileInfo` on every name of a listing. -/
def fileInfos : List Bytes → Option (List FileInfo)
  | [] => some []
  | name :: rest =>
    match getFileInfo name, fileInfos rest with
    | some (id, ftype), some infos => some ({ name := name, id := id, ftype := ftype } :: infos)
    | _, _ => none

/-- The loop of `buildKeyDir` over the records of a hint file, from `readPos`. -/
def scanHint (fid : Nat) (content : Bytes) : Nat → Nat → KeyDir → Outcome KeyDir
  | 0, _, keyDir => Outcome.ok keyDir
  | fuel + 1, readPos, keyDir =>
    match FS.readAt content readPos HintFileEntryHdrLen with
    | none => Outcome.ok keyDir
    | some buf =>
      let kdval : KeyDirEntry :=
        { FileId := fid
          Timestamp := uint32LE (buf.take 4)
          ValueSz := uint32LE ((buf.drop 8).take 4)
          ValuePos := uint32LE ((buf.drop 12).take 4) }
      let ksz := uint32LE ((buf.drop 4).take 4)
      match FS.readAt content (readPos + HintFileEntryHdrLen) ksz with
      | none => Outcome.error Error.read
      | some kdkey =>
        scanHint fid content fuel (readPos + HintFileEntryHdrLen + ksz) (keyDir.set kdkey kdval)

/-- The loop of `buildKeyDir` over the records of a data file, from `readPos`. -/
def scanData (fid : Nat) (content : Bytes) : Nat → Nat → KeyDir → Outcome KeyDir
  | 0, _, keyDir => Outcome.ok keyDir
  | fuel + 1, readPos, keyDir =>
    match FS.readAt content readPos DataFileEntryHdrLen with
    | none => Outcome.ok keyDir
    | some buf =>
      let ksz := uint32LE ((buf.drop 4).take 4)
      let kdval : KeyDirEntry :=
        { FileId := fid
          Timestamp := uint32LE (buf.take 4)
          ValueSz := uint32LE ((buf.drop 8).take 4)
          ValuePos := readPos % 4294967296 }
      match FS.readAt content (readPos + DataFileEntryHdrLen) ksz with
      | none => Outcome.error Error.read
      | some kdkey =>
        scanData fid content fuel
          (readPos + DataFileEntryHdrLen + (ksz + kdval.ValueSz) % 4294967296)
          (keyDir.set kdkey kdval)

/-- The body of the second loop of `buildKeyDir` for one directory entry. Every
iteration of a scan moves `readPos` forward by at least the header length, so
a fuel of the file length plus one is never used up. -/
def processFile (fs : FS) (hintMap : List Nat) (file : FileInfo) (keyDir : KeyDir) :
    Outcome KeyDir :=
  if file.ftype = strHint then Outcome.ok keyDir
  else if file.id ∈ hintMap then
    match fs.read (hintName file.id) with
    | none => Outcome.panic
    | some content => scanHint file.id content (content.length + 1) 0 keyDir
  else
    match fs.read file.name with
    | none => Outcome.panic
    | some content => scanData file.id content (content.length + 1) 0 keyDir

/-- The second loop of `buildKeyDir`. -/
def processFiles (fs : FS) (hintMap : List Nat) : List FileInfo → KeyDir → Outcome KeyDir
  | [], keyDir => Outcome.ok keyDir
  | file :: rest, keyDir =>
    match processFile fs hintMap file keyDir with
    | Outcome.ok keyDir1 => processFiles fs hintMap rest keyDir1
    | Outcome.error e => Outcome.error e
    | Outcome.panic => Outcome.panic

/-- `buildKeyDir` of `src/bitcask/keydir.go` on an existing directory (a missing
directory is created and read as the empty one). -/
def buildKeyDir (fs : FS) (env : Env) : Outcome KeyDir :=
  if env.readDirFails then Outcome.error Error.readDir
  else
    match fileInfos (FS.readDir fs) with
    | none => Outcome.panic
    | some infos =>
      let files := FS.sortBy (fun a b => decide (a.id ≤ b.id)) infos
      let hintMap := (files.filter (fun f => f.ftype = strHint)).map (fun f => f.id)
      processFiles fs hintMap files []

/-- `Nord.Open`. -/
def Open (n : Nord) (env : Env) : Outcome Nord :=
  match buildKeyDir n.fs env with
  | Outcome.ok kd =>
    let fid := env.now % 4294967296
    if env.openFails then Outcome.panic
    else
      Outcome.ok { n with keyDir := kd, activeFileId := fid, fs := n.fs.create (dataName fid),
                          activeFile := some (dataName fid) }
  | _ => Outcome.panic

/-- `NewNord` on the directory `fs` with `Config.MaxFileSize = maxFileSize`. -/
def NewNord (fs : FS) (maxFileSize : Nat) (env : Env) : Outcome Nord :=
  Open { fs := fs, keyDir := [], activeFileId := 0, activeFile := none, writePos := 0,
         MaxFileSize := maxFileSize } env

/-! ## Merge -/

/-- The first field `strings.Split(name, ".")[0]` of a file name. -/
def stem (name : Bytes) : Bytes := (Split name).headD []

/-- The fields `f[0]`, `f[1]` of every name of a listing; `none` is the panic of
`f[1]` on a name without a dot. -/
def nameFields : List Bytes → Option (List (Bytes × Bytes))
  | [] => some []
  | name :: rest =>
    match Split name, nameFields rest with
    | f0 :: f1 :: _, some fields => some ((f0, f1) :: fields)
    | _, _ => none

/-- The second loop of `Merge`: the ids to merge and the id of the merged file. -/
def selectMerge (n : Nord) (fileMap : List Bytes) :
    List (Bytes × Bytes) → List Nat → Nat → List Nat × Nat
  | [], toMerge, mergefid => (toMerge, mergefid)
  | (fname, ftype) :: rest, toMerge, mergefid =>
    if fname ∈ fileMap then selectMerge n fileMap rest toMerge mergefid
    else if ftype = strData ∧ fname ≠ Itoa n.activeFileId then
      if (n.keyDir.get fname).isSome then selectMerge n fileMap rest toMerge mergefid
      else
        let fid := toUint32 (Atoi fname)
        selectMerge n fileMap rest (if fid ∈ toMerge then toMerge else toMerge ++ [fid])
          (if fid > mergefid then fid else mergefid)
    else selectMerge n fileMap rest toMerge mergefid

/-- The state of the copying loop of `Merge`. -/
structure MergeState where
  fs : FS
  newKeyDir : KeyDir
  writePos : Nat
  deriving DecidableEq

/-- The copying loop of `Merge` over the entries of the key directory; `none` is
a `log.Panicf`. -/
def copyLive (toMerge : List Nat) (mergefid : Nat) (env : Env) :
    KeyDir → MergeState → Option MergeState
  | [], st => some st
  | (key, kdval) :: rest, st =>
    if kdval.FileId ∈ toMerge then
      match st.fs.read (dataName kdval.FileId) with
      | none => none
      | some content =>
        match FS.readAt content kdval.ValuePos (12 + key.length + kdval.ValueSz) with
        | none => none
        | some buf =>
          if env.writeFails.isSome then none
          else
            let he : HintFileEntry :=
              { Timestamp := kdval.Timestamp, Ksz := key.length % 4294967296,
                Vsz := kdval.ValueSz, ValPos := st.writePos % 4294967296, Key := key }
            copyLive toMerge mergefid env rest
              { fs := (st.fs.append (dataName mergefid) buf).append (hintName mergefid)
                        he.Serialize.2
                newKeyDir := st.newKeyDir.set key
                  { FileId := mergefid, ValueSz := kdval.ValueSz,
                    ValuePos := st.writePos % 4294967296, Timestamp := kdval.Timestamp }
                writePos := st.writePos + (12 + key.length + kdval.ValueSz) }
    else copyLive toMerge mergefid env rest st

/-- `Nord.Merge`. The map `newKeyDir` the copying loop fills is a local variable
that the function never stores in the engine. -/
def Merge (n : Nord) (env : Env) : Outcome (Option Error × Nord) :=
  if env.readDirFails then Outcome.ok (some Error.readDir, n)
  else
    let files := FS.sortBy (fun a b => decide (Atoi (stem a) ≤ Atoi (stem b))) (FS.readDir n.fs)
    match nameFields files with
    | none => Outcome.panic
    | some fields =>
      let fileMap := (fields.filter (fun f => f.2 = strHint)).map Prod.fst
      let (toMerge, mergefid) :=
        selectMerge n fileMap fields [] ((n.activeFileId + 1) % 4294967296)
      if toMerge.length ≤ 1 then Outcome.ok (none, n)
      else if env.openFails then Outcome.ok (some Error.openFile, n)
      else
        let fs1 := n.fs.create (dataName mergefid)
        if env.openHintFails then Outcome.ok (some Error.openFile, { n with fs := fs1 })
        else
          let fs2 := fs1.create (hintName mergefid)
          match copyLive toMerge mergefid env n.keyDir
              { fs := fs2, newKeyDir := [], writePos := 0 } with
          | none => Outcome.panic
          | some st =>
            Outcome.ok (none, { n with fs := toMerge.foldl (fun fs fid => fs.remove (dataName fid))
                                                st.fs })

/-! ## Sequences of operations and fixtures -/

/-- The engine `NewNord` returns on an empty directory at clock reading `t`
(`t` below `2 ^ 32`). -/
def emptyStore (maxFileSize t : Nat) : Nord :=
  { fs := [(dataName t, [])], keyDir := [], activeFileId := t, activeFile := some (dataName t),
    writePos := 0, MaxFileSize := maxFileSize }

/-- The key `1`. -/
def key1 : Bytes := [49]

/-- The key `2`. -/
def key2 : Bytes := [50]

/-- The key `3`. -/
def key3 : Bytes := [51]

/-- The value `Nikit`. -/
def valNikit : Bytes := [78, 105, 107, 105, 116]

/-- The value `Nick`. -/
def valNick : Bytes := [78, 105, 99, 107]

/-- The value `Gen`. -/
def valGen : Bytes := [71, 101, 110]

/-- The bytes `Put(key, val)` appends: the serialized record stamped `env.now`. -/
def recordBytes (key val : Bytes) (env : Env) : Bytes :=
  (DataFileEntry.Serialize
    { Timestamp := env.now % 4294967296, Ksz := key.length % 4294967296,
      Vsz := val.length % 4294967296, Key := key, Value := val }).2

/-- The test `nbytes + n.writePos >= int(n.Config.MaxFileSize)` of `Put`. -/
def rotates (n : Nord) (key val : Bytes) : Prop :=
  ((DataFileEntryHdrLen + key.length + val.length + n.writePos : Nat) : Int) ≥ toInt64 n.MaxFileSize

instance (n : Nord) (key val : Bytes) : Decidable (rotates n key val) := by
  unfold rotates
  infer_instance

/-- The locator `Put(key, val)` stores when it writes at `n.writePos` of the
active file of `n`. -/
def putEntry (n : Nord) (val : Bytes) (env : Env) : KeyDirEntry :=
  { FileId := n.activeFileId, ValueSz := val.length % 4294967296,
    ValuePos := n.writePos % 4294967296, Timestamp := env.nowIndex % 4294967296 }

/-- The engine after three `Put`s with `MaxFileSize = 20`, opened at second 5:
`"1" -> "Nikit"` in `5.data`, `"2" -> "Nick"` in `7.data`, `"3" -> "Gen"` in
`8.data` (the active file). -/
def threeFiles : Nord :=
  (Put (Put (Put (emptyStore 20 5) key1 valNikit (Env.at 6)).2 key2 valNick (Env.at 7)).2
    key3 valGen (Env.at 8)).2

/-! ## Reachable states -/

/-- Every file of the directory is called `<id>.data` or `<id>.hint`, with `id`
the decimal text of a `uint32`. -/
def canonical (fs : FS) : Prop :=
  ∀ name ∈ fs.map Prod.fst, ∃ id, id < 4294967296 ∧ (name = dataName id ∨ name = hintName id)

/-- The states the engine reaches when no file id is used twice and no write
stops part-way: `NewNord` on a directory of well-formed names that has no
`<now>.data` yet, then any `Put` (failing or not) whose rotation, if it comes to
one, opens a data file that does not exist, any `Delete`, any `Merge` that
returns. -/
inductive Reachable : Nord → Prop where
  | start (fs0 : FS) (maxFileSize : Nat) (env : Env) (n : Nord)
      (hnames : canonical fs0)
      (hfresh : fs0.read (dataName (env.now % 4294967296)) = none)
      (hopen : NewNord fs0 maxFileSize env = Outcome.ok n) : Reachable n
  | put (n : Nord) (key val : Bytes) (env : Env) (hn : Reachable n)
      (hfresh : rotates n key val → n.fs.read (dataName (env.nowRotate % 4294967296)) = none)
      (hwrite : ∀ m, env.writeFails = some m → m = 0) : Reachable (Put n key val env).2
  | delete (n : Nord) (key : Bytes) (hn : Reachable n) : Reachable (Delete n key)
  | merge (n n1 : Nord) (env : Env) (r : Option Error) (hn : Reachable n)
      (hmerge : Merge n env = Outcome.ok (r, n1)) : Reachable n1

/-- The active file is `<activeFileId>.data`, it exists, and `writePos` is its
length; all names are well formed. -/
def ActiveOk (fs : FS) (activeFileId : Nat) (activeFile : Option Bytes) (writePos : Nat) : Prop :=
  activeFileId < 4294967296 ∧ canonical fs ∧
    (∀ name, activeFile = some name → name = dataName activeFileId) ∧
    ∃ c, fs.read (dataName activeFileId) = some c ∧ c.length = writePos

/-- The engine `Merge` leaves from `threeFiles`: `5.data` and `7.data` are gone,
`9.data` and `9.hint` hold the records of `"1"` and `"2"` (in the order the key
directory is visited), and the key directory is the one of `threeFiles`. -/
def threeFilesMerged : Nord :=
  { threeFiles with
    fs := [(dataName 8, recordBytes key3 valGen (Env.at 8)),
           (dataName 9, recordBytes key1 valNikit (Env.at 6) ++ recordBytes key2 valNick (Env.at 7)),
           (hintName 9,
             (HintFileEntry.Serialize
               { Timestamp := 6, Ksz := 1, Vsz := 5, ValPos := 0, Key := key1 }).2 ++
             (HintFileEntry.Serialize
               { Timestamp := 7, Ksz := 1, Vsz := 4, ValPos := 18, Key := key2 }).2)] }

/-! ## Sequences of puts -/

/-- One call `Put(key, val)` with what it takes from outside. -/
structure PutCall where
  key : Bytes
  val : Bytes
  env : Env
  deriving DecidableEq

/-- The calls in order; `none` as soon as one of them returns an error. -/
def putAll : Nord → List PutCall → Option Nord
  | n, [] => some n
  | n, op :: rest =>
    match Put n op.key op.val op.env with
    | (none, n1) => putAll n1 rest
    | (some _, _) => none

/-- The value of the most recent `Put(key, .)` among the calls, if there is one. -/
def lastPut : List PutCall → Bytes → Option Bytes
  | [], _ => none
  | op :: rest, key =>
    match lastPut rest key with
    | some v => some v
    | none => if op.key = key then some op.val else none

/-- The total encoded size of the records of the calls. -/
def totalSize : List PutCall → Nat
  | [] => 0
  | op :: rest => DataFileEntryHdrLen + op.key.length + op.val.length + totalSize rest

/-- Every rotation during the calls opens a data file that does not exist yet:
the clock second it reads is not the id of a file of the directory. -/
def freshRotations : Nord → List PutCall → Prop
  | _, [] => True
  | n, op :: rest =>
    (rotates n op.key op.val → n.fs.read (dataName (op.env.nowRotate % 4294967296)) = none) ∧
      freshRotations (Put n op.key op.val op.env).2 rest

instance freshRotationsDecidable : (n : Nord) → (ops : List PutCall) →
    Decidable (freshRotations n ops)
  | _, [] => isTrue trivial
  | n, op :: rest =>
    have := freshRotationsDecidable (Put n op.key op.val op.env).2 rest
    inferInstanceAs (Decidable (_ ∧ _))

/-- Every key with a latest put value has a locator that leads to that value:
the file exists and holds the value at `ValuePos + 12 + len(key)`. -/
def GetOk (n : Nord) (ops : List PutCall) : Prop :=
  ∀ k v, lastPut ops k = some v →
    ∃ e c, n.keyDir.get k = some e ∧ e.ValueSz = v.length % 4294967296 ∧
      n.fs.read (dataName e.FileId) = some c ∧
      e.ValuePos + 12 + k.length + v.length ≤ c.length ∧
      (c.drop (e.ValuePos + 12 + k.length)).take v.length = v

/-- The directory holds at least two data files. -/
def twoDataFiles (fs : FS) : Prop :=
  ∃ i j, i ≠ j ∧ fs.read (dataName i) ≠ none ∧ fs.read (dataName j) ≠ none

/-- The three puts of `Test_Nord`, all at second 1700000000. -/
def testPuts : List PutCall :=
  [{ key := key1, val := valNikit, env := Env.at 1700000000 },
   { key := key2, val := valNick, env := Env.at 1700000000 },
   { key := key3, val := valGen, env := Env.at 1700000000 }]

/-- Two puts at second 5. -/
def sameSecondPuts : List PutCall :=
  [{ key := key1, val := valNikit, env := Env.at 5 },
   { key := key2, val := valNick, env := Env.at 5 }]

/-- Three puts at seconds 6, 7 and 8. -/
def risingPuts : List PutCall :=
  [{ key := key1, val := valNikit, env := Env.at 6 },
   { key := key2, val := valNick, env := Env.at 7 },
   { key := key3, val := valGen, env := Env.at 8 }]

/-- The engine of `Test_Nord` after its three puts. -/
def afterTestPuts : Nord :=
  (Put (Put (Put (emptyStore 128 1700000000) key1 valNikit (Env.at 1700000000)).2
    key2 valNick (Env.at 1700000000)).2 key3 valGen (Env.at 1700000000)).2

/-! ## The directory as a log of records -/

/-- A record as `Put` writes it: the timestamp (a `uint32`), the key, the value. -/
structure Rec where
  ts : Nat
  key : Bytes
  val : Bytes
  deriving DecidableEq

/-- The bytes of a record in a data file. -/
def Rec.bytes (r : Rec) : Bytes :=
  (DataFileEntry.Serialize
    { Timestamp := r.ts, Ksz := r.key.length % 4294967296, Vsz := r.val.length % 4294967296,
      Key := r.key, Value := r.val }).2

/-- The contents of a data file that holds the records `recs`. -/
def encodeRecs : List Rec → Bytes
  | [] => []
  | r :: rest => r.bytes ++ encodeRecs rest

/-- A data file as its id and the records written to it. -/
structure LogFile where
  id : Nat
  recs : List Rec
  deriving DecidableEq

/-- The directory that holds the data files of a log and nothing else. -/
def logFS (L : List LogFile) : FS := L.map (fun f => (dataName f.id, encodeRecs f.recs))

/-- The key directory after the records `recs` of file `fid`, the first of them
at offset `pos`, were entered in order. -/
def indexRecs (fid : Nat) : List Rec → Nat → KeyDir → KeyDir
  | [], _, kd => kd
  | r :: rest, pos, kd =>
    indexRecs fid rest (pos + r.bytes.length)
      (kd.set r.key
        { FileId := fid, ValueSz := r.val.length % 4294967296, ValuePos := pos % 4294967296,
          Timestamp := r.ts })

/-- The key directory after the files of a log were entered in order. -/
def indexLog : List LogFile → KeyDir → KeyDir
  | [], kd => kd
  | f :: rest, kd => indexLog rest (indexRecs f.id f.recs 0 kd)

/-- A locator without its timestamp. -/
def eraseTs (e : KeyDirEntry) : KeyDirEntry := { e with Timestamp := 0 }

/-- A key directory without its timestamps. -/
def KeyDir.eraseTs (kd : KeyDir) : KeyDir := kd.map (fun p => (p.1, Bitcask.eraseTs p.2))

/-- The directory entry of the data file `id`. -/
def mkInfo (id : Nat) : FileInfo := { name := dataName id, id := id, ftype := strData }

/-- Every record has a `uint32` timestamp and key and value lengths whose sum is
below `2 ^ 32`. -/
def recsSmall (recs : List Rec) : Prop :=
  ∀ r ∈ recs, r.ts < 4294967296 ∧ r.key.length + r.val.length < 4294967296

/-- Every rotation during the calls happens at a clock second (a `uint32`)
after the one the active file is named after. -/
def risingRotations : Nord → List PutCall → Prop
  | _, [] => True
  | n, op :: rest =>
    (rotates n op.key op.val →
        n.activeFileId < op.env.nowRotate ∧ op.env.nowRotate < 4294967296) ∧
      risingRotations (Put n op.key op.val op.env).2 rest

instance risingRotationsDecidable : (n : Nord) → (ops : List PutCall) →
    Decidable (risingRotations n ops)
  | _, [] => isTrue trivial
  | n, op :: rest =>
    have := risingRotationsDecidable (Put n op.key op.val op.env).2 rest
    inferInstanceAs (Decidable (_ ∧ _))

/-- Key and value of every call are together shorter than `2 ^ 32` bytes. -/
def smallRecords (ops : List PutCall) : Prop :=
  ∀ op ∈ ops, op.key.length + op.val.length < 4294967296

instance (ops : List PutCall) : Decidable (smallRecords ops) := by
  unfold smallRecords
  infer_instance

/-- The engine state matches a log: the directory is the files of the log, ids
ascending, the active file is the last one and `writePos` its length, and the
key directory is, timestamps apart, the one the log gives. -/
def LogOk (n : Nord) (L : List LogFile) : Prop :=
  n.fs = logFS L ∧
    (L.map (fun f => f.id)).Pairwise (fun a b => a < b) ∧
    (∀ f ∈ L, f.id < 4294967296 ∧ recsSmall f.recs) ∧
    (∃ init recs, L = init ++ [{ id := n.activeFileId, recs := recs }] ∧
      n.writePos = (encodeRecs recs).length) ∧
    n.activeFile = some (dataName n.activeFileId) ∧
    n.keyDir.eraseTs = (indexLog L []).eraseTs

/-! ## Reading a record back -/

/-- The reads the engine does on a record that starts at offset 0 of `buf`: the
12-byte header and its three little-endian fields and the key of `ksz` bytes at
offset 12 (as in `buildKeyDir`), the value of `vsz` bytes at offset
`12 + ksz` (as in `Get`). -/
def decodeRecord (buf : Bytes) : Option DataFileEntry :=
  match FS.readAt buf 0 DataFileEntryHdrLen with
  | none => none
  | some hdr =>
    let ts := uint32LE (hdr.take 4)
    let ksz := uint32LE ((hdr.drop 4).take 4)
    let vsz := uint32LE ((hdr.drop 8).take 4)
    match FS.readAt buf DataFileEntryHdrLen ksz, FS.readAt buf (DataFileEntryHdrLen + ksz) vsz with
    | some key, some val =>
      some { Timestamp := ts, Ksz := ksz, Vsz := vsz, Key := key, Value := val }
    | _, _ => none

/-- The write position at which `Put(key, val)` appends: 0 in a freshly rotated
file, `n.writePos` otherwise. -/
def appendPos (n : Nord) (key val : Bytes) : Nat :=
  if rotates n key val then 0 else n.writePos

/-- A directory that holds the empty data file `9.data`. -/
def dirNine : FS := [(dataName 9, [])]

/-! ## What `Merge` selects -/

/-- The listing `Merge` works on: the names of the directory sorted by name and
then, stably, by the number in front of the first dot. -/
def mergeListing (n : Nord) : List Bytes :=
  FS.sortBy (fun a b => decide (Atoi (stem a) ≤ Atoi (stem b))) (FS.readDir n.fs)

/-- The set `toMerge` of file ids and the id `mergefid` of the merged file that
`Merge` computes in its first two loops; `none` is the panic on a name without a
dot. -/
def mergePlan (n : Nord) : Option (List Nat × Nat) :=
  match nameFields (mergeListing n) with
  | none => none
  | some fields =>
    some (selectMerge n ((fields.filter (fun f => f.2 = strHint)).map Prod.fst) fields []
      ((n.activeFileId + 1) % 4294967296))

/-- The engine with the key `5` in `5.data`, the key `2` in `7.data` and the key
`3` in the active file `8.data` (`MaxFileSize = 20`, opened at second 5). -/
def keyNamedFive : Nord :=
  (Put (Put (Put (emptyStore 20 5) [53] valNikit (Env.at 6)).2 key2 valNick (Env.at 7)).2
    key3 valGen (Env.at 8)).2

/-- A directory whose data files have ids ahead of the clock: `20.data` holds
`"1" -> "Nikit"`, `30.data` holds `"2" -> "Nick"`. -/
def aheadDir : FS :=
  [(dataName 20, encodeRecs [{ ts := 20, key := key1, val := valNikit }]),
   (dataName 30, encodeRecs [{ ts := 30, key := key2, val := valNick }])]

/-- The engine `NewNord` returns on `aheadDir` at second 8 (`MaxFileSize = 128`):
the active file is `8.data`. -/
def aheadStore : Nord :=
  { fs := aheadDir ++ [(dataName 8, [])]
    keyDir := [(key1, { FileId := 20, ValueSz := 5, ValuePos := 0, Timestamp := 20 }),
               (key2, { FileId := 30, ValueSz := 4, ValuePos := 0, Timestamp := 30 })]
    activeFileId := 8
    activeFile := some (dataName 8)
    writePos := 0
    MaxFileSize := 128 }

/-- The engine `Merge` leaves from `aheadStore`: `20.data` and `30.data` are gone,
and with `30.data` the copies that were appended to it; `30.hint` holds the two
hint records. -/
def aheadMerged : Nord :=
  { aheadStore with
    fs := [(dataName 8, []),
           (hintName 30,
             (HintFileEntry.Serialize
               { Timestamp := 20, Ksz := 1, Vsz := 5, ValPos := 0, Key := key1 }).2 ++
             (HintFileEntry.Serialize
               { Timestamp := 30, Ksz := 1, Vsz := 4, ValPos := 18, Key := key2 }).2)] }

/-! ## Directories of data files in any order -/

/-- The files of a log in the order the index builder visits them: by id,
ascending. -/
def sortLog (L : List LogFile) : List LogFile :=
  FS.sortBy (fun a b => decide (a.id ≤ b.id)) L

/-- A log of two data files, listed newest first: `7.data` with `"1" -> "Nick"`,
and `5.data` with `"1" -> "Nikit"` followed by `"2" -> "Gen"`. -/
def twoFileLog : List LogFile :=
  [{ id := 7, recs := [{ ts := 7, key := key1, val := valNick }] },
   { id := 5, recs := [{ ts := 6, key := key1, val := valNikit },
                       { ts := 6, key := key2, val := valGen }] }]

/-! ## Data files with a torn tail -/

/-- A data file that holds complete records followed by the first `cut` bytes of
one more record `last`, as a write that stopped part-way leaves it (`cut = 0`:
nothing of it). -/
structure TornFile where
  id : Nat
  recs : List Rec
  last : Rec
  cut : Nat
  deriving DecidableEq

/-- The contents of the file. -/
def TornFile.bytes (f : TornFile) : Bytes := encodeRecs f.recs ++ f.last.bytes.take f.cut

/-- The cut is inside the header of the last record: fewer than 12 of its bytes
are there. -/
def TornFile.inHeader (f : TornFile) : Prop := f.cut < DataFileEntryHdrLen

/-- The cut is inside the key of the last record: the header is complete, the
key is not. -/
def TornFile.inKey (f : TornFile) : Prop :=
  DataFileEntryHdrLen ≤ f.cut ∧ f.cut < DataFileEntryHdrLen + f.last.key.length

/-- The cut is inside the value of the last record: header and key are
complete, the value is not. -/
def TornFile.inValue (f : TornFile) : Prop :=
  DataFileEntryHdrLen + f.last.key.length ≤ f.cut ∧ f.cut < f.last.bytes.length

instance (f : TornFile) : Decidable f.inHeader := by
  unfold TornFile.inHeader
  infer_instance

instance (f : TornFile) : Decidable f.inKey := by
  unfold TornFile.inKey
  infer_instance

instance (f : TornFile) : Decidable f.inValue := by
  unfold TornFile.inValue
  infer_instance

/-- The records of the file whose header and key are complete: all the complete
records and, when the cut is inside its value, the last one. -/
def TornFile.visible (f : TornFile) : LogFile :=
  { id := f.id
    recs := f.recs ++ (if DataFileEntryHdrLen + f.last.key.length ≤ f.cut then [f.last] else []) }

/-- The directory that holds the given data files and nothing else. -/
def tornFS (T : List TornFile) : FS := T.map (fun f => (dataName f.id, f.bytes))

/-- The data file `5.data` with the record `"1" -> "Nikit"` and, after it, the
16-byte record `"abc" -> "v"` without its last 3 bytes: the file ends inside
the key. -/
def tornInKey : List TornFile :=
  [{ id := 5, recs := [{ ts := 6, key := key1, val := valNikit }],
     last := { ts := 6, key := [97, 98, 99], val := [118] }, cut := 13 }]

/-- Two data files with torn tails: `5.data` holds `"1" -> "Nikit"` and the
17-byte record `"2" -> "Nick"` without its last 3 bytes (the cut is inside the
value); `7.data` holds `"3" -> "Gen"` and the first 5 bytes of a header. -/
def tornInValue : List TornFile :=
  [{ id := 7, recs := [{ ts := 7, key := key3, val := valGen }],
     last := { ts := 8, key := key1, val := valNick }, cut := 5 },
   { id := 5, recs := [{ ts := 6, key := key1, val := valNikit }],
     last := { ts := 6, key := key2, val := valNick }, cut := 14 }]

/-! ## The index builder of `src/keydir.go` -/

/-- The number `strconv.ParseUint(s, 10, 32)` returns; `none` is its error: no
digits, a byte that is not a digit (a sign included), or a value of `2 ^ 32` or
more. -/
def ParseUint32 (s : Bytes) : Option Nat :=
  match s with
  | [] => none
  | _ =>
    match digitsVal s 0 with
    | none => none
    | some v => if v < 4294967296 then some v else none

/-- The second loop of `BuildKeyDir` over the sorted listing. -/
def scanEntries (fs : FS) (fileMap : List Bytes) : List Bytes → KeyDir → Outcome KeyDir
  | [], keyDir => Outcome.ok keyDir
  | name :: rest, keyDir =>
    match Split name with
    | fname :: ftype :: _ =>
      if ftype = strHint then scanEntries fs fileMap rest keyDir
      else
        match ParseUint32 fname with
        | none => Outcome.error Error.parse
        | some fid =>
          if fname ∈ fileMap then
            match fs.read (fname ++ dotHint) with
            | none => Outcome.panic
            | some content =>
              match scanHint fid content (content.length + 1) 0 keyDir with
              | Outcome.ok keyDir1 => scanEntries fs fileMap rest keyDir1
              | Outcome.error e => Outcome.error e
              | Outcome.panic => Outcome.panic
          else
            match fs.read name with
            | none => Outcome.panic
            | some content =>
              match scanData fid content (content.length + 1) 0 keyDir with
              | Outcome.ok keyDir1 => scanEntries fs fileMap rest keyDir1
              | Outcome.error e => Outcome.error e
              | Outcome.panic => Outcome.panic
    | _ => scanEntries fs fileMap rest keyDir

/-- `BuildKeyDir` of `src/keydir.go` on an existing directory. The first loop
reads `f[1]` of every name and panics on a name without a dot (`nameFields`);
the test `len(f) < 2` of the second loop comes after it. -/
def BuildKeyDir (fs : FS) (env : Env) : Outcome KeyDir :=
  if env.readDirFails then Outcome.error Error.readDir
  else
    let files := FS.sortBy (fun a b => decide (Atoi (stem a) ≤ Atoi (stem b))) (FS.readDir fs)
    match nameFields files with
    | none => Outcome.panic
    | some fields =>
      let fileMap := (fields.filter (fun f => f.2 = strHint)).map Prod.fst
      scanEntries fs fileMap files []

/-- A directory that holds the file `foo.data` with the record
`"1" -> "Nikit"`. -/
def dirFoo : FS :=
  [([102, 111, 111] ++ dotData, encodeRecs [{ ts := 6, key := key1, val := valNikit }])]

/-- A directory that holds the empty file `LOCK`. -/
def dirLock : FS := [([76, 79, 67, 75], [])]

/-- The stem `99999999999999999999x`: twenty digits, more than 64 bits hold,
followed by a byte that is not a digit. -/
def stemNines : Bytes := List.replicate 20 57 ++ [120]

/-- A directory that holds the file `99999999999999999999x.data` with the record
`"1" -> "Nikit"`. -/
def dirNines : FS :=
  [(stemNines ++ dotData, encodeRecs [{ ts := 6, key := key1, val := valNikit }])]

/-! ## The files `Merge` writes -/

/-- The hint record `Merge` writes for the record `r` it copied to offset `pos`
of the merged data file; `ts` is the timestamp of the key directory entry. -/
def hintBytes (ts : Nat) (r : Rec) (pos : Nat) : Bytes :=
  (HintFileEntry.Serialize
    { Timestamp := ts, Ksz := r.key.length % 4294967296, Vsz := r.val.length,
      ValPos := pos % 4294967296, Key := r.key }).2

/-- The contents of the hint file for the copied records, each with the
timestamp of its key directory entry, the first of them copied to offset `pos`
of the merged data file. -/
def encodeHints : List (Nat × Rec) → Nat → Bytes
  | [], _ => []
  | c :: rest, pos => hintBytes c.1 c.2 pos ++ encodeHints rest (pos + c.2.bytes.length)

/-- The key directory after the hint records were entered in order. -/
def indexHints (fid : Nat) : List (Nat × Rec) → Nat → KeyDir → KeyDir
  | [], _, kd => kd
  | c :: rest, pos, kd =>
    indexHints fid rest (pos + c.2.bytes.length)
      (kd.set c.2.key
        { FileId := fid, ValueSz := c.2.val.length, ValuePos := pos % 4294967296,
          Timestamp := c.1 })

/-- The locator `e` of `key` points at the record `r` of that key: the
`12 + len(key) + e.ValueSz` bytes at offset `e.ValuePos` of `<e.FileId>.data`
are the bytes of `r`, a record with a `uint32` timestamp, the key `key` and a
value of `e.ValueSz` bytes. -/
def pointsAt (fs : FS) (key : Bytes) (e : KeyDirEntry) (r : Rec) : Prop :=
  r.key = key ∧ r.val.length = e.ValueSz ∧ r.ts < 4294967296 ∧
    r.key.length + r.val.length < 4294967296 ∧
    ∃ content, fs.read (dataName e.FileId) = some content ∧
      FS.readAt content e.ValuePos (12 + key.length + e.ValueSz) = some r.bytes

/-- The engine of `threeFiles` when the clock moved from second 6 to second 7
between the two readings of the first `Put`: the record of `"1"` in `5.data`
has the timestamp 6, its key directory entry the timestamp 7. -/
def skewedFiles : Nord :=
  (Put (Put (Put (emptyStore 20 5) key1 valNikit { Env.at 6 with nowIndex := 7 }).2
    key2 valNick (Env.at 7)).2 key3 valGen (Env.at 8)).2

/-! ## Key directories and outcomes up to timestamps -/

/-- The outcome of an index build without the timestamps of the key directory. -/
def Outcome.eraseTs : Outcome KeyDir → Outcome KeyDir
  | Outcome.ok kd => Outcome.ok kd.eraseTs
  | Outcome.error e => Outcome.error e
  | Outcome.panic => Outcome.panic

/-- The directory entry of the hint file `id`. -/
def hintInfo (id : Nat) : FileInfo := { name := hintName id, id := id, ftype := strHint }

/-! ## The record codec of `src/main.go` -/

/-- Effect of `copy(dst[off:], src)` on `dst`, for `off ≤ len(dst)`: the first
`min(len(dst) - off, len(src))` bytes of `src` go to offset `off`. -/
def copyAt (dst : Bytes) (off : Nat) (src : Bytes) : Bytes :=
  dst.take off ++ src.take (dst.length - off)
    ++ dst.drop (off + min src.length (dst.length - off))

/-- `encodeKv(key, val)` when `time.Now().Unix()` reads `now`: a zeroed buffer of
`4 + 4 + 4 + len(key) + len(val)` bytes, the three header fields written at
offsets 0, 4 and 8, then the key and the value copied in. -/
def encodeKv (key val : Bytes) (now : Int) : Bytes :=
  let data : Bytes := List.replicate (4 + 4 + 4 + key.length + val.length) 0
  let tstamp := toUint32 now
  let data := copyAt data 0 (putUint32 tstamp)
  let data := copyAt data 4 (putUint32 (key.length % 4294967296))
  let data := copyAt data 8 (putUint32 (val.length % 4294967296))
  let keyOff := 12
  let valOff := 12 + key.length
  let data := copyAt data keyOff key
  copyAt data valOff val

/-- `decodeKv(data)` on a slice whose capacity is its length, as the slices the
program makes are: `none` is the panic of a slice expression out of range
(`data[4:8]` on fewer than 8 bytes, `data[valOff:]` with `valOff` beyond the
length). -/
def decodeKv (data : Bytes) : Option (Bytes × Bytes) :=
  if data.length < 8 then none
  else
    let keyLen := uint32LE ((data.drop 4).take 4)
    let keyOff := 12
    let valOff := 12 + keyLen
    if valOff ≤ data.length then some ((data.drop keyOff).take (valOff - keyOff), data.drop valOff)
    else none

/-! # Theorems -/

/-! ## The key directory as a map -/

theorem KeyDir.get_set_same (kd : KeyDir) (k : Bytes) (e : KeyDirEntry) :
    (kd.set k e).get k = some e := by
  induction kd with
  | nil => simp [KeyDir.set, KeyDir.get]
  | cons p rest ih =>
    obtain ⟨k0, e0⟩ := p
    by_cases h : k0 = k
    · simp [KeyDir.set, KeyDir.get, h]
    · simp [KeyDir.set, KeyDir.get, h, ih]

theorem KeyDir.get_set_other (kd : KeyDir) (k k2 : Bytes) (e : KeyDirEntry) (h : k ≠ k2) :
    (kd.set k e).get k2 = kd.get k2 := by
  induction kd with
  | nil => simp [KeyDir.set, KeyDir.get, h]
  | cons p rest ih =>
    obtain ⟨k0, e0⟩ := p
    by_cases h0 : k0 = k
    · subst h0
      simp [KeyDir.set, KeyDir.get, h]
    · by_cases h1 : k0 = k2
      · subst h1
        simp [KeyDir.set, KeyDir.get, h0]
      · simp [KeyDir.set, KeyDir.get, h0, h1, ih]

/-! ## Put, Delete, Get -/

/-- What a `Put` that returns no error leaves in the key directory. -/
theorem Put_ok_keyDir (n n1 : Nord) (key val : Bytes) (env : Env)
    (h : Put n key val env = (none, n1)) :
    ∃ e : KeyDirEntry, e.ValueSz = val.length % 4294967296 ∧ e.FileId = n1.activeFileId ∧
      n1.keyDir.get key = some e := by
  unfold Put at h
  simp only at h
  split at h
  · simp at h
  · split at h
    · simp at h
    · simp only [Prod.mk.injEq, true_and] at h
      subst h
      exact ⟨_, rfl, rfl, KeyDir.get_set_same _ _ _⟩

/-- C4: for every engine state, key and value, when `Put(key, val)` returns no
error, `Get(key)` after a following `Delete(key)` reports not found (and returns
the empty slice). -/
theorem C4_put_delete_get_not_found (n n1 : Nord) (key val : Bytes) (env : Env)
    (h : Put n key val env = (none, n1)) :
    Get (Delete n1 key) key = ([], false) := by
  obtain ⟨e, _, _, he⟩ := Put_ok_keyDir n n1 key val env h
  by_cases hz : e.ValueSz = 0
  · simp [Delete, he, hz, Get]
  · simp [Delete, he, hz, Get, KeyDir.get_set_same]

/-- C4 at the engine opened on an empty directory with `MaxFileSize = 128`:
`Put("1", "Nikit")`, `Delete("1")`, `Get("1")`. -/
theorem C4_put_delete_get_not_found_witness :
    Put (emptyStore 128 1700000000) key1 valNikit (Env.at 1700000000)
        = (none, (Put (emptyStore 128 1700000000) key1 valNikit (Env.at 1700000000)).2) ∧
      Get (Delete (Put (emptyStore 128 1700000000) key1 valNikit (Env.at 1700000000)).2 key1)
        key1 = ([], false) :=
  ⟨by decide,
   C4_put_delete_get_not_found (emptyStore 128 1700000000) _ key1 valNikit (Env.at 1700000000)
     (by decide)⟩

/-- A `Put` that returns an error leaves the key directory as it was. -/
theorem Put_error_keyDir (n n1 : Nord) (key val : Bytes) (env : Env) (err : Error)
    (h : Put n key val env = (some err, n1)) : n1.keyDir = n.keyDir := by
  unfold Put at h
  simp only at h
  split at h
  · rename_i e n2 hrot
    simp only [Prod.mk.injEq] at h
    obtain ⟨-, rfl⟩ := h
    split at hrot
    · unfold updateActiveFile at hrot
      simp only at hrot
      split at hrot
      · simp only [Prod.mk.injEq] at hrot
        rw [← hrot.2]
      · split at hrot
        · simp only [Prod.mk.injEq] at hrot
          rw [← hrot.2]
        · split at hrot
          · simp only [Prod.mk.injEq] at hrot
            rw [← hrot.2]
          · simp at hrot
    · simp at hrot
  · rename_i n2 hrot
    have hk : n2.keyDir = n.keyDir := by
      split at hrot
      · unfold updateActiveFile at hrot
        simp only at hrot
        split at hrot
        · simp at hrot
        · split at hrot
          · simp at hrot
          · split at hrot
            · simp at hrot
            · simp only [Prod.mk.injEq, true_and] at hrot
              rw [← hrot]
      · simp only [Prod.mk.injEq, true_and] at hrot
        rw [← hrot]
    split at h
    · simp only [Prod.mk.injEq] at h
      rw [← h.2]
      exact hk
    · simp at h

/-- A `Put` whose write to the active file fails returns an error. -/
theorem Put_writeFails_error (n : Nord) (key val : Bytes) (env : Env) (m : Nat)
    (h : env.writeFails = some m) : ∃ err, (Put n key val env).1 = some err := by
  unfold Put
  simp only
  split
  · exact ⟨_, rfl⟩
  · rename_i n2 hrot
    have hw : ∃ fs1, writeActive n2 env (DataFileEntry.Serialize
        { Timestamp := env.now % 4294967296, Ksz := key.length % 4294967296,
          Vsz := val.length % 4294967296, Key := key, Value := val }).2
        = (some Error.write, fs1) := by
      unfold writeActive
      cases n2.activeFile with
      | none => exact ⟨_, rfl⟩
      | some name => simp [h]
    obtain ⟨fs1, hw⟩ := hw
    rw [hw]
    exact ⟨_, rfl⟩

/-- C10: when the append to the active file fails during `Put` (the write
returns an error after `m` bytes), `Put` returns an error and the key directory
is unchanged: the whole map is the one before the call, so every key has the
entry it had. -/
theorem C10_failed_append_keeps_keyDir (n : Nord) (key val : Bytes) (env : Env) (m : Nat)
    (h : env.writeFails = some m) :
    (∃ err, (Put n key val env).1 = some err) ∧
      (Put n key val env).2.keyDir = n.keyDir ∧
      ∀ k, (Put n key val env).2.keyDir.get k = n.keyDir.get k := by
  obtain ⟨err, herr⟩ := Put_writeFails_error n key val env m h
  have hk : (Put n key val env).2.keyDir = n.keyDir :=
    Put_error_keyDir n (Put n key val env).2 key val env err (by rw [← herr])
  exact ⟨⟨err, herr⟩, hk, fun k => by rw [hk]⟩

/-- C10 at the engine holding `"1" -> "Nikit"`: a `Put("1", "Nick")` whose write
fails after 3 bytes. -/
theorem C10_failed_append_keeps_keyDir_witness :
    ({ Env.at 1700000000 with writeFails := some 3 } : Env).writeFails = some 3 ∧
      (Put (Put (emptyStore 128 1700000000) key1 valNikit (Env.at 1700000000)).2 key1 valNick
          { Env.at 1700000000 with writeFails := some 3 }).2.keyDir
        = (Put (emptyStore 128 1700000000) key1 valNikit (Env.at 1700000000)).2.keyDir :=
  ⟨rfl,
   (C10_failed_append_keeps_keyDir
      (Put (emptyStore 128 1700000000) key1 valNikit (Env.at 1700000000)).2 key1 valNick
      { Env.at 1700000000 with writeFails := some 3 } 3 rfl).2.1⟩

/-- `Put` when the record fits and nothing fails: the record is appended to the
active file and the locator stored. -/
theorem Put_append (n : Nord) (key val : Bytes) (env : Env) (name : Bytes)
    (hrot : ¬ rotates n key val) (hfile : n.activeFile = some name)
    (hw : env.writeFails = none) :
    Put n key val env =
      (none, { n with
        fs := n.fs.append name (recordBytes key val env)
        keyDir := n.keyDir.set key (putEntry n val env)
        writePos := n.writePos + (DataFileEntryHdrLen + key.length + val.length) }) := by
  unfold rotates at hrot
  unfold Put
  simp only [DataFileEntry.Serialize, ge_iff_le]
  rw [if_neg hrot]
  simp only [writeActive, hfile, hw, recordBytes, DataFileEntry.Serialize, putEntry]

/-- `Put` when the active file is rotated first and nothing fails: the record is
the next thing appended to `<now>.data`, and the locator says offset 0. -/
theorem Put_rotate (n : Nord) (key val : Bytes) (env : Env) (name : Bytes)
    (hrot : rotates n key val) (hfile : n.activeFile = some name)
    (hc : env.closeFails = false) (ho : env.openFails = false) (hw : env.writeFails = none) :
    Put n key val env =
      (none, { n with
        fs := (n.fs.create (dataName (env.nowRotate % 4294967296))).append
                (dataName (env.nowRotate % 4294967296)) (recordBytes key val env)
        keyDir := n.keyDir.set key
          { FileId := env.nowRotate % 4294967296, ValueSz := val.length % 4294967296,
            ValuePos := 0, Timestamp := env.nowIndex % 4294967296 }
        activeFileId := env.nowRotate % 4294967296
        activeFile := some (dataName (env.nowRotate % 4294967296))
        writePos := DataFileEntryHdrLen + key.length + val.length }) := by
  unfold rotates at hrot
  unfold Put
  simp only [DataFileEntry.Serialize, ge_iff_le]
  rw [if_pos hrot]
  simp [updateActiveFile, writeActive, hfile, hc, ho, hw, recordBytes, DataFileEntry.Serialize]

/-- C3 (the code at a failing input): with `"1"` in `5.data` and `"2"` in
`7.data`, `Get("1")` returns `Nikit` before `Merge`; `Merge` returns nil, writes
`9.data` and `9.hint`, deletes `5.data` and `7.data`, and leaves the key
directory pointing at the deleted files, so `Get("1")` and `Get("2")` report not
found afterwards. -/
theorem C3_merge_drops_live_keys :
    Get threeFiles key1 = (valNikit, true) ∧ Get threeFiles key2 = (valNick, true) ∧
      Merge threeFiles (Env.at 9) = Outcome.ok (none, threeFilesMerged) ∧
      threeFilesMerged.keyDir = threeFiles.keyDir ∧
      threeFilesMerged.fs.read (dataName 5) = none ∧
      threeFilesMerged.fs.read (dataName 7) = none ∧
      Get threeFilesMerged key1 = ([], false) ∧ Get threeFilesMerged key2 = ([], false) := by
  decide

/-- C6 (the code at a failing input): with `MaxFileSize = 18` and an empty
active file `5.data`, the 18-byte record of `Put("1", "Nikit")` fits exactly
(`write_pos + n = MaxFileSize`), and `Put` rotates all the same: the record goes
to the new file `6.data` and `5.data` stays empty. -/
theorem C6_exact_fit_rotates :
    (emptyStore 18 5).writePos + (recordBytes key1 valNikit (Env.at 6)).length
        = (emptyStore 18 5).MaxFileSize ∧
      (Put (emptyStore 18 5) key1 valNikit (Env.at 6)).1 = none ∧
      (Put (emptyStore 18 5) key1 valNikit (Env.at 6)).2.activeFileId = 6 ∧
      (Put (emptyStore 18 5) key1 valNikit (Env.at 6)).2.fs
        = [(dataName 5, []), (dataName 6, recordBytes key1 valNikit (Env.at 6))] := by
  decide

/-- C8 (the code at a failing input): with the one live key `"1"`, `ListKeys`
returns the two strings `""` and `"1"`; after `Delete("1")` it still returns
`""` and `"1"`. -/
theorem C8_listKeys_extra_entries :
    ListKeys (Put (emptyStore 128 1700000000) key1 valNikit (Env.at 1700000000)).2
        = [[], key1] ∧
      ListKeys (Delete (Put (emptyStore 128 1700000000) key1 valNikit (Env.at 1700000000)).2 key1)
        = [[], key1] := by
  decide

/-- C9 as stated fails: `Put` with the empty key and the value `Nikit` on the
engine opened on an empty directory returns no error, appends the 17-byte record
to the active file and stores a locator for the empty key. -/
theorem C9_empty_key_accepted :
    (Put (emptyStore 128 1700000000) [] valNikit (Env.at 1700000000)).1 = none ∧
      (Put (emptyStore 128 1700000000) [] valNikit (Env.at 1700000000)).2.fs
        = [(dataName 1700000000, recordBytes [] valNikit (Env.at 1700000000))] ∧
      (Put (emptyStore 128 1700000000) [] valNikit (Env.at 1700000000)).2.keyDir
        = [([], { FileId := 1700000000, ValueSz := 5, ValuePos := 0,
                  Timestamp := 1700000000 })] := by
  decide

/-- C9, amended: `Put` has no check of the key length. With the empty key, an
open active file and no failing system call, `Put` returns no error, appends the
record (header with `ksz = 0`, then the value; `12 + len(val)` bytes) to the
active file, and stores the locator of that record under the empty key. -/
theorem C9_empty_key_put (n : Nord) (val : Bytes) (env : Env) (name : Bytes)
    (hfile : n.activeFile = some name)
    (hc : env.closeFails = false) (ho : env.openFails = false) (hw : env.writeFails = none) :
    (Put n [] val env).1 = none ∧
      (recordBytes [] val env).length = 12 + val.length ∧
      (Put n [] val env).2.fs =
        (if rotates n [] val then
          (n.fs.create (dataName (env.nowRotate % 4294967296))).append
            (dataName (env.nowRotate % 4294967296)) (recordBytes [] val env)
        else n.fs.append name (recordBytes [] val env)) ∧
      (Put n [] val env).2.keyDir.get [] =
        some { FileId := (Put n [] val env).2.activeFileId
               ValueSz := val.length % 4294967296
               ValuePos := if rotates n [] val then 0 else n.writePos % 4294967296
               Timestamp := env.nowIndex % 4294967296 } := by
  have hlen : (recordBytes [] val env).length = 12 + val.length := by
    simp [recordBytes, DataFileEntry.Serialize, putUint32]
    omega
  by_cases hrot : rotates n [] val
  · rw [Put_rotate n [] val env name hrot hfile hc ho hw]
    rw [if_pos hrot, if_pos hrot]
    exact ⟨rfl, hlen, rfl, KeyDir.get_set_same _ _ _⟩
  · rw [Put_append n [] val env name hrot hfile hw]
    rw [if_neg hrot, if_neg hrot]
    exact ⟨rfl, hlen, rfl, KeyDir.get_set_same _ _ _⟩

/-- C9, amended, at the engine opened on an empty directory. -/
theorem C9_empty_key_put_witness :
    (emptyStore 128 1700000000).activeFile = some (dataName 1700000000) ∧
      (Put (emptyStore 128 1700000000) [] valNikit (Env.at 1700000000)).1 = none :=
  ⟨rfl,
   (C9_empty_key_put (emptyStore 128 1700000000) valNikit (Env.at 1700000000)
      (dataName 1700000000) rfl rfl rfl rfl).1⟩

/-! ## Decimal names -/

theorem digitsAux_lt_ten (fuel n : Nat) : ∀ d ∈ digitsAux fuel n, d < 10 := by
  induction fuel generalizing n with
  | zero => simp [digitsAux]
  | succ fuel ih =>
    intro d hd
    unfold digitsAux at hd
    split at hd
    · simp at hd
      omega
    · simp only [List.mem_append, List.mem_singleton] at hd
      rcases hd with hd | hd
      · exact ih _ d hd
      · omega

theorem digitsAux_ne_nil (fuel n : Nat) : digitsAux (fuel + 1) n ≠ [] := by
  unfold digitsAux
  split <;> simp

/-- The number a list of decimal digits, most significant first, stands for. -/
theorem digitsAux_value (fuel n : Nat) (h : n < fuel) :
    (digitsAux fuel n).foldl (fun a d => a * 10 + d) 0 = n := by
  induction fuel generalizing n with
  | zero => omega
  | succ fuel ih =>
    unfold digitsAux
    split
    · simp
    · rw [List.foldl_append, ih (n / 10) (by omega)]
      simp only [List.foldl_cons, List.foldl_nil]
      omega

theorem digitsVal_map (ds : List Nat) (h : ∀ d ∈ ds, d < 10) (acc : Nat) :
    digitsVal (ds.map (fun d => byte (d + 48))) acc
      = some (ds.foldl (fun a d => a * 10 + d) acc) := by
  induction ds generalizing acc with
  | nil => simp [digitsVal]
  | cons d ds ih =>
    have hd : d < 10 := h d (List.mem_cons_self _ _)
    have hv : (byte (d + 48)).val = d + 48 := by
      simp only [byte]
      omega
    simp only [List.map_cons, digitsVal, isDigit, hv, List.foldl_cons]
    have : (decide (48 ≤ d + 48) && decide (d + 48 ≤ 57)) = true := by
      simp
      omega
    rw [if_pos this, ih (fun x hx => h x (List.mem_cons_of_mem _ hx))]
    simp

theorem digitsVal_Itoa (n : Nat) : digitsVal (Itoa n) 0 = some n := by
  unfold Itoa
  rw [digitsVal_map _ (digitsAux_lt_ten _ _), digitsAux_value _ _ (Nat.lt_succ_self n)]

theorem Itoa_injective (a b : Nat) (h : Itoa a = Itoa b) : a = b := by
  have ha := digitsVal_Itoa a
  rw [h, digitsVal_Itoa b] at ha
  exact (Option.some.inj ha).symm

theorem Itoa_ne_nil (n : Nat) : Itoa n ≠ [] := by
  unfold Itoa
  intro h
  exact digitsAux_ne_nil n n (List.map_eq_nil_iff.mp h)

theorem Itoa_isDigit (n : Nat) : ∀ b ∈ Itoa n, 48 ≤ b.val ∧ b.val ≤ 57 := by
  intro b hb
  unfold Itoa at hb
  obtain ⟨d, hd, rfl⟩ := List.mem_map.mp hb
  have := digitsAux_lt_ten _ _ d hd
  simp only [byte]
  omega

theorem digitsVal_ge (ds : Bytes) (acc v : Nat) (h : digitsVal ds acc = some v) : acc ≤ v := by
  induction ds generalizing acc with
  | nil =>
    simp only [digitsVal, Option.some.injEq] at h
    omega
  | cons c cs ih =>
    unfold digitsVal at h
    split at h
    · have := ih _ h
      omega
    · simp at h

/-- On a run of digits whose value fits 64 bits the loop of `ParseUint` returns
the value and no error. -/
theorem parseUintLoop_digits (ds : Bytes) (acc v : Nat) (h : digitsVal ds acc = some v)
    (hv : v ≤ 18446744073709551615) : parseUintLoop ds acc = (v, none) := by
  induction ds generalizing acc with
  | nil =>
    simp only [digitsVal, Option.some.injEq] at h
    simp [parseUintLoop, h]
  | cons c cs ih =>
    unfold digitsVal at h
    split at h
    · rename_i hc
      have hge := digitsVal_ge _ _ _ h
      unfold parseUintLoop
      rw [if_pos hc, if_neg (by omega)]
      simp only
      rw [if_neg (by omega)]
      exact ih _ h
    · simp at h

theorem Atoi_Itoa (n : Nat) (h : n < 9223372036854775808) : Atoi (Itoa n) = (n : Int) := by
  have hne := Itoa_ne_nil n
  have hdig := Itoa_isDigit n
  have hval := digitsVal_Itoa n
  cases hI : Itoa n with
  | nil => exact absurd hI hne
  | cons b bs =>
    rw [hI] at hdig hval
    have hb := hdig b (List.mem_cons_self _ _)
    have h1 : ¬ b.val = 43 := by omega
    have h2 : ¬ b.val = 45 := by omega
    have h3 : ¬ (b.val = 45 ∨ b.val = 43) := by omega
    have h4 : ¬ (b.val = 43 ∨ b.val = 45) := by omega
    unfold Atoi AtoiErr
    by_cases hlen : 0 < (b :: bs).length ∧ (b :: bs).length < 19
    · rw [if_pos hlen]
      simp only [if_neg h3]
      rw [if_neg (by simp)]
      simp only [hval, if_neg h2]
    · rw [if_neg hlen]
      have hloop := parseUintLoop_digits (b :: bs) 0 n hval (by omega)
      have hneg : decide (b.val = 45) = false := by simpa using h2
      simp only [ParseInt, if_neg h4, ParseUint64, hloop, hneg]
      rw [if_neg (by omega), if_neg (by simp)]
      simp

theorem toUint32_Atoi_Itoa (n : Nat) (h : n < 4294967296) : toUint32 (Atoi (Itoa n)) = n := by
  rw [Atoi_Itoa n (by omega)]
  unfold toUint32
  omega

theorem splitAux_no_dot (a cur : Bytes) (h : ∀ b ∈ a, b.val ≠ 46) :
    splitAux a cur = [cur.reverse ++ a] := by
  induction a generalizing cur with
  | nil => simp [splitAux]
  | cons b bs ih =>
    have hb := h b (List.mem_cons_self _ _)
    simp only [splitAux, hb, if_false]
    rw [ih _ (fun x hx => h x (List.mem_cons_of_mem _ hx))]
    simp

theorem splitAux_dot (a rest cur : Bytes) (h : ∀ b ∈ a, b.val ≠ 46) :
    splitAux (a ++ (46 : Byte) :: rest) cur = (cur.reverse ++ a) :: splitAux rest [] := by
  induction a generalizing cur with
  | nil =>
    have h46 : ((46 : Byte).val = 46) := by decide
    simp only [List.nil_append, splitAux, h46, if_true, List.append_nil]
  | cons b bs ih =>
    have hb := h b (List.mem_cons_self _ _)
    have hstep : splitAux (b :: bs ++ (46 : Byte) :: rest) cur
        = splitAux (bs ++ (46 : Byte) :: rest) (b :: cur) := by
      simp only [List.cons_append, splitAux, hb, if_false]
      rfl
    rw [hstep, ih _ (fun x hx => h x (List.mem_cons_of_mem _ hx))]
    simp

theorem Itoa_no_dot (n : Nat) : ∀ b ∈ Itoa n, b.val ≠ 46 := by
  intro b hb
  have := Itoa_isDigit n b hb
  omega

theorem Split_dataName (n : Nat) : Split (dataName n) = [Itoa n, strData] := by
  unfold Split dataName dotData
  rw [splitAux_dot _ _ _ (Itoa_no_dot n)]
  rfl

theorem Split_hintName (n : Nat) : Split (hintName n) = [Itoa n, strHint] := by
  unfold Split hintName dotHint
  rw [splitAux_dot _ _ _ (Itoa_no_dot n)]
  rfl

theorem dataName_injective (a b : Nat) (h : dataName a = dataName b) : a = b := by
  have h1 := Split_dataName a
  rw [h, Split_dataName b] at h1
  simp only [List.cons.injEq, and_true] at h1
  exact (Itoa_injective _ _ h1).symm

theorem hintName_injective (a b : Nat) (h : hintName a = hintName b) : a = b := by
  have h1 := Split_hintName a
  rw [h, Split_hintName b] at h1
  simp only [List.cons.injEq, and_true] at h1
  exact (Itoa_injective _ _ h1).symm

theorem dataName_ne_hintName (a b : Nat) : dataName a ≠ hintName b := by
  intro h
  have h1 := Split_dataName a
  rw [h, Split_hintName b] at h1
  simp only [List.cons.injEq, and_true] at h1
  exact absurd h1.2 (by decide)

theorem getFileInfo_dataName (n : Nat) (h : n < 4294967296) :
    getFileInfo (dataName n) = some (n, strData) := by
  simp [getFileInfo, Split_dataName, toUint32_Atoi_Itoa n h]

theorem getFileInfo_hintName (n : Nat) (h : n < 4294967296) :
    getFileInfo (hintName n) = some (n, strHint) := by
  simp [getFileInfo, Split_hintName, toUint32_Atoi_Itoa n h]

/-! ## The directory as a map from names to contents -/

theorem FS.read_append_self (fs : FS) (name bs : Bytes) :
    (fs.append name bs).read name = (fs.read name).map (fun d => d ++ bs) := by
  induction fs with
  | nil => simp [FS.append, FS.read]
  | cons p rest ih =>
    obtain ⟨n0, d0⟩ := p
    by_cases h : n0 = name
    · simp [FS.append, FS.read, h]
    · simp [FS.append, FS.read, h, ih]

theorem FS.read_append_other (fs : FS) (name x bs : Bytes) (h : x ≠ name) :
    (fs.append name bs).read x = fs.read x := by
  induction fs with
  | nil => simp [FS.append, FS.read]
  | cons p rest ih =>
    obtain ⟨n0, d0⟩ := p
    by_cases h0 : n0 = name
    · subst h0
      simp [FS.append, FS.read, Ne.symm h]
    · by_cases h1 : n0 = x
      · subst h1
        simp [FS.append, FS.read, h0]
      · simp [FS.append, FS.read, h0, h1, ih]

theorem FS.read_concat (fs : FS) (name x d : Bytes) :
    FS.read (fs ++ [(name, d)]) x
      = match fs.read x with
        | some c => some c
        | none => if name = x then some d else none := by
  induction fs with
  | nil => simp [FS.read]
  | cons p rest ih =>
    obtain ⟨n0, d0⟩ := p
    by_cases h0 : n0 = x
    · simp [FS.read, h0]
    · simp only [List.cons_append, FS.read, h0, if_false]
      exact ih

theorem FS.read_create_self (fs : FS) (name : Bytes) :
    (fs.create name).read name = some ((fs.read name).getD []) := by
  unfold FS.create
  cases h : fs.read name with
  | none => simp [FS.read_concat, h]
  | some c => simp [h]

theorem FS.read_create_other (fs : FS) (name x : Bytes) (h : x ≠ name) :
    (fs.create name).read x = fs.read x := by
  unfold FS.create
  cases hn : fs.read name with
  | none =>
    simp only [FS.read_concat]
    cases fs.read x with
    | none => simp [Ne.symm h]
    | some c => rfl
  | some c => rfl

theorem FS.read_create_of_some (fs : FS) (name x c : Bytes) (h : fs.read x = some c) :
    (fs.create name).read x = some c := by
  by_cases hx : x = name
  · subst hx
    rw [FS.read_create_self, h]
    rfl
  · rw [FS.read_create_other _ _ _ hx, h]

theorem FS.read_remove_other (fs : FS) (name x : Bytes) (h : x ≠ name) :
    (fs.remove name).read x = fs.read x := by
  induction fs with
  | nil => simp [FS.remove, FS.read]
  | cons p rest ih =>
    obtain ⟨n0, d0⟩ := p
    by_cases h0 : n0 = name
    · subst h0
      simp [FS.remove, FS.read, Ne.symm h]
    · by_cases h1 : n0 = x
      · subst h1
        simp [FS.remove, FS.read, h0]
      · simp [FS.remove, FS.read, h0, h1, ih]

theorem FS.names_append (fs : FS) (name bs : Bytes) :
    (fs.append name bs).map Prod.fst = fs.map Prod.fst := by
  induction fs with
  | nil => simp [FS.append]
  | cons p rest ih =>
    obtain ⟨n0, d0⟩ := p
    by_cases h0 : n0 = name
    · simp [FS.append, h0]
    · simp [FS.append, h0, ih]

theorem FS.names_create (fs : FS) (name x : Bytes) (h : x ∈ (fs.create name).map Prod.fst) :
    x ∈ fs.map Prod.fst ∨ x = name := by
  unfold FS.create at h
  cases hn : fs.read name with
  | none =>
    rw [hn] at h
    simp only [List.map_append, List.map_cons, List.map_nil, List.mem_append,
      List.mem_singleton] at h
    exact h
  | some c =>
    rw [hn] at h
    exact Or.inl h

theorem FS.names_remove (fs : FS) (name x : Bytes) (h : x ∈ (fs.remove name).map Prod.fst) :
    x ∈ fs.map Prod.fst := by
  induction fs with
  | nil => simp [FS.remove] at h
  | cons p rest ih =>
    obtain ⟨n0, d0⟩ := p
    by_cases h0 : n0 = name
    · simp only [FS.remove, h0, if_true] at h
      simp [h]
    · simp only [FS.remove, h0, if_false, List.map_cons, List.mem_cons] at h
      rcases h with h | h
      · simp [h]
      · simp [ih h]

theorem FS.mem_sortBy {α : Type} (le : α → α → Bool) (l : List α) (x : α) :
    x ∈ FS.sortBy le l ↔ x ∈ l := by
  unfold FS.sortBy
  exact (List.perm_insertionSort _ l).mem_iff

theorem FS.mem_readDir (fs : FS) (x : Bytes) : x ∈ FS.readDir fs ↔ x ∈ fs.map Prod.fst := by
  unfold FS.readDir
  exact FS.mem_sortBy _ _ _

/-! ## `writePos` and the length of the active file -/

theorem recordBytes_length (key val : Bytes) (env : Env) :
    (recordBytes key val env).length = DataFileEntryHdrLen + key.length + val.length := by
  simp [recordBytes, DataFileEntry.Serialize, putUint32, DataFileEntryHdrLen]
  omega

theorem canonical_create_data (fs : FS) (id : Nat) (hid : id < 4294967296) (h : canonical fs) :
    canonical (fs.create (dataName id)) := by
  intro name hname
  rcases FS.names_create fs _ name hname with h1 | h1
  · exact h name h1
  · exact ⟨id, hid, Or.inl h1⟩

theorem canonical_create_hint (fs : FS) (id : Nat) (hid : id < 4294967296) (h : canonical fs) :
    canonical (fs.create (hintName id)) := by
  intro name hname
  rcases FS.names_create fs _ name hname with h1 | h1
  · exact h name h1
  · exact ⟨id, hid, Or.inr h1⟩

theorem canonical_append (fs : FS) (name bs : Bytes) (h : canonical fs) :
    canonical (fs.append name bs) := by
  intro x hx
  rw [FS.names_append] at hx
  exact h x hx

theorem canonical_remove (fs : FS) (name : Bytes) (h : canonical fs) :
    canonical (fs.remove name) := by
  intro x hx
  exact h x (FS.names_remove fs name x hx)

/-- `Put` as the rotation step followed by the write step. -/
theorem Put_eq (n : Nord) (key val : Bytes) (env : Env) :
    Put n key val env =
      match (if rotates n key val then updateActiveFile n env else (none, n)) with
      | (some err, n1) => (some err, n1)
      | (none, n1) =>
        match writeActive n1 env (recordBytes key val env) with
        | (some err, fs1) => (some err, { n1 with fs := fs1 })
        | (none, fs1) =>
          (none, { n1 with
            fs := fs1
            keyDir := n1.keyDir.set key (putEntry n1 val env)
            writePos := n1.writePos + (DataFileEntryHdrLen + key.length + val.length) }) := by
  rfl

theorem updateActiveFile_activeOk (n : Nord) (env : Env)
    (h : ActiveOk n.fs n.activeFileId n.activeFile n.writePos)
    (hfresh : n.fs.read (dataName (env.nowRotate % 4294967296)) = none) :
    ActiveOk (updateActiveFile n env).2.fs (updateActiveFile n env).2.activeFileId
      (updateActiveFile n env).2.activeFile (updateActiveFile n env).2.writePos := by
  obtain ⟨hid, hcan, hname, c, hc, hlen⟩ := h
  unfold updateActiveFile
  simp only
  split
  · exact ⟨hid, hcan, hname, c, hc, hlen⟩
  · split
    · exact ⟨hid, hcan, fun name hn => by simp at hn, c, hc, hlen⟩
    · split
      · exact ⟨hid, hcan, fun name hn => by simp at hn, c, hc, hlen⟩
      · refine ⟨Nat.mod_lt _ (by decide), canonical_create_data _ _ (Nat.mod_lt _ (by decide)) hcan,
          fun name hn => (Option.some.inj hn).symm, [], ?_, rfl⟩
        simp only
        rw [FS.read_create_self, hfresh]
        rfl

theorem writeActive_activeOk (n : Nord) (env : Env) (buf : Bytes)
    (h : ActiveOk n.fs n.activeFileId n.activeFile n.writePos)
    (hwrite : ∀ m, env.writeFails = some m → m = 0) :
    ((writeActive n env buf).1 = none →
        ActiveOk (writeActive n env buf).2 n.activeFileId n.activeFile (n.writePos + buf.length)) ∧
      ((writeActive n env buf).1 ≠ none →
        ActiveOk (writeActive n env buf).2 n.activeFileId n.activeFile n.writePos) := by
  obtain ⟨hid, hcan, hname, c, hc, hlen⟩ := h
  unfold writeActive
  cases hf : n.activeFile with
  | none => simp [hid, hcan, hc, hlen, ActiveOk]
  | some name =>
    have hn := hname name hf
    subst hn
    cases hw : env.writeFails with
    | some m =>
      have hm := hwrite m hw
      subst hm
      simp only [List.take_zero]
      refine ⟨fun hcontra => by simp at hcontra, fun _ => ?_⟩
      refine ⟨hid, canonical_append _ _ _ hcan, fun name hn => by simpa using hn.symm, c, ?_, hlen⟩
      rw [FS.read_append_self, hc]
      simp
    | none =>
      simp only
      refine ⟨fun _ => ?_, fun hcontra => by simp at hcontra⟩
      refine ⟨hid, canonical_append _ _ _ hcan, fun name hn => by simpa using hn.symm,
        c ++ buf, ?_, by simp [hlen]⟩
      rw [FS.read_append_self, hc]
      simp

theorem Put_activeOk (n : Nord) (key val : Bytes) (env : Env)
    (h : ActiveOk n.fs n.activeFileId n.activeFile n.writePos)
    (hfresh : rotates n key val → n.fs.read (dataName (env.nowRotate % 4294967296)) = none)
    (hwrite : ∀ m, env.writeFails = some m → m = 0) :
    ActiveOk (Put n key val env).2.fs (Put n key val env).2.activeFileId
      (Put n key val env).2.activeFile (Put n key val env).2.writePos := by
  rw [Put_eq]
  have hrotOk : ActiveOk
      (if rotates n key val then updateActiveFile n env else (none, n)).2.fs
      (if rotates n key val then updateActiveFile n env else (none, n)).2.activeFileId
      (if rotates n key val then updateActiveFile n env else (none, n)).2.activeFile
      (if rotates n key val then updateActiveFile n env else (none, n)).2.writePos := by
    by_cases hr : rotates n key val
    · rw [if_pos hr]
      exact updateActiveFile_activeOk n env h (hfresh hr)
    · rw [if_neg hr]
      exact h
  generalize (if rotates n key val then updateActiveFile n env else (none, n)) = rot at hrotOk
  obtain ⟨r, n1⟩ := rot
  cases r with
  | some err => exact hrotOk
  | none =>
    simp only at hrotOk ⊢
    have hw := writeActive_activeOk n1 env (recordBytes key val env) hrotOk hwrite
    generalize hwa : writeActive n1 env (recordBytes key val env) = wr at hw
    obtain ⟨r1, fs1⟩ := wr
    cases r1 with
    | some err => exact hw.2 (by simp)
    | none =>
      have := hw.1 rfl
      rw [recordBytes_length] at this
      exact this

/-! ## Merge leaves the active file alone -/

theorem nameFields_mem (files : List Bytes) (fields : List (Bytes × Bytes))
    (h : nameFields files = some fields) :
    ∀ f ∈ fields, ∃ name ∈ files, ∃ rest, Split name = f.1 :: f.2 :: rest := by
  induction files generalizing fields with
  | nil =>
    simp only [nameFields, Option.some.injEq] at h
    subst h
    simp
  | cons name files ih =>
    unfold nameFields at h
    split at h
    · rename_i f0 f1 tl fields0 hsplit hrest
      simp only [Option.some.injEq] at h
      subst h
      intro f hf
      rcases List.mem_cons.mp hf with hf | hf
      · subst hf
        exact ⟨name, List.mem_cons_self _ _, tl, hsplit⟩
      · obtain ⟨nm, hnm, rest, hs⟩ := ih fields0 hrest f hf
        exact ⟨nm, List.mem_cons_of_mem _ hnm, rest, hs⟩
    · simp at h

theorem selectMerge_all (n : Nord) (fileMap : List Bytes) (P : Nat → Prop)
    (fields : List (Bytes × Bytes)) (toMerge : List Nat) (mergefid : Nat)
    (hfields : ∀ f ∈ fields, f.2 = strData → f.1 ≠ Itoa n.activeFileId →
      P (toUint32 (Atoi f.1)))
    (h0 : ∀ fid ∈ toMerge, P fid) (hm : P mergefid) :
    (∀ fid ∈ (selectMerge n fileMap fields toMerge mergefid).1, P fid) ∧
      P (selectMerge n fileMap fields toMerge mergefid).2 := by
  induction fields generalizing toMerge mergefid with
  | nil => exact ⟨h0, hm⟩
  | cons f fields ih =>
    obtain ⟨fname, ftype⟩ := f
    have hrest : ∀ f ∈ fields, f.2 = strData → f.1 ≠ Itoa n.activeFileId →
        P (toUint32 (Atoi f.1)) := fun f hf => hfields f (List.mem_cons_of_mem _ hf)
    unfold selectMerge
    split
    · exact ih _ _ hrest h0 hm
    · split
      · rename_i hcond
        have hP := hfields (fname, ftype) (List.mem_cons_self _ _) hcond.1 hcond.2
        split
        · exact ih _ _ hrest h0 hm
        · apply ih _ _ hrest
          · intro fid hfid
            split at hfid
            · exact h0 fid hfid
            · rcases List.mem_append.mp hfid with h1 | h1
              · exact h0 fid h1
              · rw [List.mem_singleton.mp h1]
                exact hP
          · split
            · exact hP
            · exact hm
      · exact ih _ _ hrest h0 hm

theorem copyLive_frame (toMerge : List Nat) (mergefid : Nat) (env : Env) (kd : KeyDir)
    (st st1 : MergeState) (h : copyLive toMerge mergefid env kd st = some st1) :
    (∀ x, x ≠ dataName mergefid → x ≠ hintName mergefid → st1.fs.read x = st.fs.read x) ∧
      st1.fs.map Prod.fst = st.fs.map Prod.fst := by
  induction kd generalizing st with
  | nil =>
    simp only [copyLive, Option.some.injEq] at h
    subst h
    exact ⟨fun _ _ _ => rfl, rfl⟩
  | cons p kd ih =>
    obtain ⟨key, kdval⟩ := p
    unfold copyLive at h
    split at h
    · split at h
      · simp at h
      · split at h
        · simp at h
        · split at h
          · simp at h
          · obtain ⟨h1, h2⟩ := ih _ h
            constructor
            · intro x hx1 hx2
              rw [h1 x hx1 hx2]
              simp only
              rw [FS.read_append_other _ _ _ _ hx2, FS.read_append_other _ _ _ _ hx1]
            · rw [h2]
              simp only
              rw [FS.names_append, FS.names_append]
    · exact ih _ h

theorem foldl_remove_frame (ids : List Nat) (fs : FS) :
    (∀ x, (∀ fid ∈ ids, x ≠ dataName fid) →
        (ids.foldl (fun fs fid => FS.remove fs (dataName fid)) fs).read x = fs.read x) ∧
      ∀ x ∈ (ids.foldl (fun fs fid => FS.remove fs (dataName fid)) fs).map Prod.fst,
        x ∈ fs.map Prod.fst := by
  induction ids generalizing fs with
  | nil => exact ⟨fun _ _ => rfl, fun _ hx => hx⟩
  | cons id ids ih =>
    obtain ⟨h1, h2⟩ := ih (FS.remove fs (dataName id))
    constructor
    · intro x hx
      simp only [List.foldl_cons]
      rw [h1 x (fun fid hfid => hx fid (List.mem_cons_of_mem _ hfid)),
        FS.read_remove_other _ _ _ (hx id (List.mem_cons_self _ _))]
    · intro x hx
      simp only [List.foldl_cons] at hx
      exact FS.names_remove _ _ _ (h2 x hx)

/-- In a directory of well-formed names, the ids `Merge` selects and the id it
writes to are `uint32` values other than the active file id. -/
theorem selectMerge_canonical (n : Nord) (fileMap : List Bytes) (files : List Bytes)
    (fields : List (Bytes × Bytes))
    (hcan : ∀ name ∈ files, ∃ id, id < 4294967296 ∧ (name = dataName id ∨ name = hintName id))
    (hfields : nameFields files = some fields) :
    (∀ fid ∈ (selectMerge n fileMap fields [] ((n.activeFileId + 1) % 4294967296)).1,
        fid ≠ n.activeFileId ∧ fid < 4294967296) ∧
      ((selectMerge n fileMap fields [] ((n.activeFileId + 1) % 4294967296)).2
          ≠ n.activeFileId ∧
        (selectMerge n fileMap fields [] ((n.activeFileId + 1) % 4294967296)).2
          < 4294967296) := by
  apply selectMerge_all n fileMap (fun fid => fid ≠ n.activeFileId ∧ fid < 4294967296)
  · intro f hf hdata hne
    obtain ⟨name, hname, rest, hsplit⟩ := nameFields_mem files fields hfields f hf
    obtain ⟨id, hlt, hn | hn⟩ := hcan name hname
    · subst hn
      rw [Split_dataName] at hsplit
      simp only [List.cons.injEq] at hsplit
      rw [← hsplit.1, toUint32_Atoi_Itoa id hlt]
      refine ⟨fun heq => hne ?_, hlt⟩
      rw [← hsplit.1, heq]
    · subst hn
      rw [Split_hintName] at hsplit
      simp only [List.cons.injEq] at hsplit
      rw [← hsplit.2.1] at hdata
      exact absurd hdata (by decide)
  · intro fid hfid
    simp at hfid
  · constructor
    · show (n.activeFileId + 1) % 4294967296 ≠ n.activeFileId
      omega
    · exact Nat.mod_lt _ (by decide)

theorem Merge_activeOk (n n1 : Nord) (env : Env) (r : Option Error)
    (h : ActiveOk n.fs n.activeFileId n.activeFile n.writePos)
    (hmerge : Merge n env = Outcome.ok (r, n1)) :
    ActiveOk n1.fs n1.activeFileId n1.activeFile n1.writePos := by
  obtain ⟨hid, hcan, hname, c, hc, hlen⟩ := h
  unfold Merge at hmerge
  split at hmerge
  · simp only [Outcome.ok.injEq, Prod.mk.injEq] at hmerge
    rw [← hmerge.2]
    exact ⟨hid, hcan, hname, c, hc, hlen⟩
  · simp only at hmerge
    split at hmerge
    · simp at hmerge
    · rename_i fields hfields
      have hfiles : ∀ name ∈ FS.sortBy (fun a b => decide (Atoi (stem a) ≤ Atoi (stem b)))
          (FS.readDir n.fs), ∃ id, id < 4294967296 ∧ (name = dataName id ∨ name = hintName id) := by
        intro name hn
        rw [FS.mem_sortBy, FS.mem_readDir] at hn
        exact hcan name hn
      have hsel := selectMerge_canonical n
        ((fields.filter (fun f => f.2 = strHint)).map Prod.fst) _ fields hfiles hfields
      generalize selectMerge n ((fields.filter (fun f => f.2 = strHint)).map Prod.fst) fields []
        ((n.activeFileId + 1) % 4294967296) = sel at hsel hmerge
      obtain ⟨toMerge, mergefid⟩ := sel
      obtain ⟨hto, hmne, hmlt⟩ := hsel
      simp only at hto hmne hmlt hmerge
      split at hmerge
      · simp only [Outcome.ok.injEq, Prod.mk.injEq] at hmerge
        rw [← hmerge.2]
        exact ⟨hid, hcan, hname, c, hc, hlen⟩
      · split at hmerge
        · simp only [Outcome.ok.injEq, Prod.mk.injEq] at hmerge
          rw [← hmerge.2]
          exact ⟨hid, hcan, hname, c, hc, hlen⟩
        · split at hmerge
          · simp only [Outcome.ok.injEq, Prod.mk.injEq] at hmerge
            rw [← hmerge.2]
            exact ⟨hid, canonical_create_data _ _ hmlt hcan, hname, c,
              FS.read_create_of_some _ _ _ _ hc, hlen⟩
          · split at hmerge
            · simp at hmerge
            · rename_i st hcopy
              simp only [Outcome.ok.injEq, Prod.mk.injEq] at hmerge
              rw [← hmerge.2]
              obtain ⟨hframe, hnames⟩ := copyLive_frame _ _ _ _ _ _ hcopy
              obtain ⟨hrem, hremnames⟩ := foldl_remove_frame toMerge st.fs
              have hd : dataName n.activeFileId ≠ dataName mergefid :=
                fun heq => hmne (dataName_injective _ _ heq).symm
              refine ⟨hid, ?_, hname, c, ?_, hlen⟩
              · intro x hx
                have hx1 := hremnames x hx
                rw [hnames] at hx1
                exact canonical_create_hint _ _ hmlt (canonical_create_data _ _ hmlt hcan) x hx1
              · simp only
                rw [hrem _ (fun fid hfid heq => (hto fid hfid).1 (dataName_injective _ _ heq).symm),
                  hframe _ hd (dataName_ne_hintName _ _)]
                exact FS.read_create_of_some _ _ _ _ (FS.read_create_of_some _ _ _ _ hc)

theorem NewNord_activeOk (fs0 : FS) (maxFileSize : Nat) (env : Env) (n : Nord)
    (hnames : canonical fs0)
    (hfresh : fs0.read (dataName (env.now % 4294967296)) = none)
    (hopen : NewNord fs0 maxFileSize env = Outcome.ok n) :
    ActiveOk n.fs n.activeFileId n.activeFile n.writePos := by
  unfold NewNord Open at hopen
  simp only at hopen
  split at hopen
  · split at hopen
    · simp at hopen
    · simp only [Outcome.ok.injEq] at hopen
      subst hopen
      refine ⟨Nat.mod_lt _ (by decide), canonical_create_data _ _ (Nat.mod_lt _ (by decide)) hnames,
        fun name hn => (Option.some.inj hn).symm, [], ?_, rfl⟩
      simp only
      rw [FS.read_create_self, hfresh]
      rfl
  · simp at hopen

theorem Delete_frame (n : Nord) (key : Bytes) :
    (Delete n key).fs = n.fs ∧ (Delete n key).activeFileId = n.activeFileId ∧
      (Delete n key).activeFile = n.activeFile ∧ (Delete n key).writePos = n.writePos ∧
      (Delete n key).MaxFileSize = n.MaxFileSize := by
  unfold Delete
  split
  · exact ⟨rfl, rfl, rfl, rfl, rfl⟩
  · split <;> exact ⟨rfl, rfl, rfl, rfl, rfl⟩

theorem Reachable_activeOk (n : Nord) (h : Reachable n) :
    ActiveOk n.fs n.activeFileId n.activeFile n.writePos := by
  induction h with
  | start fs0 maxFileSize env n hnames hfresh hopen =>
    exact NewNord_activeOk fs0 maxFileSize env n hnames hfresh hopen
  | put n key val env _ hfresh hwrite ih => exact Put_activeOk n key val env ih hfresh hwrite
  | delete n key _ ih =>
    obtain ⟨h1, h2, h3, h4, _⟩ := Delete_frame n key
    rw [h1, h2, h3, h4]
    exact ih
  | merge n n1 env r _ hmerge ih => exact Merge_activeOk n n1 env r ih hmerge

/-- C7 as stated fails: with `MaxFileSize = 20` and a clock that stays at second
5, `Put("1", "Nikit")` fills `5.data` with 18 bytes, the rotation of
`Put("2", "Nick")` opens `5.data` again and sets `writePos = 0`, and after the
write `writePos` is 17 while the active file holds 35 bytes. -/
theorem C7_writePos_not_length :
    NewNord [] 20 (Env.at 5) = Outcome.ok (emptyStore 20 5) ∧
      (Put (Put (emptyStore 20 5) key1 valNikit (Env.at 5)).2 key2 valNick (Env.at 5)).1 = none ∧
      (Put (Put (emptyStore 20 5) key1 valNikit (Env.at 5)).2 key2 valNick (Env.at 5)).2.writePos
        = 17 ∧
      ((Put (Put (emptyStore 20 5) key1 valNikit (Env.at 5)).2 key2 valNick (Env.at 5)).2.fs.read
        (dataName (Put (Put (emptyStore 20 5) key1 valNikit (Env.at 5)).2 key2 valNick
          (Env.at 5)).2.activeFileId)).map List.length = some 35 := by
  decide

/-- C7, amended: in every state reached from `NewNord` on a directory of
well-formed names without a `<now>.data`, by `Put`s whose rotation (when there
is one) opens a data file that does not exist yet and whose write does not stop
part-way, by `Delete` and by `Merge`, the active data file exists and `writePos`
is its byte length. -/
theorem C7_writePos_is_length (n : Nord) (h : Reachable n) :
    ∃ c, n.fs.read (dataName n.activeFileId) = some c ∧ c.length = n.writePos :=
  (Reachable_activeOk n h).2.2.2

/-- C7, amended, at the state after `NewNord` at second 5, `Put("1", "Nikit")` at
second 6, rotating `Put`s of `"2"` and `"3"` at seconds 7 and 8, `Merge` at
second 9 and `Delete("3")`. -/
theorem C7_writePos_is_length_witness :
    ∃ c, (Delete threeFilesMerged key3).fs.read
          (dataName (Delete threeFilesMerged key3).activeFileId) = some c ∧
      c.length = (Delete threeFilesMerged key3).writePos :=
  C7_writePos_is_length _
    (Reachable.delete _ key3
      (Reachable.merge threeFiles threeFilesMerged (Env.at 9) none
        (Reachable.put _ key3 valGen (Env.at 8)
          (Reachable.put _ key2 valNick (Env.at 7)
            (Reachable.put _ key1 valNikit (Env.at 6)
              (Reachable.start [] 20 (Env.at 5) (emptyStore 20 5)
                (fun _ hname => absurd hname (List.not_mem_nil _)) rfl (by decide))
              (fun _ => by decide) (fun m hm => by simp [Env.at] at hm))
            (fun _ => by decide) (fun m hm => by simp [Env.at] at hm))
          (fun _ => by decide) (fun m hm => by simp [Env.at] at hm))
        (by decide)))

/-! ## Reading back what was put -/

theorem lastPut_concat (done : List PutCall) (op : PutCall) (k : Bytes) :
    lastPut (done ++ [op]) k = if op.key = k then some op.val else lastPut done k := by
  induction done with
  | nil => simp [lastPut]
  | cons o rest ih =>
    have hstep : lastPut (o :: rest ++ [op]) k
        = match lastPut (rest ++ [op]) k with
          | some v => some v
          | none => if o.key = k then some o.val else none := rfl
    rw [hstep, ih]
    by_cases h : op.key = k
    · simp [h]
    · simp [h, lastPut]

theorem totalSize_concat (done : List PutCall) (op : PutCall) :
    totalSize (done ++ [op])
      = totalSize done + (DataFileEntryHdrLen + op.key.length + op.val.length) := by
  induction done with
  | nil => simp [totalSize]
  | cons o rest ih =>
    have hstep : totalSize (o :: rest ++ [op])
        = DataFileEntryHdrLen + o.key.length + o.val.length + totalSize (rest ++ [op]) := rfl
    rw [hstep, ih]
    simp only [totalSize]
    omega

/-- A `Put` that returns no error had an open active file and no failing call. -/
theorem Put_ok_form (n n1 : Nord) (key val : Bytes) (env : Env)
    (h : Put n key val env = (none, n1)) :
    (∃ name, n.activeFile = some name) ∧ env.writeFails = none ∧
      (rotates n key val → env.closeFails = false ∧ env.openFails = false) := by
  rw [Put_eq] at h
  by_cases hr : rotates n key val
  · rw [if_pos hr] at h
    unfold updateActiveFile at h
    cases hf : n.activeFile with
    | none => simp [hf] at h
    | some name =>
      simp only [hf] at h
      cases hc : env.closeFails with
      | true => simp [hc] at h
      | false =>
        cases ho : env.openFails with
        | true => simp [hc, ho] at h
        | false =>
          simp only [hc, ho, Bool.false_eq_true, if_false] at h
          cases hw : env.writeFails with
          | some m => simp [writeActive, hw] at h
          | none => exact ⟨⟨name, rfl⟩, rfl, fun _ => ⟨rfl, rfl⟩⟩
  · rw [if_neg hr] at h
    simp only at h
    cases hf : n.activeFile with
    | none => simp [writeActive, hf] at h
    | some name =>
      cases hw : env.writeFails with
      | some m => simp [writeActive, hf, hw] at h
      | none => exact ⟨⟨name, rfl⟩, rfl, fun hrot => absurd hrot hr⟩

theorem take_drop_append_left (c bs : Bytes) (off len : Nat) (h : off + len ≤ c.length) :
    ((c ++ bs).drop off).take len = (c.drop off).take len := by
  rw [List.drop_append_of_le_length (by omega), List.take_append_of_le_length]
  simp only [List.length_drop]
  omega

theorem recordBytes_value (key val : Bytes) (env : Env) (c : Bytes) :
    ((c ++ recordBytes key val env).drop (c.length + 12 + key.length)).take val.length = val := by
  have h1 : c ++ recordBytes key val env
      = (c ++ (putUint32 (env.now % 4294967296) ++ putUint32 (key.length % 4294967296)
          ++ putUint32 (val.length % 4294967296) ++ key)) ++ val := by
    simp [recordBytes, DataFileEntry.Serialize]
  have h2 : (c ++ (putUint32 (env.now % 4294967296) ++ putUint32 (key.length % 4294967296)
          ++ putUint32 (val.length % 4294967296) ++ key)).length
      = c.length + 12 + key.length := by
    simp [putUint32]
    omega
  rw [h1, List.drop_left' h2, List.take_length]

/-- One step of the invariant: after a successful `Put` every key put so far,
the new one included, has a locator that leads to its latest value. -/
theorem Put_getOk (n n1 : Nord) (done : List PutCall) (op : PutCall)
    (hA : ActiveOk n.fs n.activeFileId n.activeFile n.writePos)
    (hG : GetOk n done)
    (hput : Put n op.key op.val op.env = (none, n1))
    (hfresh : rotates n op.key op.val →
      n.fs.read (dataName (op.env.nowRotate % 4294967296)) = none)
    (hpos : ¬ rotates n op.key op.val → n.writePos < 4294967296) :
    GetOk n1 (done ++ [op]) := by
  obtain ⟨⟨name, hname⟩, hw, hflags⟩ := Put_ok_form n n1 op.key op.val op.env hput
  obtain ⟨_, _, hact, c0, hc0, hlen0⟩ := hA
  have hnm := hact name hname
  subst hnm
  intro k v hk
  rw [lastPut_concat] at hk
  by_cases hr : rotates n op.key op.val
  · obtain ⟨hc, ho⟩ := hflags hr
    rw [Put_rotate n op.key op.val op.env _ hr hname hc ho hw] at hput
    simp only [Prod.mk.injEq, true_and] at hput
    subst hput
    have hnew := hfresh hr
    by_cases hkey : op.key = k
    · rw [if_pos hkey] at hk
      simp only [Option.some.injEq] at hk
      subst hkey
      subst hk
      refine ⟨_, recordBytes op.key op.val op.env, KeyDir.get_set_same _ _ _, rfl, ?_, ?_, ?_⟩
      · simp only
        rw [FS.read_append_self, FS.read_create_self, hnew]
        rfl
      · rw [recordBytes_length]
        simp only [DataFileEntryHdrLen]
        omega
      · have := recordBytes_value op.key op.val op.env []
        simpa using this
    · rw [if_neg hkey] at hk
      obtain ⟨e, c, he, hsz, hread, hle, hval⟩ := hG k v hk
      refine ⟨e, c, ?_, hsz, ?_, hle, hval⟩
      · simp only
        rw [KeyDir.get_set_other _ _ _ _ hkey, he]
      · simp only
        have hne : dataName e.FileId ≠ dataName (op.env.nowRotate % 4294967296) := by
          intro heq
          rw [heq, hnew] at hread
          exact absurd hread (by simp)
        rw [FS.read_append_other _ _ _ _ hne, FS.read_create_other _ _ _ hne, hread]
  · rw [Put_append n op.key op.val op.env _ hr hname hw] at hput
    simp only [Prod.mk.injEq, true_and] at hput
    subst hput
    have hp := hpos hr
    by_cases hkey : op.key = k
    · rw [if_pos hkey] at hk
      simp only [Option.some.injEq] at hk
      subst hkey
      subst hk
      refine ⟨_, c0 ++ recordBytes op.key op.val op.env, KeyDir.get_set_same _ _ _, rfl, ?_, ?_, ?_⟩
      · simp only [putEntry]
        rw [FS.read_append_self, hc0]
        rfl
      · simp only [putEntry, List.length_append, recordBytes_length, DataFileEntryHdrLen]
        rw [Nat.mod_eq_of_lt hp]
        omega
      · simp only [putEntry]
        rw [Nat.mod_eq_of_lt hp, ← hlen0]
        exact recordBytes_value op.key op.val op.env c0
    · rw [if_neg hkey] at hk
      obtain ⟨e, c, he, hsz, hread, hle, hval⟩ := hG k v hk
      by_cases hfile : dataName e.FileId = dataName n.activeFileId
      · rw [hfile, hc0] at hread
        simp only [Option.some.injEq] at hread
        subst hread
        refine ⟨e, c0 ++ recordBytes op.key op.val op.env, ?_, hsz, ?_, ?_, ?_⟩
        · simp only
          rw [KeyDir.get_set_other _ _ _ _ hkey, he]
        · simp only
          rw [hfile, FS.read_append_self, hc0]
          rfl
        · simp only [List.length_append]
          omega
        · rw [take_drop_append_left _ _ _ _ (by omega)]
          exact hval
      · refine ⟨e, c, ?_, hsz, ?_, hle, hval⟩
        · simp only
          rw [KeyDir.get_set_other _ _ _ _ hkey, he]
        · simp only
          rw [FS.read_append_other _ _ _ _ hfile, hread]

/-- From the invariant to `Get`: a key whose latest value is not empty and
shorter than `2 ^ 32` bytes is found with that value. -/
theorem GetOk_get (n : Nord) (ops : List PutCall) (hG : GetOk n ops) (k v : Bytes)
    (hk : lastPut ops k = some v) (hne : v ≠ []) (hlt : v.length < 4294967296) :
    Get n k = (v, true) := by
  obtain ⟨e, c, he, hsz, hread, hle, hval⟩ := hG k v hk
  rw [Nat.mod_eq_of_lt hlt] at hsz
  have hpos : 0 < v.length := List.length_pos.mpr hne
  unfold Get
  simp only [he, hread, hsz, FS.readAt]
  have h0 : ¬ v.length = 0 := by omega
  simp [h0, hle, hval]

theorem totalSize_append (a b : List PutCall) :
    totalSize (a ++ b) = totalSize a + totalSize b := by
  induction a with
  | nil => simp [totalSize]
  | cons o rest ih =>
    have hstep : totalSize (o :: rest ++ b)
        = DataFileEntryHdrLen + o.key.length + o.val.length + totalSize (rest ++ b) := rfl
    rw [hstep, ih]
    simp only [totalSize]
    omega

theorem toInt64_of_lt (m : Nat) (h : m < 9223372036854775808) : toInt64 m = (m : Int) := by
  unfold toInt64
  have h1 : m % 18446744073709551616 = m := Nat.mod_eq_of_lt (by omega)
  rw [h1, if_pos h]

theorem NewNord_empty (maxFileSize : Nat) (env : Env) (n0 : Nord)
    (h : NewNord [] maxFileSize env = Outcome.ok n0) :
    n0 = emptyStore maxFileSize (env.now % 4294967296) := by
  unfold NewNord Open buildKeyDir at h
  cases hr : env.readDirFails with
  | true => simp [hr] at h
  | false =>
    cases ho : env.openFails with
    | true => simp [hr, ho, FS.readDir, FS.sortBy, fileInfos, processFiles] at h
    | false =>
      simp [hr, ho, FS.readDir, FS.sortBy, fileInfos, processFiles, FS.create, FS.read] at h
      rw [← h]
      rfl

theorem emptyStore_activeOk (maxFileSize t : Nat) (ht : t < 4294967296) :
    ActiveOk (emptyStore maxFileSize t).fs (emptyStore maxFileSize t).activeFileId
      (emptyStore maxFileSize t).activeFile (emptyStore maxFileSize t).writePos := by
  refine ⟨ht, ?_, fun name hn => (Option.some.inj hn).symm, [], ?_, rfl⟩
  · intro name hname
    simp only [emptyStore, List.map_cons, List.map_nil, List.mem_singleton] at hname
    exact ⟨t, ht, Or.inl hname⟩
  · simp [emptyStore, FS.read]

theorem GetOk_nil (n : Nord) : GetOk n [] := by
  intro k v hk
  simp [lastPut] at hk

theorem Put_ok_frame (n n1 : Nord) (key val : Bytes) (env : Env)
    (h : Put n key val env = (none, n1)) :
    n1.MaxFileSize = n.MaxFileSize ∧
      (¬ rotates n key val →
        n1.writePos = n.writePos + (DataFileEntryHdrLen + key.length + val.length)) := by
  obtain ⟨⟨name, hname⟩, hw, hflags⟩ := Put_ok_form n n1 key val env h
  by_cases hr : rotates n key val
  · obtain ⟨hc, ho⟩ := hflags hr
    rw [Put_rotate n key val env _ hr hname hc ho hw] at h
    simp only [Prod.mk.injEq, true_and] at h
    subst h
    exact ⟨rfl, fun hcontra => absurd hr hcontra⟩
  · rw [Put_append n key val env _ hr hname hw] at h
    simp only [Prod.mk.injEq, true_and] at h
    subst h
    exact ⟨rfl, fun _ => rfl⟩

theorem lastPut_size (ops : List PutCall) (k v : Bytes) (h : lastPut ops k = some v) :
    DataFileEntryHdrLen + k.length + v.length ≤ totalSize ops := by
  induction ops with
  | nil => simp [lastPut] at h
  | cons op rest ih =>
    unfold lastPut at h
    simp only [totalSize]
    split at h
    · rename_i v2 hv2
      simp only [Option.some.injEq] at h
      subst h
      have := ih hv2
      omega
    · split at h
      · rename_i hkey
        simp only [Option.some.injEq] at h
        subst h
        subst hkey
        omega
      · simp at h

/-- The invariant along puts that never rotate: the total size stays below
`MaxFileSize` (below `2 ^ 63`) and does not pass `2 ^ 32`. -/
theorem putAll_getOk_noRotation (rest done : List PutCall) (n n1 : Nord)
    (hA : ActiveOk n.fs n.activeFileId n.activeFile n.writePos)
    (hG : GetOk n done)
    (hM : n.MaxFileSize < 9223372036854775808)
    (hw : n.writePos = totalSize done)
    (hsize : totalSize (done ++ rest) < n.MaxFileSize)
    (h32 : totalSize (done ++ rest) ≤ 4294967296)
    (hput : putAll n rest = some n1) :
    GetOk n1 (done ++ rest) := by
  induction rest generalizing done n with
  | nil =>
    simp only [putAll, Option.some.injEq] at hput
    subst hput
    simpa using hG
  | cons op rest ih =>
    unfold putAll at hput
    split at hput
    · rename_i n2 hp
      rw [totalSize_append] at hsize h32
      have hop : totalSize (op :: rest)
          = DataFileEntryHdrLen + op.key.length + op.val.length + totalSize rest := rfl
      have hsize2 := hsize
      have h322 := h32
      rw [hop] at hsize2 h322
      have hr : ¬ rotates n op.key op.val := by
        unfold rotates
        rw [toInt64_of_lt _ hM]
        omega
      clear hsize2
      obtain ⟨hM2, hw2⟩ := Put_ok_frame n n2 op.key op.val op.env hp
      obtain ⟨_, hwf, _⟩ := Put_ok_form n n2 op.key op.val op.env hp
      have hA2 : ActiveOk n2.fs n2.activeFileId n2.activeFile n2.writePos := by
        have := Put_activeOk n op.key op.val op.env hA (fun h => absurd h hr)
          (fun m hm => by rw [hwf] at hm; exact absurd hm (by simp))
        rw [hp] at this
        exact this
      have hG2 := Put_getOk n n2 done op hA hG hp (fun h => absurd h hr)
        (fun _ => by simp only [DataFileEntryHdrLen] at h322; omega)
      have := ih (done ++ [op]) n2 hA2 hG2 (by rw [hM2]; exact hM)
        (by rw [hw2 hr, hw, totalSize_concat])
        (by rw [hM2, List.append_assoc, totalSize_append]; exact hsize)
        (by rw [List.append_assoc, totalSize_append]; exact h32) hput
      simpa using this
    · simp at hput

/-- C1 as stated fails for a `MaxFileSize` of `2 ^ 63`: `int(MaxFileSize)` is
negative, every `Put` rotates, and two puts in the same second reopen the same
file with `writePos = 0`. After `Put("1", "Nikit")` and `Put("2", "Nick")`
(35 bytes in all) `Get("2")` returns `Niki`. -/
theorem C1_get_wrong_value :
    NewNord [] 9223372036854775808 (Env.at 5) = Outcome.ok (emptyStore 9223372036854775808 5) ∧
      totalSize sameSecondPuts < 9223372036854775808 ∧
      lastPut sameSecondPuts key2 = some valNick ∧
      (putAll (emptyStore 9223372036854775808 5) sameSecondPuts).map (fun n => Get n key2)
        = some ([78, 105, 107, 105], true) := by
  decide

/-- C1, amended: on the engine `NewNord` opens on an empty directory with
`MaxFileSize` below `2 ^ 63`, after any sequence of `Put`s that all return no
error and whose total encoded size is below `MaxFileSize` and at most `2 ^ 32`,
`Get(k)` for every key `k` that was put with a non-empty latest value reports
success and returns exactly the value of the most recent `Put(k, .)`. -/
theorem C1_get_returns_last_put (maxFileSize : Nat) (env0 : Env) (ops : List PutCall)
    (n0 n : Nord)
    (hopen : NewNord [] maxFileSize env0 = Outcome.ok n0)
    (hput : putAll n0 ops = some n)
    (hmax : maxFileSize < 9223372036854775808)
    (hsize : totalSize ops < maxFileSize)
    (h32 : totalSize ops ≤ 4294967296)
    (k v : Bytes) (hk : lastPut ops k = some v) (hv : v ≠ []) :
    Get n k = (v, true) := by
  have h0 := NewNord_empty maxFileSize env0 n0 hopen
  subst h0
  have hG := putAll_getOk_noRotation ops [] _ n
    (emptyStore_activeOk maxFileSize _ (Nat.mod_lt _ (by decide))) (GetOk_nil _) hmax rfl
    (by simpa using hsize) (by simpa using h32) hput
  simp only [List.nil_append] at hG
  have hlen : v.length < 4294967296 := by
    have := lastPut_size ops k v hk
    simp only [DataFileEntryHdrLen] at this
    omega
  exact GetOk_get n ops hG k v hk hv hlen

/-- C1, amended, at `Test_Nord`: `MaxFileSize = 128`, puts `("1", "Nikit")`,
`("2", "Nick")`, `("3", "Gen")`, then the three gets. -/
theorem C1_get_returns_last_put_witness :
    NewNord [] 128 (Env.at 1700000000) = Outcome.ok (emptyStore 128 1700000000) ∧
      putAll (emptyStore 128 1700000000) testPuts = some afterTestPuts ∧
      Get afterTestPuts key1 = (valNikit, true) ∧
      Get afterTestPuts key2 = (valNick, true) ∧
      Get afterTestPuts key3 = (valGen, true) :=
  ⟨by decide, by decide,
   C1_get_returns_last_put 128 (Env.at 1700000000) testPuts (emptyStore 128 1700000000)
     afterTestPuts (by decide) (by decide) (by decide) (by decide) (by decide)
     key1 valNikit (by decide) (by decide),
   C1_get_returns_last_put 128 (Env.at 1700000000) testPuts (emptyStore 128 1700000000)
     afterTestPuts (by decide) (by decide) (by decide) (by decide) (by decide)
     key2 valNick (by decide) (by decide),
   C1_get_returns_last_put 128 (Env.at 1700000000) testPuts (emptyStore 128 1700000000)
     afterTestPuts (by decide) (by decide) (by decide) (by decide) (by decide)
     key3 valGen (by decide) (by decide)⟩

/-! ## Rotation -/

theorem Put_read_some (n n1 : Nord) (key val : Bytes) (env : Env) (x : Bytes)
    (h : Put n key val env = (none, n1)) (hx : n.fs.read x ≠ none) : n1.fs.read x ≠ none := by
  obtain ⟨⟨name, hname⟩, hw, hflags⟩ := Put_ok_form n n1 key val env h
  obtain ⟨c, hc⟩ := Option.ne_none_iff_exists'.mp hx
  by_cases hr : rotates n key val
  · obtain ⟨hcl, ho⟩ := hflags hr
    rw [Put_rotate n key val env _ hr hname hcl ho hw] at h
    simp only [Prod.mk.injEq, true_and] at h
    subst h
    simp only
    by_cases hxn : x = dataName (env.nowRotate % 4294967296)
    · subst hxn
      rw [FS.read_append_self, FS.read_create_self]
      simp
    · rw [FS.read_append_other _ _ _ _ hxn, FS.read_create_other _ _ _ hxn, hc]
      simp
  · rw [Put_append n key val env _ hr hname hw] at h
    simp only [Prod.mk.injEq, true_and] at h
    subst h
    simp only
    by_cases hxn : x = name
    · subst hxn
      rw [FS.read_append_self, hc]
      simp
    · rw [FS.read_append_other _ _ _ _ hxn, hc]
      simp

theorem putAll_read_some (ops : List PutCall) (n n1 : Nord) (x : Bytes)
    (h : putAll n ops = some n1) (hx : n.fs.read x ≠ none) : n1.fs.read x ≠ none := by
  induction ops generalizing n with
  | nil =>
    simp only [putAll, Option.some.injEq] at h
    subst h
    exact hx
  | cons op rest ih =>
    unfold putAll at h
    split at h
    · rename_i n2 hp
      exact ih n2 h (Put_read_some n n2 op.key op.val op.env x hp hx)
    · simp at h

theorem putAll_twoDataFiles (ops : List PutCall) (n n1 : Nord)
    (h : putAll n ops = some n1) (hx : twoDataFiles n.fs) : twoDataFiles n1.fs := by
  obtain ⟨i, j, hij, hi, hj⟩ := hx
  exact ⟨i, j, hij, putAll_read_some ops n n1 _ h hi, putAll_read_some ops n n1 _ h hj⟩

/-- A rotation into a file that did not exist leaves two data files. -/
theorem Put_rotate_twoDataFiles (n n1 : Nord) (key val : Bytes) (env : Env)
    (hA : ActiveOk n.fs n.activeFileId n.activeFile n.writePos)
    (h : Put n key val env = (none, n1)) (hr : rotates n key val)
    (hfresh : n.fs.read (dataName (env.nowRotate % 4294967296)) = none) :
    twoDataFiles n1.fs := by
  obtain ⟨_, _, _, c0, hc0, _⟩ := hA
  obtain ⟨⟨name, hname⟩, hw, hflags⟩ := Put_ok_form n n1 key val env h
  obtain ⟨hcl, ho⟩ := hflags hr
  have hold : n1.fs.read (dataName n.activeFileId) ≠ none :=
    Put_read_some n n1 key val env _ h (by rw [hc0]; simp)
  rw [Put_rotate n key val env _ hr hname hcl ho hw] at h
  simp only [Prod.mk.injEq, true_and] at h
  subst h
  refine ⟨n.activeFileId, env.nowRotate % 4294967296, ?_, hold, ?_⟩
  · intro heq
    rw [← heq, hc0] at hfresh
    exact absurd hfresh (by simp)
  · simp only
    rw [FS.read_append_self, FS.read_create_self]
    simp

/-- The invariant along puts that may rotate into files that do not exist yet,
with `MaxFileSize` at most `2 ^ 32`. Either no put rotated and `writePos` grew
by the total size, staying below `MaxFileSize`, or there are two data files. -/
theorem putAll_getOk_rotation (rest done : List PutCall) (n n1 : Nord)
    (hA : ActiveOk n.fs n.activeFileId n.activeFile n.writePos)
    (hG : GetOk n done)
    (hM : n.MaxFileSize ≤ 4294967296)
    (hfresh : freshRotations n rest)
    (hput : putAll n rest = some n1) :
    GetOk n1 (done ++ rest) ∧
      ((n1.writePos = n.writePos + totalSize rest ∧ (rest ≠ [] → n1.writePos < n.MaxFileSize)) ∨
        twoDataFiles n1.fs) := by
  induction rest generalizing done n with
  | nil =>
    simp only [putAll, Option.some.injEq] at hput
    subst hput
    refine ⟨by simpa using hG, Or.inl ⟨by simp [totalSize], fun h => absurd rfl h⟩⟩
  | cons op rest ih =>
    obtain ⟨hf1, hf2⟩ := hfresh
    unfold putAll at hput
    split at hput
    · rename_i n2 hp
      rw [hp] at hf2
      obtain ⟨hM2, hw2⟩ := Put_ok_frame n n2 op.key op.val op.env hp
      obtain ⟨_, hwf, _⟩ := Put_ok_form n n2 op.key op.val op.env hp
      have hA2 : ActiveOk n2.fs n2.activeFileId n2.activeFile n2.writePos := by
        have := Put_activeOk n op.key op.val op.env hA hf1
          (fun m hm => by rw [hwf] at hm; exact absurd hm (by simp))
        rw [hp] at this
        exact this
      have hlt : ¬ rotates n op.key op.val →
          DataFileEntryHdrLen + op.key.length + op.val.length + n.writePos < n.MaxFileSize := by
        intro hr
        unfold rotates at hr
        rw [toInt64_of_lt _ (by omega)] at hr
        omega
      have hG2 := Put_getOk n n2 done op hA hG hp hf1 (fun hr => by have := hlt hr; omega)
      obtain ⟨hG3, hrest⟩ := ih (done ++ [op]) n2 hA2 hG2 (by rw [hM2]; exact hM) hf2 hput
      refine ⟨by simpa using hG3, ?_⟩
      by_cases hr : rotates n op.key op.val
      · exact Or.inr (putAll_twoDataFiles rest n2 n1 hput
          (Put_rotate_twoDataFiles n n2 op.key op.val op.env hA hp hr (hf1 hr)))
      · rcases hrest with ⟨hw3, hb3⟩ | htwo
        · left
          have hop : totalSize (op :: rest)
              = DataFileEntryHdrLen + op.key.length + op.val.length + totalSize rest := rfl
          refine ⟨by rw [hw3, hw2 hr, hop]; omega, fun _ => ?_⟩
          cases rest with
          | nil =>
            simp only [putAll, Option.some.injEq] at hput
            subst hput
            rw [hw2 hr]
            have := hlt hr
            omega
          | cons o rest2 =>
            have := hb3 (by simp)
            rw [hM2] at this
            exact this
        · exact Or.inr htwo
    · simp at hput

/-- C5 as stated fails when the clock stands still: with `MaxFileSize = 20`,
`Put("1", "Nikit")` and `Put("2", "Nick")` in second 5 write 35 bytes, more than
`MaxFileSize`; the rotation reopens `5.data`, the directory holds one data file,
and `Get("2")` returns `Niki`. -/
theorem C5_same_second_rotation :
    NewNord [] 20 (Env.at 5) = Outcome.ok (emptyStore 20 5) ∧
      20 < totalSize sameSecondPuts ∧
      lastPut sameSecondPuts key2 = some valNick ∧
      (putAll (emptyStore 20 5) sameSecondPuts).map (fun n => n.fs.map Prod.fst)
        = some [dataName 5] ∧
      (putAll (emptyStore 20 5) sameSecondPuts).map (fun n => Get n key2)
        = some ([78, 105, 107, 105], true) := by
  decide

/-- C5, amended: on the engine `NewNord` opens on an empty directory with
`MaxFileSize` at most `2 ^ 32`, after successful `Put`s whose total encoded size
exceeds `MaxFileSize` and whose rotations each open a data file that does not
exist yet (the clock second is not the id of a file of the directory), the
directory holds at least two data files, and `Get(k)` returns the latest value
of every key `k` whose latest value is not empty and shorter than `2 ^ 32`
bytes. -/
theorem C5_rotation_keeps_keys (maxFileSize : Nat) (env0 : Env) (ops : List PutCall)
    (n0 n : Nord)
    (hopen : NewNord [] maxFileSize env0 = Outcome.ok n0)
    (hput : putAll n0 ops = some n)
    (hfresh : freshRotations n0 ops)
    (hmax : maxFileSize ≤ 4294967296)
    (hexceed : maxFileSize < totalSize ops) :
    twoDataFiles n.fs ∧
      ∀ k v, lastPut ops k = some v → v ≠ [] → v.length < 4294967296 → Get n k = (v, true) := by
  have h0 := NewNord_empty maxFileSize env0 n0 hopen
  subst h0
  obtain ⟨hG, hcase⟩ := putAll_getOk_rotation ops [] _ n
    (emptyStore_activeOk maxFileSize _ (Nat.mod_lt _ (by decide))) (GetOk_nil _) hmax hfresh hput
  simp only [List.nil_append] at hG
  refine ⟨?_, fun k v hk hv hlt => GetOk_get n ops hG k v hk hv hlt⟩
  rcases hcase with ⟨hw, hb⟩ | htwo
  · have hne : ops ≠ [] := by
      intro hnil
      subst hnil
      simp [totalSize] at hexceed
    have := hb hne
    simp only [emptyStore] at hw this
    omega
  · exact htwo

/-- C5, amended, with `MaxFileSize = 20` and puts at seconds 6, 7 and 8: three
data files, and the three keys are read back. -/
theorem C5_rotation_keeps_keys_witness :
    NewNord [] 20 (Env.at 5) = Outcome.ok (emptyStore 20 5) ∧
      putAll (emptyStore 20 5) risingPuts = some threeFiles ∧
      twoDataFiles threeFiles.fs ∧
      Get threeFiles key1 = (valNikit, true) ∧ Get threeFiles key3 = (valGen, true) :=
  ⟨by decide, by decide,
   (C5_rotation_keeps_keys 20 (Env.at 5) risingPuts (emptyStore 20 5) threeFiles
      (by decide) (by decide) (by decide) (by decide) (by decide)).1,
   (C5_rotation_keeps_keys 20 (Env.at 5) risingPuts (emptyStore 20 5) threeFiles
      (by decide) (by decide) (by decide) (by decide) (by decide)).2
      key1 valNikit (by decide) (by decide) (by decide),
   (C5_rotation_keeps_keys 20 (Env.at 5) risingPuts (emptyStore 20 5) threeFiles
      (by decide) (by decide) (by decide) (by decide) (by decide)).2
      key3 valGen (by decide) (by decide) (by decide)⟩

/-! ## Scanning a data file -/

theorem uint32LE_putUint32 (v : Nat) (h : v < 4294967296) : uint32LE (putUint32 v) = v := by
  simp only [putUint32, uint32LE, byte]
  omega

theorem Rec.bytes_length (r : Rec) : r.bytes.length = 12 + r.key.length + r.val.length := by
  simp [Rec.bytes, DataFileEntry.Serialize, putUint32]
  omega

theorem encodeRecs_concat (recs : List Rec) (r : Rec) :
    encodeRecs (recs ++ [r]) = encodeRecs recs ++ r.bytes := by
  induction recs with
  | nil => simp [encodeRecs]
  | cons a rest ih =>
    have hstep : encodeRecs (a :: rest ++ [r]) = a.bytes ++ encodeRecs (rest ++ [r]) := rfl
    rw [hstep, ih]
    simp [encodeRecs]

theorem encodeRecs_length_ge (recs : List Rec) : recs.length ≤ (encodeRecs recs).length := by
  induction recs with
  | nil => simp
  | cons a rest ih =>
    simp only [encodeRecs, List.length_cons, List.length_append, Rec.bytes_length]
    omega

theorem FS.readAt_mid (pre a post : Bytes) :
    FS.readAt (pre ++ a ++ post) pre.length a.length = some a := by
  unfold FS.readAt
  by_cases h0 : a.length = 0
  · rw [if_pos h0]
    rw [List.length_eq_zero.mp h0]
  · rw [if_neg h0, if_pos (by simp)]
    rw [List.append_assoc, List.drop_left, List.take_left]

theorem FS.readAt_end (content : Bytes) (pos len : Nat) (hlen : 0 < len)
    (h : content.length < pos + len) : FS.readAt content pos len = none := by
  unfold FS.readAt
  rw [if_neg (by omega), if_neg (by omega)]

/-- The scan of a data file that holds complete records enters each of them at
its offset. -/
theorem scanData_encodeRecs (fid : Nat) (recs : List Rec) (pre : Bytes) (kd : KeyDir)
    (fuel : Nat) (hfuel : recs.length < fuel) (hsmall : recsSmall recs) :
    scanData fid (pre ++ encodeRecs recs) fuel pre.length kd
      = Outcome.ok (indexRecs fid recs pre.length kd) := by
  induction recs generalizing pre kd fuel with
  | nil =>
    cases fuel with
    | zero => simp at hfuel
    | succ fuel =>
      simp only [encodeRecs, List.append_nil, scanData, indexRecs]
      rw [FS.readAt_end _ _ _ (by decide) (by simp [DataFileEntryHdrLen])]
  | cons r rest ih =>
    cases fuel with
    | zero => simp at hfuel
    | succ fuel =>
      obtain ⟨hts, hkv⟩ := hsmall r (List.mem_cons_self _ _)
      have hk : r.key.length % 4294967296 = r.key.length := Nat.mod_eq_of_lt (by omega)
      have hv : r.val.length % 4294967296 = r.val.length := Nat.mod_eq_of_lt (by omega)
      have hhdr : pre ++ encodeRecs (r :: rest)
          = pre ++ (putUint32 r.ts ++ putUint32 r.key.length ++ putUint32 r.val.length)
              ++ (r.key ++ r.val ++ encodeRecs rest) := by
        simp [encodeRecs, Rec.bytes, DataFileEntry.Serialize, hk, hv]
      have hkey : pre ++ encodeRecs (r :: rest)
          = (pre ++ (putUint32 r.ts ++ putUint32 r.key.length ++ putUint32 r.val.length))
              ++ r.key ++ (r.val ++ encodeRecs rest) := by
        simp [encodeRecs, Rec.bytes, DataFileEntry.Serialize, hk, hv]
      have hnext : pre ++ encodeRecs (r :: rest) = (pre ++ r.bytes) ++ encodeRecs rest := by
        simp [encodeRecs]
      have h12 : (putUint32 r.ts ++ putUint32 r.key.length ++ putUint32 r.val.length).length
          = DataFileEntryHdrLen := by
        simp [putUint32, DataFileEntryHdrLen]
      have hread1 : FS.readAt (pre ++ encodeRecs (r :: rest)) pre.length DataFileEntryHdrLen
          = some (putUint32 r.ts ++ putUint32 r.key.length ++ putUint32 r.val.length) := by
        rw [hhdr, ← h12]
        exact FS.readAt_mid _ _ _
      have hread2 : FS.readAt (pre ++ encodeRecs (r :: rest)) (pre.length + DataFileEntryHdrLen)
          r.key.length = some r.key := by
        have hl : (pre ++ (putUint32 r.ts ++ putUint32 r.key.length
            ++ putUint32 r.val.length)).length = pre.length + DataFileEntryHdrLen := by
          rw [List.length_append, h12]
        rw [hkey, ← hl]
        exact FS.readAt_mid _ _ _
      have hf1 : (putUint32 r.ts ++ putUint32 r.key.length ++ putUint32 r.val.length).take 4
          = putUint32 r.ts := by
        simp [putUint32]
      have hf2 : ((putUint32 r.ts ++ putUint32 r.key.length ++ putUint32 r.val.length).drop 4).take 4
          = putUint32 r.key.length := by
        simp [putUint32]
      have hf3 : ((putUint32 r.ts ++ putUint32 r.key.length ++ putUint32 r.val.length).drop 8).take 4
          = putUint32 r.val.length := by
        simp [putUint32]
      unfold scanData
      simp only [hread1, hf1, hf2, hf3, uint32LE_putUint32 _ hts,
        uint32LE_putUint32 r.key.length (by omega), uint32LE_putUint32 r.val.length (by omega),
        hread2]
      have hpos : pre.length + DataFileEntryHdrLen + (r.key.length + r.val.length) % 4294967296
          = (pre ++ r.bytes).length := by
        rw [Nat.mod_eq_of_lt hkv, List.length_append, Rec.bytes_length]
        simp only [DataFileEntryHdrLen]
        omega
      rw [hpos, hnext]
      rw [ih (pre ++ r.bytes) _ fuel (by simpa using hfuel)
        (fun x hx => hsmall x (List.mem_cons_of_mem _ hx))]
      simp only [indexRecs, hv, List.length_append]

theorem scanData_file (fid : Nat) (recs : List Rec) (kd : KeyDir) (hsmall : recsSmall recs) :
    scanData fid (encodeRecs recs) ((encodeRecs recs).length + 1) 0 kd
      = Outcome.ok (indexRecs fid recs 0 kd) := by
  have := scanData_encodeRecs fid recs [] kd ((encodeRecs recs).length + 1)
    (by have := encodeRecs_length_ge recs; omega) hsmall
  simpa using this

/-! ## Rebuilding the key directory from a log -/

theorem logFS_names (L : List LogFile) :
    (logFS L).map Prod.fst = (L.map (fun f => f.id)).map dataName := by
  simp [logFS, List.map_map, Function.comp_def]

theorem fileInfos_dataNames (ids : List Nat) (h : ∀ i ∈ ids, i < 4294967296) :
    fileInfos (ids.map dataName) = some (ids.map mkInfo) := by
  induction ids with
  | nil => rfl
  | cons i rest ih =>
    simp only [List.map_cons, fileInfos, getFileInfo_dataName i (h i (List.mem_cons_self _ _)),
      ih (fun x hx => h x (List.mem_cons_of_mem _ hx)), mkInfo]

/-- Sorting by id a listing of the data files of ascending ids, in whatever
order the listing comes, gives the files in ascending order. -/
theorem sortBy_id_of_perm (ids ids1 : List Nat) (hperm : ids1.Perm ids)
    (hsorted : ids.Pairwise (fun a b => a < b)) :
    FS.sortBy (fun a b => decide (a.id ≤ b.id)) (ids1.map mkInfo) = ids.map mkInfo := by
  unfold FS.sortBy
  have hmap := List.map_insertionSort (fun i j : Nat => decide (i ≤ j) = true)
    (fun a b : FileInfo => decide (a.id ≤ b.id) = true) mkInfo ids1
    (fun a _ b _ => Iff.rfl)
  rw [← hmap]
  congr 1
  haveI : IsTotal Nat (fun i j : Nat => decide (i ≤ j) = true) :=
    ⟨fun a b => by simp only [decide_eq_true_eq]; omega⟩
  haveI : IsTrans Nat (fun i j : Nat => decide (i ≤ j) = true) :=
    ⟨fun a b c hab hbc => by simp only [decide_eq_true_eq] at *; omega⟩
  haveI : IsAntisymm Nat (fun i j : Nat => decide (i ≤ j) = true) :=
    ⟨fun a b hab hba => by simp only [decide_eq_true_eq] at *; omega⟩
  apply List.eq_of_perm_of_sorted (r := fun i j : Nat => decide (i ≤ j) = true)
  · exact (List.perm_insertionSort _ ids1).trans hperm
  · exact List.sorted_insertionSort _ ids1
  · exact hsorted.imp (fun hab => by simp only [decide_eq_true_eq]; omega)

theorem readDir_logFS (L : List LogFile) :
    ∃ ids1 : List Nat, ids1.Perm (L.map (fun f => f.id)) ∧ FS.readDir (logFS L) = ids1.map dataName := by
  refine ⟨List.insertionSort (fun i j => FS.nameLe (dataName i) (dataName j) = true)
    (L.map (fun f => f.id)), List.perm_insertionSort _ _, ?_⟩
  unfold FS.readDir FS.sortBy
  rw [logFS_names]
  exact (List.map_insertionSort _ _ dataName _ (fun a _ b _ => Iff.rfl)).symm

theorem logFS_read (L : List LogFile) (hsorted : (L.map (fun f => f.id)).Pairwise (fun a b => a < b))
    (f : LogFile) (hf : f ∈ L) : (logFS L).read (dataName f.id) = some (encodeRecs f.recs) := by
  induction L with
  | nil => simp at hf
  | cons g rest ih =>
    simp only [List.map_cons, List.pairwise_cons] at hsorted
    rcases List.mem_cons.mp hf with h | h
    · subst h
      simp [logFS, FS.read]
    · have hlt := hsorted.1 f.id (List.mem_map_of_mem _ h)
      have hne : ¬ dataName g.id = dataName f.id := by
        intro heq
        have := dataName_injective _ _ heq
        omega
      have := ih hsorted.2 h
      simp only [logFS, List.map_cons, FS.read, hne, if_false] at this ⊢
      exact this

theorem logFS_read_none (L : List LogFile) (id : Nat) (h : ∀ f ∈ L, f.id ≠ id) :
    (logFS L).read (dataName id) = none := by
  induction L with
  | nil => rfl
  | cons g rest ih =>
    have hne : ¬ dataName g.id = dataName id := by
      intro heq
      exact h g (List.mem_cons_self _ _) (dataName_injective _ _ heq)
    have := ih (fun f hf => h f (List.mem_cons_of_mem _ hf))
    simp only [logFS, List.map_cons, FS.read, hne, if_false] at this ⊢
    exact this

theorem processFiles_log (fs : FS) (L : List LogFile) (kd : KeyDir)
    (h : ∀ f ∈ L, fs.read (dataName f.id) = some (encodeRecs f.recs) ∧ recsSmall f.recs) :
    processFiles fs [] (L.map (fun f => mkInfo f.id)) kd = Outcome.ok (indexLog L kd) := by
  induction L generalizing kd with
  | nil => rfl
  | cons f rest ih =>
    obtain ⟨hread, hsmall⟩ := h f (List.mem_cons_self _ _)
    have hfile : processFile fs [] (mkInfo f.id) kd
        = Outcome.ok (indexRecs f.id f.recs 0 kd) := by
      unfold processFile
      have h1 : ¬ (mkInfo f.id).ftype = strHint := by
        simp only [mkInfo]
        decide
      rw [if_neg h1, if_neg (by simp)]
      simp only [mkInfo, hread]
      exact scanData_file f.id f.recs kd hsmall
    simp only [List.map_cons, processFiles, hfile, indexLog]
    exact ih _ (fun g hg => h g (List.mem_cons_of_mem _ hg))

/-- `buildKeyDir` on the directory of a log with ascending ids gives the key
directory of the log. -/
theorem buildKeyDir_logFS (L : List LogFile) (env : Env)
    (hsorted : (L.map (fun f => f.id)).Pairwise (fun a b => a < b))
    (hsmall : ∀ f ∈ L, f.id < 4294967296 ∧ recsSmall f.recs)
    (hread : env.readDirFails = false) :
    buildKeyDir (logFS L) env = Outcome.ok (indexLog L []) := by
  obtain ⟨ids1, hperm, hdir⟩ := readDir_logFS L
  have hlt : ∀ i ∈ ids1, i < 4294967296 := by
    intro i hi
    obtain ⟨f, hf, rfl⟩ := List.mem_map.mp (hperm.subset hi)
    exact (hsmall f hf).1
  unfold buildKeyDir
  simp only [hread, Bool.false_eq_true, if_false, hdir, fileInfos_dataNames ids1 hlt,
    sortBy_id_of_perm _ ids1 hperm hsorted]
  have hnohint : ((L.map (fun f => f.id)).map mkInfo).filter (fun f => f.ftype = strHint) = [] := by
    rw [List.filter_eq_nil_iff]
    intro a ha
    obtain ⟨i, _, rfl⟩ := List.mem_map.mp ha
    have hne : strData ≠ strHint := by decide
    simp [mkInfo, hne]
  rw [hnohint, List.map_map]
  exact processFiles_log (logFS L) L []
    (fun f hf => ⟨logFS_read L hsorted f hf, (hsmall f hf).2⟩)

/-! ## The engine state as a log -/

theorem indexLog_append (A B : List LogFile) (kd : KeyDir) :
    indexLog (A ++ B) kd = indexLog B (indexLog A kd) := by
  induction A generalizing kd with
  | nil => rfl
  | cons f rest ih =>
    have hstep : indexLog (f :: rest ++ B) kd = indexLog (rest ++ B) (indexRecs f.id f.recs 0 kd) :=
      rfl
    rw [hstep, ih]
    rfl

theorem indexRecs_concat (fid : Nat) (recs : List Rec) (r : Rec) (pos : Nat) (kd : KeyDir) :
    indexRecs fid (recs ++ [r]) pos kd
      = (indexRecs fid recs pos kd).set r.key
          { FileId := fid, ValueSz := r.val.length % 4294967296,
            ValuePos := (pos + (encodeRecs recs).length) % 4294967296, Timestamp := r.ts } := by
  induction recs generalizing pos kd with
  | nil => simp [indexRecs, encodeRecs]
  | cons a rest ih =>
    have hstep : indexRecs fid (a :: rest ++ [r]) pos kd
        = indexRecs fid (rest ++ [r]) (pos + a.bytes.length)
            (kd.set a.key
              { FileId := fid, ValueSz := a.val.length % 4294967296,
                ValuePos := pos % 4294967296, Timestamp := a.ts }) := rfl
    rw [hstep, ih]
    simp only [indexRecs, encodeRecs, List.length_append]
    rw [Nat.add_assoc]

theorem KeyDir.eraseTs_set (kd : KeyDir) (k : Bytes) (e : KeyDirEntry) :
    (kd.set k e).eraseTs = kd.eraseTs.set k (Bitcask.eraseTs e) := by
  induction kd with
  | nil => rfl
  | cons p rest ih =>
    obtain ⟨k0, e0⟩ := p
    by_cases h : k0 = k
    · simp [KeyDir.set, KeyDir.eraseTs, h]
    · have := ih
      simp only [KeyDir.eraseTs] at this
      simp [KeyDir.set, KeyDir.eraseTs, h, this]

theorem KeyDir.get_eraseTs (kd : KeyDir) (k : Bytes) :
    kd.eraseTs.get k = (kd.get k).map Bitcask.eraseTs := by
  induction kd with
  | nil => rfl
  | cons p rest ih =>
    obtain ⟨k0, e0⟩ := p
    by_cases h : k0 = k
    · simp [KeyDir.get, KeyDir.eraseTs, h]
    · have := ih
      simp only [KeyDir.eraseTs] at this
      simp [KeyDir.get, KeyDir.eraseTs, h, this]

theorem FS.append_concat_new (fs : FS) (x d bs : Bytes) (h : fs.read x = none) :
    FS.append (fs ++ [(x, d)]) x bs = fs ++ [(x, d ++ bs)] := by
  induction fs with
  | nil => simp [FS.append]
  | cons p rest ih =>
    obtain ⟨n0, d0⟩ := p
    by_cases h0 : n0 = x
    · simp [FS.read, h0] at h
    · simp only [FS.read, h0, if_false] at h
      have hstep : FS.append ((n0, d0) :: rest ++ [(x, d)]) x bs
          = (n0, d0) :: FS.append (rest ++ [(x, d)]) x bs := by
        simp only [List.cons_append, FS.append, h0, if_false]
        rfl
      rw [hstep, ih h]
      rfl

theorem logFS_concat (L : List LogFile) (f : LogFile) :
    logFS (L ++ [f]) = logFS L ++ [(dataName f.id, encodeRecs f.recs)] := by
  simp [logFS]

theorem logFS_append_last (init : List LogFile) (a : Nat) (recs : List Rec) (r : Rec)
    (h : ∀ f ∈ init, f.id ≠ a) :
    FS.append (logFS (init ++ [{ id := a, recs := recs }])) (dataName a) r.bytes
      = logFS (init ++ [{ id := a, recs := recs ++ [r] }]) := by
  rw [logFS_concat, logFS_concat, FS.append_concat_new _ _ _ _ (logFS_read_none init a h),
    encodeRecs_concat]

theorem pairwise_concat_lt (ids : List Nat) (a : Nat)
    (h : (ids ++ [a]).Pairwise (fun x y => x < y)) : ∀ i ∈ ids, i < a := by
  intro i hi
  rw [List.pairwise_append] at h
  exact h.2.2 i hi a (List.mem_singleton_self a)

/-- The engine `NewNord` opens on an empty directory matches the log of one
empty file. -/
theorem emptyStore_logOk (maxFileSize t : Nat) (ht : t < 4294967296) :
    LogOk (emptyStore maxFileSize t) [{ id := t, recs := [] }] := by
  refine ⟨rfl, by simp, ?_, ⟨[], [], rfl, rfl⟩, rfl, rfl⟩
  intro f hf
  simp only [List.mem_singleton] at hf
  subst hf
  exact ⟨ht, fun r hr => by simp at hr⟩

/-- One successful `Put` keeps the engine in step with a log, when a rotation
goes to a later second. -/
theorem Put_logOk (n n1 : Nord) (L : List LogFile) (op : PutCall)
    (hL : LogOk n L)
    (hput : Put n op.key op.val op.env = (none, n1))
    (hrise : rotates n op.key op.val →
      n.activeFileId < op.env.nowRotate ∧ op.env.nowRotate < 4294967296)
    (hsmall : op.key.length + op.val.length < 4294967296) :
    ∃ L1, LogOk n1 L1 := by
  obtain ⟨hfs, hsorted, hfiles, ⟨init, recs, hLeq, hwp⟩, hact, hkd⟩ := hL
  obtain ⟨_, hw, hflags⟩ := Put_ok_form n n1 op.key op.val op.env hput
  have hids : L.map (fun f => f.id) = init.map (fun f => f.id) ++ [n.activeFileId] := by
    rw [hLeq]
    simp
  have hbelow : ∀ f ∈ init, f.id < n.activeFileId := by
    intro f hf
    rw [hids] at hsorted
    exact pairwise_concat_lt _ _ hsorted f.id (List.mem_map_of_mem _ hf)
  have hrsmall : recsSmall [{ ts := op.env.now % 4294967296, key := op.key, val := op.val }] := by
    intro r hr
    simp only [List.mem_singleton] at hr
    subst hr
    exact ⟨Nat.mod_lt _ (by decide), hsmall⟩
  by_cases hr : rotates n op.key op.val
  · obtain ⟨hc, ho⟩ := hflags hr
    obtain ⟨hlt, hb⟩ := hrise hr
    rw [Put_rotate n op.key op.val op.env _ hr hact hc ho hw] at hput
    simp only [Prod.mk.injEq, true_and] at hput
    subst hput
    have hmod : op.env.nowRotate % 4294967296 = op.env.nowRotate := Nat.mod_eq_of_lt hb
    have hall : ∀ f ∈ L, f.id < op.env.nowRotate := by
      intro f hf
      rw [hLeq] at hf
      rcases List.mem_append.mp hf with h | h
      · have := hbelow f h
        omega
      · simp only [List.mem_singleton] at h
        subst h
        exact hlt
    refine ⟨L ++ [{ id := op.env.nowRotate
                    recs := [{ ts := op.env.now % 4294967296, key := op.key, val := op.val }] }],
      ?_, ?_, ?_, ⟨L, _, by rw [hmod], ?_⟩, rfl, ?_⟩
    · simp only [hmod]
      rw [hfs, logFS_concat]
      have hnone := logFS_read_none L op.env.nowRotate (fun f hf => by have := hall f hf; omega)
      simp only [FS.create, hnone]
      rw [FS.append_concat_new _ _ _ _ hnone]
      simp [encodeRecs, recordBytes, Rec.bytes]
    · rw [List.map_append, List.pairwise_append]
      refine ⟨hsorted, by simp, ?_⟩
      intro a ha b hb2
      simp only [List.map_cons, List.map_nil, List.mem_singleton] at hb2
      subst hb2
      obtain ⟨f, hf, rfl⟩ := List.mem_map.mp ha
      exact hall f hf
    · intro f hf
      rcases List.mem_append.mp hf with h | h
      · exact hfiles f h
      · simp only [List.mem_singleton] at h
        subst h
        exact ⟨hb, hrsmall⟩
    · simp only [encodeRecs, List.append_nil, Rec.bytes_length, DataFileEntryHdrLen]
    · simp only [hmod]
      rw [KeyDir.eraseTs_set, hkd, indexLog_append]
      simp only [indexLog, indexRecs]
      rw [KeyDir.eraseTs_set]
      rfl
  · rw [Put_append n op.key op.val op.env _ hr hact hw] at hput
    simp only [Prod.mk.injEq, true_and] at hput
    subst hput
    refine ⟨init ++ [{ id := n.activeFileId
                       recs := recs ++
                         [{ ts := op.env.now % 4294967296, key := op.key, val := op.val }] }],
      ?_, ?_, ?_, ⟨init, _, rfl, ?_⟩, hact, ?_⟩
    · simp only
      rw [hfs, hLeq]
      exact logFS_append_last init n.activeFileId recs
        { ts := op.env.now % 4294967296, key := op.key, val := op.val }
        (fun f hf => by have := hbelow f hf; omega)
    · rw [hids] at hsorted
      simpa using hsorted
    · intro f hf
      rcases List.mem_append.mp hf with h | h
      · exact hfiles f (by rw [hLeq]; exact List.mem_append_left _ h)
      · simp only [List.mem_singleton] at h
        subst h
        obtain ⟨hid, hrs⟩ := hfiles { id := n.activeFileId, recs := recs }
          (by rw [hLeq]; simp)
        refine ⟨hid, ?_⟩
        intro r hr2
        rcases List.mem_append.mp hr2 with h2 | h2
        · exact hrs r h2
        · exact hrsmall r h2
    · simp only
      rw [encodeRecs_concat, List.length_append, Rec.bytes_length, hwp]
      simp only [DataFileEntryHdrLen]
    · simp only
      rw [KeyDir.eraseTs_set, hkd, hLeq, indexLog_append, indexLog_append]
      simp only [indexLog]
      rw [indexRecs_concat, KeyDir.eraseTs_set]
      simp only [putEntry, Bitcask.eraseTs, Nat.zero_add, hwp]

theorem putAll_logOk (ops : List PutCall) (n n1 : Nord) (L : List LogFile)
    (hL : LogOk n L) (hput : putAll n ops = some n1)
    (hrise : risingRotations n ops) (hsmall : smallRecords ops) :
    ∃ L1, LogOk n1 L1 := by
  induction ops generalizing n L with
  | nil =>
    simp only [putAll, Option.some.injEq] at hput
    subst hput
    exact ⟨L, hL⟩
  | cons op rest ih =>
    obtain ⟨hr1, hr2⟩ := hrise
    unfold putAll at hput
    split at hput
    · rename_i n2 hp
      rw [hp] at hr2
      obtain ⟨L2, hL2⟩ := Put_logOk n n2 L op hL hp hr1 (hsmall op (List.mem_cons_self _ _))
      exact ih n2 L2 hL2 hput hr2 (fun o ho => hsmall o (List.mem_cons_of_mem _ ho))
    · simp at hput

/-- Creating an empty file changes no `Get`. -/
theorem Get_create (n : Nord) (x k : Bytes) :
    Get { n with fs := n.fs.create x } k = Get n k := by
  unfold Get
  cases hk : n.keyDir.get k with
  | none => rfl
  | some e =>
    simp only
    by_cases hz : e.ValueSz = 0
    · simp [hz]
    · simp only [hz, if_false]
      cases hr : n.fs.read (dataName e.FileId) with
      | some c => rw [FS.read_create_of_some _ _ _ _ hr]
      | none =>
        by_cases hx : dataName e.FileId = x
        · subst hx
          rw [FS.read_create_self, hr]
          simp [FS.readAt, hz]
        · rw [FS.read_create_other _ _ _ hx, hr]

/-- `Get` does not look at the timestamps of the key directory. -/
theorem Get_eraseTs (n1 n2 : Nord) (k : Bytes) (hfs : n1.fs = n2.fs)
    (hkd : n1.keyDir.eraseTs = n2.keyDir.eraseTs) : Get n1 k = Get n2 k := by
  have h := KeyDir.get_eraseTs n1.keyDir k
  rw [hkd, KeyDir.get_eraseTs] at h
  unfold Get
  rw [hfs]
  cases h1 : n1.keyDir.get k with
  | none =>
    rw [h1] at h
    cases h2 : n2.keyDir.get k with
    | none => rfl
    | some e2 => simp [h2] at h
  | some e1 =>
    rw [h1] at h
    cases h2 : n2.keyDir.get k with
    | none => simp [h2] at h
    | some e2 =>
      rw [h2] at h
      simp only [Option.map_some', Option.some.injEq, Bitcask.eraseTs,
        KeyDirEntry.mk.injEq, and_true] at h
      obtain ⟨hf, hs, hp⟩ := h
      simp only [hf, hs, hp]

/-- C2 as stated fails when the clock stands still: with `MaxFileSize = 20`,
`Put("1", "Nikit")` and `Put("2", "Nick")` in second 5 leave `"2"` with a locator
at offset 0 of `5.data`, where `Get("2")` finds `Niki`; after `Close` and `Open`
the rebuilt key directory has the offset 18 and `Get("2")` returns `Nick`. -/
theorem C2_reopen_changes_get :
    (putAll (emptyStore 20 5) sameSecondPuts).map (fun n => Get n key2)
        = some ([78, 105, 107, 105], true) ∧
      (putAll (emptyStore 20 5) sameSecondPuts).map
          (fun n => match Open (Close n) (Env.at 9) with
            | Outcome.ok n1 => Get n1 key2
            | _ => ([], false))
        = some (valNick, true) := by
  decide

/-- C2, amended: on a store opened on an empty directory, after any sequence of
successful `Put`s whose records have key and value lengths summing to less than
`2 ^ 32` and whose rotations each happen at a clock second (below `2 ^ 32`)
later than the one the active file is named after, `Close` followed by `Open`
(at any clock reading, without a failing system call) succeeds and `Get(k)`
returns for every key `k` exactly what it returned before the `Close`. -/
theorem C2_reopen_preserves_get (maxFileSize : Nat) (env0 envOpen : Env) (ops : List PutCall)
    (n0 n : Nord)
    (hopen : NewNord [] maxFileSize env0 = Outcome.ok n0)
    (hput : putAll n0 ops = some n)
    (hrise : risingRotations n0 ops)
    (hsmall : smallRecords ops)
    (hdir : envOpen.readDirFails = false)
    (hfile : envOpen.openFails = false) :
    ∃ n1, Open (Close n) envOpen = Outcome.ok n1 ∧ ∀ k, Get n1 k = Get n k := by
  have h0 := NewNord_empty maxFileSize env0 n0 hopen
  subst h0
  obtain ⟨L, hL⟩ := putAll_logOk ops _ n _
    (emptyStore_logOk maxFileSize _ (Nat.mod_lt _ (by decide))) hput hrise hsmall
  obtain ⟨hfs, hsorted, hfiles, _, _, hkd⟩ := hL
  have hbuild : buildKeyDir (Close n).fs envOpen = Outcome.ok (indexLog L []) := by
    simp only [Close]
    rw [hfs]
    exact buildKeyDir_logFS L envOpen hsorted hfiles hdir
  have hO : Open (Close n) envOpen = Outcome.ok
      { fs := (Close n).fs.create (dataName (envOpen.now % 4294967296))
        keyDir := indexLog L []
        activeFileId := envOpen.now % 4294967296
        activeFile := some (dataName (envOpen.now % 4294967296))
        writePos := (Close n).writePos
        MaxFileSize := (Close n).MaxFileSize } := by
    simp only [Open, hbuild, hfile, Bool.false_eq_true, if_false]
  refine ⟨_, hO, ?_⟩
  intro k
  have h1 := Get_create
    { Close n with keyDir := indexLog L [], activeFileId := envOpen.now % 4294967296,
                   activeFile := some (dataName (envOpen.now % 4294967296)) }
    (dataName (envOpen.now % 4294967296)) k
  simp only at h1
  rw [h1]
  exact Get_eraseTs _ n k rfl hkd.symm

/-- C2, amended, with rotations: `MaxFileSize = 20`, puts of `"1"`, `"2"`, `"3"` at
seconds 6, 7 and 8 (three data files), then `Close` and `Open` at second 9. -/
theorem C2_reopen_preserves_get_witness :
    NewNord [] 20 (Env.at 5) = Outcome.ok (emptyStore 20 5) ∧
      putAll (emptyStore 20 5) risingPuts = some threeFiles ∧
      (∃ n1, Open (Close threeFiles) (Env.at 9) = Outcome.ok n1 ∧
        ∀ k, Get n1 k = Get threeFiles k) ∧
      Get threeFiles key2 = (valNick, true) :=
  ⟨by decide, by decide,
   C2_reopen_preserves_get 20 (Env.at 5) (Env.at 9) risingPuts (emptyStore 20 5) threeFiles
     (by decide) (by decide) (by decide) (by decide) rfl rfl,
   by decide⟩

/-- The example of C2: `Put("k", "v1")`, `Put("k", "v2")` (here the key `1` with
`Nikit`, then `Nick`), `Close`, `Open`, `Get`. -/
theorem reopen_after_overwrite :
    (match Open (Close (Put (Put (emptyStore 128 5) key1 valNikit (Env.at 6)).2 key1 valNick
        (Env.at 7)).2) (Env.at 9) with
      | Outcome.ok n1 => Get n1 key1
      | _ => ([], false)) = (valNick, true) := by
  decide

/-! ## The 32-bit fields of a locator -/

/-- A value of `2 ^ 32` bytes is stored with `value_sz = 0`: on the engine opened
on an empty directory with `MaxFileSize = 2 ^ 33`, the `Put` returns no error
and the following `Get` reports not found. -/
theorem Put_value_of_4GiB_not_found (v : Bytes) (hv : v.length = 4294967296) :
    (Put (emptyStore 8589934592 5) key1 v (Env.at 5)).1 = none ∧
      Get (Put (emptyStore 8589934592 5) key1 v (Env.at 5)).2 key1 = ([], false) := by
  have hrot : ¬ rotates (emptyStore 8589934592 5) key1 v := by
    unfold rotates
    rw [hv]
    decide
  rw [Put_append _ _ _ _ (dataName 5) hrot rfl rfl]
  refine ⟨rfl, ?_⟩
  unfold Get
  simp only [KeyDir.get_set_same, putEntry, hv]
  rfl

/-! ## The record codec -/

theorem putUint32_length (v : Nat) : (putUint32 v).length = 4 := rfl

theorem FS.readAt_zero_left (a post : Bytes) (h : a.length = n) :
    FS.readAt (a ++ post) 0 n = some a := by
  subst h
  have := FS.readAt_mid [] a post
  simpa using this

/-- C17: `DataFileEntry.Serialize` returns `n = 12 + len(Key) + len(Value)` and a
buffer of exactly `n` bytes; bytes 0..3, 4..7 and 8..11 are the little-endian
encodings of `Timestamp`, `Ksz` and `Vsz` (byte `i` of a field `v` is
`v / 256 ^ i % 256`), the key bytes follow at offset 12 and the value bytes
right after them; and for `uint32` fields with `Ksz = len(Key)` and
`Vsz = len(Value)`, decoding the header little-endian and slicing key and value
by the declared lengths gives the original record back. -/
theorem C17_serialize_layout_roundtrip (df : DataFileEntry)
    (hts : df.Timestamp < 4294967296) (hk : df.Ksz = df.Key.length)
    (hv : df.Vsz = df.Value.length) (hk32 : df.Ksz < 4294967296) (hv32 : df.Vsz < 4294967296) :
    df.Serialize.1 = 12 + df.Key.length + df.Value.length ∧
      df.Serialize.2.length = df.Serialize.1 ∧
      df.Serialize.2.take 4
        = [byte df.Timestamp, byte (df.Timestamp / 256), byte (df.Timestamp / 65536),
           byte (df.Timestamp / 16777216)] ∧
      (df.Serialize.2.drop 4).take 4
        = [byte df.Ksz, byte (df.Ksz / 256), byte (df.Ksz / 65536), byte (df.Ksz / 16777216)] ∧
      (df.Serialize.2.drop 8).take 4
        = [byte df.Vsz, byte (df.Vsz / 256), byte (df.Vsz / 65536), byte (df.Vsz / 16777216)] ∧
      df.Serialize.2.drop 12 = df.Key ++ df.Value ∧
      decodeRecord df.Serialize.2 = some df := by
  have hbuf : df.Serialize.2
      = (putUint32 df.Timestamp ++ putUint32 df.Ksz ++ putUint32 df.Vsz)
          ++ df.Key ++ df.Value := by
    simp [DataFileEntry.Serialize]
  have h12 : (putUint32 df.Timestamp ++ putUint32 df.Ksz ++ putUint32 df.Vsz).length = 12 := rfl
  refine ⟨rfl, ?_, ?_, ?_, ?_, ?_, ?_⟩
  · simp [DataFileEntry.Serialize, putUint32, DataFileEntryHdrLen]
    omega
  · simp [DataFileEntry.Serialize, putUint32]
  · simp [DataFileEntry.Serialize, putUint32]
  · simp [DataFileEntry.Serialize, putUint32]
  · simp [DataFileEntry.Serialize, putUint32]
  · have hread1 : FS.readAt df.Serialize.2 0 DataFileEntryHdrLen
        = some (putUint32 df.Timestamp ++ putUint32 df.Ksz ++ putUint32 df.Vsz) := by
      rw [hbuf, List.append_assoc]
      exact FS.readAt_zero_left _ _ h12
    have hread2 : FS.readAt df.Serialize.2 DataFileEntryHdrLen df.Ksz = some df.Key := by
      rw [hbuf, hk]
      exact FS.readAt_mid _ _ _
    have hread3 : FS.readAt df.Serialize.2 (DataFileEntryHdrLen + df.Ksz) df.Vsz
        = some df.Value := by
      have hl : ((putUint32 df.Timestamp ++ putUint32 df.Ksz ++ putUint32 df.Vsz)
          ++ df.Key).length = DataFileEntryHdrLen + df.Ksz := by
        rw [List.length_append, h12, hk]
        rfl
      have h3 := FS.readAt_mid ((putUint32 df.Timestamp ++ putUint32 df.Ksz ++ putUint32 df.Vsz)
          ++ df.Key) df.Value []
      rw [← hv, hl, List.append_nil] at h3
      rw [hbuf]
      exact h3
    have hf1 : (putUint32 df.Timestamp ++ putUint32 df.Ksz ++ putUint32 df.Vsz).take 4
        = putUint32 df.Timestamp := by
      simp [putUint32]
    have hf2 : ((putUint32 df.Timestamp ++ putUint32 df.Ksz ++ putUint32 df.Vsz).drop 4).take 4
        = putUint32 df.Ksz := by
      simp [putUint32]
    have hf3 : ((putUint32 df.Timestamp ++ putUint32 df.Ksz ++ putUint32 df.Vsz).drop 8).take 4
        = putUint32 df.Vsz := by
      simp [putUint32]
    unfold decodeRecord
    simp only [hread1, hf1, hf2, hf3, uint32LE_putUint32 _ hts, uint32LE_putUint32 _ hk32,
      uint32LE_putUint32 _ hv32, hread2, hread3]

/-- C17 at the record of `Put("1", "Nikit")` stamped 1700000000. -/
theorem C17_serialize_layout_roundtrip_witness :
    (DataFileEntry.Serialize
        { Timestamp := 1700000000, Ksz := 1, Vsz := 5, Key := key1, Value := valNikit }).2
        = [0, 241, 83, 101, 1, 0, 0, 0, 5, 0, 0, 0, 49, 78, 105, 107, 105, 116] ∧
      decodeRecord (DataFileEntry.Serialize
        { Timestamp := 1700000000, Ksz := 1, Vsz := 5, Key := key1, Value := valNikit }).2
        = some { Timestamp := 1700000000, Ksz := 1, Vsz := 5, Key := key1, Value := valNikit } :=
  ⟨by decide,
   (C17_serialize_layout_roundtrip
      { Timestamp := 1700000000, Ksz := 1, Vsz := 5, Key := key1, Value := valNikit }
      (by decide) (by decide) (by decide) (by decide) (by decide)).2.2.2.2.2.2⟩

/-! ## The locator a put stores -/

/-- What a `Put` that returns no error stores: a locator with the active file
id, the value length and the write position before the append, both cut to 32
bits; and `writePos` is that position plus the size of the record. -/
theorem Put_ok_locator (n n1 : Nord) (key val : Bytes) (env : Env)
    (h : Put n key val env = (none, n1)) :
    n1.keyDir.get key
        = some { FileId := n1.activeFileId, ValueSz := val.length % 4294967296,
                 ValuePos := appendPos n key val % 4294967296,
                 Timestamp := env.nowIndex % 4294967296 } ∧
      n1.writePos = appendPos n key val + (12 + key.length + val.length) := by
  obtain ⟨⟨name, hname⟩, hw, hflags⟩ := Put_ok_form n n1 key val env h
  unfold appendPos
  by_cases hr : rotates n key val
  · obtain ⟨hc, ho⟩ := hflags hr
    rw [Put_rotate n key val env _ hr hname hc ho hw] at h
    simp only [Prod.mk.injEq, true_and] at h
    subst h
    rw [if_pos hr]
    refine ⟨KeyDir.get_set_same _ _ _, ?_⟩
    simp only [DataFileEntryHdrLen]
    omega
  · rw [Put_append n key val env _ hr hname hw] at h
    simp only [Prod.mk.injEq, true_and] at h
    subst h
    rw [if_neg hr]
    exact ⟨KeyDir.get_set_same _ _ _, rfl⟩

/-- Two puts on the engine opened on an empty directory with
`MaxFileSize = 2 ^ 40`, the first with a value of `2 ^ 32` bytes: the first
locator has `value_sz = 0`, and the second put, which appends at write position
`2 ^ 32 + 13`, stores `value_pos = 13`. -/
theorem Put_4GiB_locators (v : Bytes) (hv : v.length = 4294967296) :
    (Put (emptyStore 1099511627776 5) key1 v (Env.at 5)).1 = none ∧
      (Put (emptyStore 1099511627776 5) key1 v (Env.at 5)).2.keyDir.get key1
        = some { FileId := 5, ValueSz := 0, ValuePos := 0, Timestamp := 5 } ∧
      (Put (emptyStore 1099511627776 5) key1 v (Env.at 5)).2.writePos = 4294967309 ∧
      (Put (Put (emptyStore 1099511627776 5) key1 v (Env.at 5)).2 key2 valNick (Env.at 5)).1
        = none ∧
      (Put (Put (emptyStore 1099511627776 5) key1 v (Env.at 5)).2 key2 valNick
          (Env.at 5)).2.keyDir.get key2
        = some { FileId := 5, ValueSz := 4, ValuePos := 13, Timestamp := 5 } := by
  have hrot : ¬ rotates (emptyStore 1099511627776 5) key1 v := by
    unfold rotates
    rw [hv]
    decide
  rw [Put_append _ _ _ _ (dataName 5) hrot rfl rfl]
  have hwp : (emptyStore 1099511627776 5).writePos + (DataFileEntryHdrLen + key1.length + v.length)
      = 4294967309 := by
    rw [hv]
    rfl
  have hrot2 : ¬ rotates
      { emptyStore 1099511627776 5 with
        fs := (emptyStore 1099511627776 5).fs.append (dataName 5) (recordBytes key1 v (Env.at 5))
        keyDir := (emptyStore 1099511627776 5).keyDir.set key1
          (putEntry (emptyStore 1099511627776 5) v (Env.at 5))
        writePos := (emptyStore 1099511627776 5).writePos
          + (DataFileEntryHdrLen + key1.length + v.length) } key2 valNick := by
    unfold rotates
    simp only [hwp]
    decide
  rw [Put_append _ _ _ _ (dataName 5) hrot2 rfl rfl]
  refine ⟨rfl, ?_, hwp, rfl, ?_⟩
  · rw [KeyDir.get_set_same]
    simp only [putEntry, hv]
    rfl
  · rw [KeyDir.get_set_same]
    simp only [putEntry, hwp]
    rfl

/-- C18 as stated fails: there is a value (of `2 ^ 32` bytes) whose successful
`Put` stores `value_sz = 0`, not its length, and after which a second
successful `Put`, appending at write position `2 ^ 32 + 13`, stores
`value_pos = 13`. -/
theorem C18_locator_truncated :
    ∃ v : Bytes, v.length = 4294967296 ∧
      (Put (emptyStore 1099511627776 5) key1 v (Env.at 5)).1 = none ∧
      (Put (emptyStore 1099511627776 5) key1 v (Env.at 5)).2.keyDir.get key1
        = some { FileId := 5, ValueSz := 0, ValuePos := 0, Timestamp := 5 } ∧
      (Put (emptyStore 1099511627776 5) key1 v (Env.at 5)).2.writePos = 4294967309 ∧
      (Put (Put (emptyStore 1099511627776 5) key1 v (Env.at 5)).2 key2 valNick (Env.at 5)).1
        = none ∧
      (Put (Put (emptyStore 1099511627776 5) key1 v (Env.at 5)).2 key2 valNick
          (Env.at 5)).2.keyDir.get key2
        = some { FileId := 5, ValueSz := 4, ValuePos := 13, Timestamp := 5 } :=
  ⟨List.replicate 4294967296 0, List.length_replicate _ _,
    Put_4GiB_locators _ (List.length_replicate _ _)⟩

/-- C18, amended: after every successful `Put(key, val)`, for every
`MaxFileSize` and every prior state, the key directory entry for `key` is
`{file_id = active file id, value_sz = len(val) mod 2^32, value_pos = (write
position immediately before the append) mod 2^32}`, and `writePos` is that write
position plus the encoded record size; when the value is shorter than `2 ^ 32`
bytes and the write position is below `2 ^ 32`, `value_sz` and `value_pos` are
the length and the position themselves. -/
theorem C18_put_locator (n n1 : Nord) (key val : Bytes) (env : Env)
    (h : Put n key val env = (none, n1)) :
    n1.keyDir.get key
        = some { FileId := n1.activeFileId, ValueSz := val.length % 4294967296,
                 ValuePos := appendPos n key val % 4294967296,
                 Timestamp := env.nowIndex % 4294967296 } ∧
      n1.writePos = appendPos n key val + (recordBytes key val env).length ∧
      (val.length < 4294967296 → appendPos n key val < 4294967296 →
        ∃ e, n1.keyDir.get key = some e ∧ e.FileId = n1.activeFileId ∧
          e.ValueSz = val.length ∧ e.ValuePos = appendPos n key val) := by
  obtain ⟨hget, hwp⟩ := Put_ok_locator n n1 key val env h
  refine ⟨hget, ?_, ?_⟩
  · rw [hwp, recordBytes_length]
    simp only [DataFileEntryHdrLen]
  · intro hv hp
    exact ⟨_, hget, rfl, Nat.mod_eq_of_lt hv, Nat.mod_eq_of_lt hp⟩

/-- C18, amended, at the second put of `Test_Nord`: `"2" -> "Nick"` is appended
at write position 18 of the active file. -/
theorem C18_put_locator_witness :
    Put (Put (emptyStore 128 1700000000) key1 valNikit (Env.at 1700000000)).2 key2 valNick
        (Env.at 1700000000)
      = (none, (Put (Put (emptyStore 128 1700000000) key1 valNikit (Env.at 1700000000)).2 key2
          valNick (Env.at 1700000000)).2) ∧
      (Put (Put (emptyStore 128 1700000000) key1 valNikit (Env.at 1700000000)).2 key2 valNick
        (Env.at 1700000000)).2.keyDir.get key2
        = some { FileId := 1700000000, ValueSz := 4, ValuePos := 18, Timestamp := 1700000000 } ∧
      (Put (Put (emptyStore 128 1700000000) key1 valNikit (Env.at 1700000000)).2 key2 valNick
        (Env.at 1700000000)).2.writePos = 35 :=
  ⟨by decide,
   (C18_put_locator (Put (emptyStore 128 1700000000) key1 valNikit (Env.at 1700000000)).2 _
      key2 valNick (Env.at 1700000000) (by decide)).1,
   by decide⟩

/-! ## The id of the active file -/

theorem Open_ok_form (n n1 : Nord) (env : Env) (h : Open n env = Outcome.ok n1) :
    ∃ kd, buildKeyDir n.fs env = Outcome.ok kd ∧ env.openFails = false ∧
      n1 = { n with keyDir := kd, activeFileId := env.now % 4294967296,
                    fs := n.fs.create (dataName (env.now % 4294967296)),
                    activeFile := some (dataName (env.now % 4294967296)) } := by
  unfold Open at h
  split at h
  · rename_i kd hkd
    simp only at h
    split at h
    · simp at h
    · rename_i ho
      simp only [Outcome.ok.injEq] at h
      exact ⟨kd, hkd, by simpa using ho, h.symm⟩
  · simp at h

theorem updateActiveFile_ok_form (n n1 : Nord) (env : Env)
    (h : updateActiveFile n env = (none, n1)) :
    n1 = { n with fs := n.fs.create (dataName (env.nowRotate % 4294967296)),
                  activeFile := some (dataName (env.nowRotate % 4294967296)),
                  activeFileId := env.nowRotate % 4294967296, writePos := 0 } := by
  unfold updateActiveFile at h
  simp only at h
  split at h
  · simp at h
  · split at h
    · simp at h
    · split at h
      · simp at h
      · simp only [Prod.mk.injEq, true_and] at h
        exact h.symm

/-- C11 as stated fails: on a directory that holds `9.data`, `Open` at second 5
chooses the active file id 5, below the id 9 that is present; and `Open` at
second 9 chooses the id 9 of the existing data file, as does a rotation at
second 9. -/
theorem C11_active_id_not_greater :
    (match NewNord dirNine 128 (Env.at 5) with
      | Outcome.ok n => some n.activeFileId
      | _ => none) = some 5 ∧
      (match NewNord dirNine 128 (Env.at 9) with
      | Outcome.ok n => some (n.activeFileId, n.fs)
      | _ => none) = some (9, dirNine) ∧
      updateActiveFile (emptyStore 128 9) (Env.at 9) = (none, emptyStore 128 9) := by
  decide

/-- C11, amended: the active file id `Open` chooses is the wall-clock second
(cut to 32 bits), for every directory content and every clock value, and so is
the id a rotation chooses; when every file id present in the directory is below
that second, the active file shares its id with no data or hint file that was
there. -/
theorem C11_active_id_is_clock (n n1 n2 n3 : Nord) (env envRotate : Env)
    (hopen : Open n env = Outcome.ok n1)
    (hrot : updateActiveFile n2 envRotate = (none, n3)) :
    n1.activeFileId = env.now % 4294967296 ∧
      n3.activeFileId = envRotate.nowRotate % 4294967296 ∧
      ((∀ id, (n.fs.read (dataName id) ≠ none ∨ n.fs.read (hintName id) ≠ none) →
          id < env.now % 4294967296) →
        n.fs.read (dataName n1.activeFileId) = none ∧
          n.fs.read (hintName n1.activeFileId) = none) ∧
      ((∀ id, (n2.fs.read (dataName id) ≠ none ∨ n2.fs.read (hintName id) ≠ none) →
          id < envRotate.nowRotate % 4294967296) →
        n2.fs.read (dataName n3.activeFileId) = none ∧
          n2.fs.read (hintName n3.activeFileId) = none) := by
  obtain ⟨kd, _, _, h1⟩ := Open_ok_form n n1 env hopen
  have h3 := updateActiveFile_ok_form n2 n3 envRotate hrot
  subst h1
  subst h3
  refine ⟨rfl, rfl, ?_, ?_⟩
  · intro hall
    simp only
    constructor
    · by_contra hne
      exact Nat.lt_irrefl _ (hall _ (Or.inl hne))
    · by_contra hne
      exact Nat.lt_irrefl _ (hall _ (Or.inr hne))
  · intro hall
    simp only
    constructor
    · by_contra hne
      exact Nat.lt_irrefl _ (hall _ (Or.inl hne))
    · by_contra hne
      exact Nat.lt_irrefl _ (hall _ (Or.inr hne))

/-- C11, amended, at `Open` on the directory with `9.data` at second 12 and a
rotation of the engine opened at second 5 at second 7. -/
theorem C11_active_id_is_clock_witness :
    Open { fs := dirNine, keyDir := [], activeFileId := 0, activeFile := none, writePos := 0,
           MaxFileSize := 128 } (Env.at 12)
        = Outcome.ok { fs := dirNine ++ [(dataName 12, [])], keyDir := [], activeFileId := 12,
                       activeFile := some (dataName 12), writePos := 0, MaxFileSize := 128 } ∧
      updateActiveFile (emptyStore 128 5) (Env.at 7)
        = (none, { emptyStore 128 5 with
                   fs := [(dataName 5, []), (dataName 7, [])], activeFileId := 7,
                   activeFile := some (dataName 7) }) ∧
      (12 : Nat) = (Env.at 12).now % 4294967296 ∧ (7 : Nat) = (Env.at 7).nowRotate % 4294967296 :=
  ⟨by decide, by decide,
   (C11_active_id_is_clock
      { fs := dirNine, keyDir := [], activeFileId := 0, activeFile := none, writePos := 0,
        MaxFileSize := 128 }
      { fs := dirNine ++ [(dataName 12, [])], keyDir := [], activeFileId := 12,
        activeFile := some (dataName 12), writePos := 0, MaxFileSize := 128 }
      (emptyStore 128 5)
      { emptyStore 128 5 with
        fs := [(dataName 5, []), (dataName 7, [])], activeFileId := 7,
        activeFile := some (dataName 7) }
      (Env.at 12) (Env.at 7) (by decide) (by decide)).1,
   (C11_active_id_is_clock
      { fs := dirNine, keyDir := [], activeFileId := 0, activeFile := none, writePos := 0,
        MaxFileSize := 128 }
      { fs := dirNine ++ [(dataName 12, [])], keyDir := [], activeFileId := 12,
        activeFile := some (dataName 12), writePos := 0, MaxFileSize := 128 }
      (emptyStore 128 5)
      { emptyStore 128 5 with
        fs := [(dataName 5, []), (dataName 7, [])], activeFileId := 7,
        activeFile := some (dataName 7) }
      (Env.at 12) (Env.at 7) (by decide) (by decide)).2.1⟩

/-! ## The files `Merge` selects -/

/-- `Merge` written with the plan of its first two loops. -/
theorem Merge_of_plan (n : Nord) (env : Env) (toMerge : List Nat) (mergefid : Nat)
    (hdir : env.readDirFails = false) (hplan : mergePlan n = some (toMerge, mergefid)) :
    Merge n env =
      if toMerge.length ≤ 1 then Outcome.ok (none, n)
      else if env.openFails then Outcome.ok (some Error.openFile, n)
      else if env.openHintFails then
        Outcome.ok (some Error.openFile, { n with fs := n.fs.create (dataName mergefid) })
      else
        match copyLive toMerge mergefid env n.keyDir
            { fs := (n.fs.create (dataName mergefid)).create (hintName mergefid),
              newKeyDir := [], writePos := 0 } with
        | none => Outcome.panic
        | some st =>
          Outcome.ok (none,
            { n with fs := toMerge.foldl (fun fs fid => fs.remove (dataName fid)) st.fs }) := by
  unfold mergePlan mergeListing at hplan
  unfold Merge
  simp only [hdir, Bool.false_eq_true, if_false]
  split at hplan
  · simp at hplan
  · rename_i fields hfields
    simp only [Option.some.injEq] at hplan
    simp only [hfields, hplan]

theorem Merge_panic_of_plan (n : Nord) (env : Env) (hdir : env.readDirFails = false)
    (hplan : mergePlan n = none) : Merge n env = Outcome.panic := by
  unfold mergePlan mergeListing at hplan
  unfold Merge
  simp only [hdir, Bool.false_eq_true, if_false]
  split at hplan
  · rename_i hfields
    simp only [hfields]
  · simp at hplan

/-- The id of the merged file is the starting id or one of the selected ids,
and it is not below the starting id. -/
theorem selectMerge_mergefid (n : Nord) (fileMap : List Bytes) (fields : List (Bytes × Bytes))
    (toMerge : List Nat) (mergefid : Nat) :
    ((selectMerge n fileMap fields toMerge mergefid).2 = mergefid ∨
        (selectMerge n fileMap fields toMerge mergefid).2
          ∈ (selectMerge n fileMap fields toMerge mergefid).1) ∧
      mergefid ≤ (selectMerge n fileMap fields toMerge mergefid).2 ∧
      ∀ fid ∈ toMerge, fid ∈ (selectMerge n fileMap fields toMerge mergefid).1 := by
  induction fields generalizing toMerge mergefid with
  | nil => exact ⟨Or.inl rfl, Nat.le_refl _, fun _ h => h⟩
  | cons f fields ih =>
    obtain ⟨fname, ftype⟩ := f
    unfold selectMerge
    split
    · exact ih _ _
    · split
      · split
        · exact ih _ _
        · dsimp only
          have hin : toUint32 (Atoi fname) ∈
              (if toUint32 (Atoi fname) ∈ toMerge then toMerge
                else toMerge ++ [toUint32 (Atoi fname)]) := by
            split
            · assumption
            · simp
          have hsub : ∀ fid ∈ toMerge, fid ∈
              (if toUint32 (Atoi fname) ∈ toMerge then toMerge
                else toMerge ++ [toUint32 (Atoi fname)]) := by
            intro fid hfid
            split
            · exact hfid
            · exact List.mem_append_left _ hfid
          by_cases hgt : toUint32 (Atoi fname) > mergefid
          · rw [if_pos hgt]
            obtain ⟨h1, h2, h3⟩ := ih
              (if toUint32 (Atoi fname) ∈ toMerge then toMerge
                else toMerge ++ [toUint32 (Atoi fname)]) (toUint32 (Atoi fname))
            refine ⟨Or.inr ?_, by omega, fun fid hfid => h3 fid (hsub fid hfid)⟩
            rcases h1 with h1 | h1
            · rw [h1]
              exact h3 _ hin
            · exact h1
          · rw [if_neg hgt]
            obtain ⟨h1, h2, h3⟩ := ih
              (if toUint32 (Atoi fname) ∈ toMerge then toMerge
                else toMerge ++ [toUint32 (Atoi fname)]) mergefid
            exact ⟨h1, h2, fun fid hfid => h3 fid (hsub fid hfid)⟩
      · exact ih _ _

/-- With `5.data`, `7.data` and the active file `8.data`, `Merge` proceeds with the
ids 5 and 7, and the id it writes to is 9, the active file id plus one, not
`max(5, 7) + 1 = 8`. -/
theorem merge_id_threeFiles :
    mergePlan threeFiles = some ([5, 7], 9) ∧ threeFiles.activeFileId = 8 ∧
      Merge threeFiles (Env.at 9) = Outcome.ok (none, threeFilesMerged) ∧
      threeFilesMerged.fs.read (dataName 8) = threeFiles.fs.read (dataName 8) ∧
      (threeFilesMerged.fs.read (dataName 9)).isSome = true := by
  decide

/-- When every id `Merge` selects is at most the active file id (itself below
`2 ^ 32 - 1`), the starting value of `mergefid` is never replaced: the id `Merge`
writes to is the active file id plus one, greater than the active file id and
than every selected id. (With a selected id above the active file id plus one
the loop sets `mergefid` to that id itself.) -/
theorem merge_id_below_active (n : Nord) (toMerge : List Nat) (mergefid : Nat)
    (hplan : mergePlan n = some (toMerge, mergefid))
    (_hproceeds : 1 < toMerge.length)
    (hbelow : ∀ fid ∈ toMerge, fid ≤ n.activeFileId)
    (hactive : n.activeFileId + 1 < 4294967296) :
    mergefid = n.activeFileId + 1 ∧ n.activeFileId < mergefid ∧
      (∀ fid ∈ toMerge, fid < mergefid) ∧ mergefid ∉ toMerge := by
  unfold mergePlan at hplan
  split at hplan
  · simp at hplan
  · rename_i fields _
    simp only [Option.some.injEq] at hplan
    obtain ⟨h1, h2, _⟩ := selectMerge_mergefid n
      ((fields.filter (fun f => f.2 = strHint)).map Prod.fst) fields []
      ((n.activeFileId + 1) % 4294967296)
    rw [hplan] at h1 h2
    simp only at h1 h2
    rw [Nat.mod_eq_of_lt hactive] at h1 h2
    have hm : mergefid = n.activeFileId + 1 := by
      rcases h1 with h1 | h1
      · exact h1
      · have := hbelow mergefid h1
        omega
    refine ⟨hm, by omega, fun fid hfid => ?_, fun hmem => ?_⟩
    · have := hbelow fid hfid
      omega
    · have := hbelow mergefid hmem
      omega

/-- The engine with `5.data`, `7.data` and the active file `8.data` has every
selected id below the active one. -/
theorem merge_id_below_active_threeFiles :
    mergePlan threeFiles = some ([5, 7], 9) ∧ (9 : Nat) = threeFiles.activeFileId + 1 ∧
      (9 : Nat) ∉ [5, 7] :=
  ⟨by decide,
   (merge_id_below_active threeFiles [5, 7] 9 (by decide) (by decide) (by decide)
     (by decide)).1,
   (merge_id_below_active threeFiles [5, 7] 9 (by decide) (by decide) (by decide)
     (by decide)).2.2.2⟩

/-- C12 (the code at a failing input): on a directory with `20.data`
(`"1" -> "Nikit"`) and `30.data` (`"2" -> "Nick"`) opened at second 8, both keys
are read back; `Merge` selects the ids 20 and 30 and the id it writes to is 30,
the greatest selected id itself and not that id plus one. It appends the copies
to the source file `30.data`, writes `30.hint` and then deletes `20.data` and
`30.data`: the directory is left with `8.data` and `30.hint`, no file holds a
record, and the key directory built from it is empty. -/
theorem C12_merge_writes_into_a_file_it_deletes :
    NewNord aheadDir 128 (Env.at 8) = Outcome.ok aheadStore ∧
      Get aheadStore key1 = (valNikit, true) ∧ Get aheadStore key2 = (valNick, true) ∧
      mergePlan aheadStore = some ([20, 30], 30) ∧
      Merge aheadStore (Env.at 9) = Outcome.ok (none, aheadMerged) ∧
      aheadMerged.fs.map Prod.fst = [dataName 8, hintName 30] ∧
      aheadMerged.fs.read (dataName 30) = none ∧
      aheadMerged.fs.read (dataName 8) = some [] ∧
      buildKeyDir aheadMerged.fs (Env.at 10) = Outcome.ok [] := by
  decide

theorem FS.read_ne_none_iff (fs : FS) (x : Bytes) :
    fs.read x ≠ none ↔ x ∈ fs.map Prod.fst := by
  induction fs with
  | nil => simp [FS.read]
  | cons p rest ih =>
    obtain ⟨n0, d0⟩ := p
    by_cases h : n0 = x
    · simp [FS.read, h]
    · simp only [FS.read, h, if_false, List.map_cons, List.mem_cons]
      rw [ih]
      constructor
      · exact Or.inr
      · rintro (h1 | h1)
        · exact absurd h1.symm h
        · exact h1

theorem FS.read_eq_none_iff (fs : FS) (x : Bytes) :
    fs.read x = none ↔ x ∉ fs.map Prod.fst := by
  rw [← FS.read_ne_none_iff]
  simp

/-- On a listing of well-formed names the fields of every name are read without
a panic: the decimal text of the id and the kind. -/
theorem nameFields_canonical (files : List Bytes)
    (hcan : ∀ name ∈ files, ∃ id, id < 4294967296 ∧ (name = dataName id ∨ name = hintName id)) :
    ∃ fields, nameFields files = some fields ∧
      ∀ fname ftype, (fname, ftype) ∈ fields ↔ ∃ name ∈ files, Split name = [fname, ftype] := by
  induction files with
  | nil =>
    refine ⟨[], rfl, ?_⟩
    intro fname ftype
    simp
  | cons name files ih =>
    obtain ⟨fields, hf, hmem⟩ := ih (fun x hx => hcan x (List.mem_cons_of_mem _ hx))
    obtain ⟨id, _, hname⟩ := hcan name (List.mem_cons_self _ _)
    have hsplit : ∃ f0 f1, Split name = [f0, f1] := by
      rcases hname with h | h
      · exact ⟨_, _, h ▸ Split_dataName id⟩
      · exact ⟨_, _, h ▸ Split_hintName id⟩
    obtain ⟨f0, f1, hs⟩ := hsplit
    refine ⟨(f0, f1) :: fields, by simp [nameFields, hs, hf], ?_⟩
    intro fname ftype
    simp only [List.mem_cons, Prod.mk.injEq]
    constructor
    · rintro (⟨h1, h2⟩ | h)
      · exact ⟨name, Or.inl rfl, by rw [hs, h1, h2]⟩
      · obtain ⟨x, hx, hxs⟩ := (hmem fname ftype).mp h
        exact ⟨x, Or.inr hx, hxs⟩
    · rintro ⟨x, hx | hx, hxs⟩
      · subst hx
        rw [hs] at hxs
        simp only [List.cons.injEq, and_true] at hxs
        exact Or.inl ⟨hxs.1.symm, hxs.2.symm⟩
      · exact Or.inr ((hmem fname ftype).mpr ⟨x, hx, hxs⟩)

/-- The ids `Merge` selects: those it started with and, for every listed file of
kind `data` whose stem is not the stem of a hint file, not the text of the
active id and not a key of the key directory, the number its stem stands for. -/
theorem selectMerge_mem (n : Nord) (fileMap : List Bytes) (fields : List (Bytes × Bytes))
    (toMerge : List Nat) (mergefid fid : Nat) :
    fid ∈ (selectMerge n fileMap fields toMerge mergefid).1 ↔
      fid ∈ toMerge ∨ ∃ f ∈ fields, f.1 ∉ fileMap ∧ f.2 = strData ∧ f.1 ≠ Itoa n.activeFileId ∧
        n.keyDir.get f.1 = none ∧ fid = toUint32 (Atoi f.1) := by
  induction fields generalizing toMerge mergefid with
  | nil => simp [selectMerge]
  | cons f fields ih =>
    obtain ⟨fname, ftype⟩ := f
    unfold selectMerge
    split
    · rename_i hmap
      rw [ih]
      constructor
      · rintro (h | ⟨g, hg, hrest⟩)
        · exact Or.inl h
        · exact Or.inr ⟨g, List.mem_cons_of_mem _ hg, hrest⟩
      · rintro (h | ⟨g, hg, hrest⟩)
        · exact Or.inl h
        · rcases List.mem_cons.mp hg with h1 | h1
          · subst h1
            exact absurd hmap hrest.1
          · exact Or.inr ⟨g, h1, hrest⟩
    · rename_i hmap
      split
      · rename_i hcond
        split
        · rename_i hkey
          rw [ih]
          constructor
          · rintro (h | ⟨g, hg, hrest⟩)
            · exact Or.inl h
            · exact Or.inr ⟨g, List.mem_cons_of_mem _ hg, hrest⟩
          · rintro (h | ⟨g, hg, hrest⟩)
            · exact Or.inl h
            · rcases List.mem_cons.mp hg with h1 | h1
              · subst h1
                rw [hrest.2.2.2.1] at hkey
                simp at hkey
              · exact Or.inr ⟨g, h1, hrest⟩
        · rename_i hkey
          have hnone : n.keyDir.get fname = none := by
            cases hget : n.keyDir.get fname with
            | none => rfl
            | some e => simp [hget] at hkey
          dsimp only
          rw [ih]
          constructor
          · rintro (h | ⟨g, hg, hrest⟩)
            · split at h
              · exact Or.inl h
              · rcases List.mem_append.mp h with h1 | h1
                · exact Or.inl h1
                · rw [List.mem_singleton] at h1
                  exact Or.inr ⟨(fname, ftype), List.mem_cons_self _ _, hmap, hcond.1, hcond.2,
                    hnone, h1⟩
            · exact Or.inr ⟨g, List.mem_cons_of_mem _ hg, hrest⟩
          · rintro (h | ⟨g, hg, hrest⟩)
            · left
              split
              · exact h
              · exact List.mem_append_left _ h
            · rcases List.mem_cons.mp hg with h1 | h1
              · subst h1
                left
                rw [hrest.2.2.2.2]
                split
                · assumption
                · simp
              · exact Or.inr ⟨g, h1, hrest⟩
      · rename_i hcond
        rw [ih]
        constructor
        · rintro (h | ⟨g, hg, hrest⟩)
          · exact Or.inl h
          · exact Or.inr ⟨g, List.mem_cons_of_mem _ hg, hrest⟩
        · rintro (h | ⟨g, hg, hrest⟩)
          · exact Or.inl h
          · rcases List.mem_cons.mp hg with h1 | h1
            · subst h1
              exact absurd ⟨hrest.2.1, hrest.2.2.1⟩ hcond
            · exact Or.inr ⟨g, h1, hrest⟩

theorem mem_mergeListing (n : Nord) (x : Bytes) :
    x ∈ mergeListing n ↔ x ∈ n.fs.map Prod.fst := by
  unfold mergeListing
  rw [FS.mem_sortBy, FS.mem_readDir]

/-- In a directory of well-formed names `Merge` does not panic on a name, and
the ids it selects are those of the data files that are not the active file,
have no hint file and whose decimal id is not a key of the key directory. -/
theorem mergePlan_canonical (n : Nord) (hcan : canonical n.fs) :
    ∃ toMerge mergefid, mergePlan n = some (toMerge, mergefid) ∧
      ∀ fid, fid ∈ toMerge ↔
        (fid < 4294967296 ∧ n.fs.read (dataName fid) ≠ none ∧ fid ≠ n.activeFileId ∧
          n.fs.read (hintName fid) = none ∧ n.keyDir.get (Itoa fid) = none) := by
  have hcanL : ∀ name ∈ mergeListing n,
      ∃ id, id < 4294967296 ∧ (name = dataName id ∨ name = hintName id) := by
    intro name hname
    exact hcan name ((mem_mergeListing n name).mp hname)
  obtain ⟨fields, hf, hmem⟩ := nameFields_canonical (mergeListing n) hcanL
  refine ⟨(selectMerge n ((fields.filter (fun f => f.2 = strHint)).map Prod.fst) fields []
      ((n.activeFileId + 1) % 4294967296)).1,
    (selectMerge n ((fields.filter (fun f => f.2 = strHint)).map Prod.fst) fields []
      ((n.activeFileId + 1) % 4294967296)).2, by simp only [mergePlan, hf], ?_⟩
  intro fid
  have hmap : ∀ fname, fname ∈ (fields.filter (fun f => f.2 = strHint)).map Prod.fst ↔
      (fname, strHint) ∈ fields := by
    intro fname
    simp only [List.mem_map, List.mem_filter, decide_eq_true_eq]
    constructor
    · rintro ⟨⟨a, b⟩, ⟨hab, hb⟩, ha⟩
      simp only at hb ha
      subst hb
      subst ha
      exact hab
    · intro h
      exact ⟨(fname, strHint), ⟨h, rfl⟩, rfl⟩
  rw [selectMerge_mem]
  simp only [List.not_mem_nil, false_or]
  constructor
  · rintro ⟨⟨fname, ftype⟩, hfield, hnomap, hdata, hact, hkey, hfid⟩
    simp only at hnomap hdata hact hkey hfid
    subst hdata
    obtain ⟨name, hname, hsplit⟩ := (hmem fname strData).mp hfield
    obtain ⟨id, hid, hn | hn⟩ := hcanL name hname
    · subst hn
      rw [Split_dataName] at hsplit
      simp only [List.cons.injEq, and_true] at hsplit
      subst hsplit
      rw [toUint32_Atoi_Itoa id hid] at hfid
      subst hfid
      refine ⟨hid, ?_, fun heq => hact (by rw [heq]), ?_, hkey⟩
      · rw [FS.read_ne_none_iff]
        exact (mem_mergeListing n _).mp hname
      · rw [FS.read_eq_none_iff]
        intro hhint
        apply hnomap
        rw [hmap]
        exact (hmem _ _).mpr ⟨hintName fid, (mem_mergeListing n _).mpr hhint, Split_hintName fid⟩
    · subst hn
      rw [Split_hintName] at hsplit
      simp only [List.cons.injEq, and_true] at hsplit
      exact absurd hsplit.2 (by decide)
  · rintro ⟨hid, hdata, hact, hhint, hkey⟩
    rw [FS.read_ne_none_iff] at hdata
    rw [FS.read_eq_none_iff] at hhint
    refine ⟨(Itoa fid, strData), ?_, ?_, rfl, ?_, hkey, (toUint32_Atoi_Itoa fid hid).symm⟩
    · exact (hmem _ _).mpr ⟨dataName fid, (mem_mergeListing n _).mpr hdata, Split_dataName fid⟩
    · simp only
      rw [hmap]
      intro hfield
      obtain ⟨name, hname, hsplit⟩ := (hmem _ _).mp hfield
      obtain ⟨id, _, hn | hn⟩ := hcanL name hname
      · subst hn
        rw [Split_dataName] at hsplit
        simp only [List.cons.injEq, and_true] at hsplit
        exact absurd hsplit.2 (by decide)
      · subst hn
        rw [Split_hintName] at hsplit
        simp only [List.cons.injEq, and_true] at hsplit
        have := Itoa_injective _ _ hsplit
        subst this
        exact hhint ((mem_mergeListing n _).mp hname)
    · simp only
      intro heq
      exact hact (Itoa_injective _ _ heq)

/-- C19 as stated fails: with the key `5` in the key directory and the files
`5.data`, `7.data` and the active `8.data`, none with a hint file, `Merge`
selects the id 7 alone: the test `keyDir[fname]` finds the key `5` and excludes
`5.data`; and with a single selected file `Merge` returns without merging. -/
theorem C19_key_excludes_file :
    mergePlan keyNamedFive = some ([7], 9) ∧ keyNamedFive.activeFileId = 8 ∧
      keyNamedFive.fs.map Prod.fst = [dataName 5, dataName 7, dataName 8] ∧
      (keyNamedFive.keyDir.get (Itoa 5)).isSome = true ∧
      Merge keyNamedFive (Env.at 9) = Outcome.ok (none, keyNamedFive) := by
  decide

/-- C19, amended: for every store state whose directory holds well-formed names,
the set of ids `Merge` compacts is exactly the set of `.data` files that are not
the active file, have no `.hint` companion and whose decimal id is not a key of
the key directory: the test `keyDir[fname]` excludes a file exactly when the
text of its id is a key of the key directory. -/
theorem C19_merge_set (n : Nord) (hcan : canonical n.fs) :
    ∃ toMerge mergefid, mergePlan n = some (toMerge, mergefid) ∧
      ∀ fid, fid ∈ toMerge ↔
        (fid < 4294967296 ∧ n.fs.read (dataName fid) ≠ none ∧ fid ≠ n.activeFileId ∧
          n.fs.read (hintName fid) = none ∧ n.keyDir.get (Itoa fid) = none) :=
  mergePlan_canonical n hcan

/-- C19, amended, at the engine with the key `5`: the set is the id 7 alone. -/
theorem C19_merge_set_witness :
    canonical keyNamedFive.fs ∧
      ∃ toMerge mergefid, mergePlan keyNamedFive = some (toMerge, mergefid) ∧
        ∀ fid, fid ∈ toMerge ↔
          (fid < 4294967296 ∧ keyNamedFive.fs.read (dataName fid) ≠ none ∧
            fid ≠ keyNamedFive.activeFileId ∧ keyNamedFive.fs.read (hintName fid) = none ∧
            keyNamedFive.keyDir.get (Itoa fid) = none) :=
  ⟨fun name hname => by
      have h : name = dataName 5 ∨ name = dataName 7 ∨ name = dataName 8 := by
        have hn : keyNamedFive.fs.map Prod.fst = [dataName 5, dataName 7, dataName 8] := by
          decide
        rw [hn] at hname
        simpa using hname
      rcases h with h | h | h
      · exact ⟨5, by decide, Or.inl h⟩
      · exact ⟨7, by decide, Or.inl h⟩
      · exact ⟨8, by decide, Or.inl h⟩,
   C19_merge_set keyNamedFive (fun name hname => by
      have h : name = dataName 5 ∨ name = dataName 7 ∨ name = dataName 8 := by
        have hn : keyNamedFive.fs.map Prod.fst = [dataName 5, dataName 7, dataName 8] := by
          decide
        rw [hn] at hname
        simpa using hname
      rcases h with h | h | h
      · exact ⟨5, by decide, Or.inl h⟩
      · exact ⟨7, by decide, Or.inl h⟩
      · exact ⟨8, by decide, Or.inl h⟩)⟩

/-! ## A second `Merge` -/

theorem mergePlan_bounds (n : Nord) (toMerge : List Nat) (mergefid : Nat)
    (hcan : canonical n.fs) (hplan : mergePlan n = some (toMerge, mergefid)) :
    (∀ fid ∈ toMerge, fid ≠ n.activeFileId ∧ fid < 4294967296) ∧
      mergefid ≠ n.activeFileId ∧ mergefid < 4294967296 := by
  unfold mergePlan at hplan
  split at hplan
  · simp at hplan
  · rename_i fields hfields
    simp only [Option.some.injEq] at hplan
    have hsel := selectMerge_canonical n
      ((fields.filter (fun f => f.2 = strHint)).map Prod.fst) (mergeListing n) fields
      (fun name hname => hcan name ((mem_mergeListing n name).mp hname)) hfields
    rw [hplan] at hsel
    exact hsel

theorem FS.nodup_remove (fs : FS) (x : Bytes) (h : (fs.map Prod.fst).Nodup) :
    ((fs.remove x).map Prod.fst).Nodup := by
  induction fs with
  | nil => simp [FS.remove]
  | cons p rest ih =>
    obtain ⟨n0, d0⟩ := p
    simp only [List.map_cons, List.nodup_cons] at h
    by_cases h0 : n0 = x
    · simp only [FS.remove, h0, if_true]
      exact h.2
    · simp only [FS.remove, h0, if_false, List.map_cons, List.nodup_cons]
      exact ⟨fun hmem => h.1 (FS.names_remove _ _ _ hmem), ih h.2⟩

theorem FS.read_remove_self (fs : FS) (x : Bytes) (h : (fs.map Prod.fst).Nodup) :
    (fs.remove x).read x = none := by
  induction fs with
  | nil => rfl
  | cons p rest ih =>
    obtain ⟨n0, d0⟩ := p
    simp only [List.map_cons, List.nodup_cons] at h
    by_cases h0 : n0 = x
    · subst h0
      simp only [FS.remove, if_true]
      rw [FS.read_eq_none_iff]
      exact h.1
    · simp only [FS.remove, h0, if_false, FS.read]
      exact ih h.2

theorem FS.read_remove_none (fs : FS) (x y : Bytes) (h : fs.read x = none) :
    (fs.remove y).read x = none := by
  rw [FS.read_eq_none_iff] at h ⊢
  exact fun hmem => h (FS.names_remove _ _ _ hmem)

theorem FS.nodup_create (fs : FS) (x : Bytes) (h : (fs.map Prod.fst).Nodup) :
    ((fs.create x).map Prod.fst).Nodup := by
  unfold FS.create
  cases hr : fs.read x with
  | some c => exact h
  | none =>
    simp only [List.map_append, List.map_cons, List.map_nil]
    rw [List.nodup_append]
    refine ⟨h, by simp, ?_⟩
    intro a ha hb
    simp only [List.mem_singleton] at hb
    subst hb
    rw [FS.read_eq_none_iff] at hr
    exact hr ha

theorem foldl_remove_none (ids : List Nat) (fs : FS) (x : Bytes) (h : fs.read x = none) :
    (ids.foldl (fun fs fid => FS.remove fs (dataName fid)) fs).read x = none := by
  induction ids generalizing fs with
  | nil => exact h
  | cons id ids ih =>
    simp only [List.foldl_cons]
    exact ih _ (FS.read_remove_none _ _ _ h)

/-- After the removals of `Merge`, the data file of every selected id is gone. -/
theorem foldl_remove_gone (ids : List Nat) (fs : FS) (h : (fs.map Prod.fst).Nodup)
    (fid : Nat) (hfid : fid ∈ ids) :
    (ids.foldl (fun fs fid => FS.remove fs (dataName fid)) fs).read (dataName fid) = none := by
  induction ids generalizing fs with
  | nil => simp at hfid
  | cons id ids ih =>
    simp only [List.foldl_cons]
    rcases List.mem_cons.mp hfid with heq | hin
    · subst heq
      exact foldl_remove_none ids _ _ (FS.read_remove_self fs (dataName fid) h)
    · exact ih _ (FS.nodup_remove fs _ h) hin

/-- The directory a `Merge` that went through its copying loop leaves: the names
are well formed, the hint file of the merged id exists, every other hint file
is as before, no data file other than the merged one is new, and the data
files of the selected ids are gone. -/
theorem Merge_result_dir (n : Nord) (env : Env) (toMerge : List Nat) (mergefid : Nat)
    (st : MergeState) (hcan : canonical n.fs) (hnodup : (n.fs.map Prod.fst).Nodup)
    (hm : mergefid < 4294967296)
    (hcopy : copyLive toMerge mergefid env n.keyDir
      { fs := (n.fs.create (dataName mergefid)).create (hintName mergefid),
        newKeyDir := [], writePos := 0 } = some st) :
    canonical (toMerge.foldl (fun fs fid => FS.remove fs (dataName fid)) st.fs) ∧
      (toMerge.foldl (fun fs fid => FS.remove fs (dataName fid)) st.fs).read (hintName mergefid)
        ≠ none ∧
      (∀ fid, n.fs.read (hintName fid) ≠ none →
        (toMerge.foldl (fun fs fid => FS.remove fs (dataName fid)) st.fs).read (hintName fid)
          ≠ none) ∧
      (∀ fid, fid ≠ mergefid →
        (toMerge.foldl (fun fs fid => FS.remove fs (dataName fid)) st.fs).read (dataName fid)
          ≠ none → n.fs.read (dataName fid) ≠ none) ∧
      (∀ fid ∈ toMerge,
        (toMerge.foldl (fun fs fid => FS.remove fs (dataName fid)) st.fs).read (dataName fid)
          = none) := by
  obtain ⟨_, hnames⟩ := copyLive_frame _ _ _ _ _ _ hcopy
  obtain ⟨hrem, hremnames⟩ := foldl_remove_frame toMerge st.fs
  simp only at hnames
  have hcan2 : canonical ((n.fs.create (dataName mergefid)).create (hintName mergefid)) :=
    canonical_create_hint _ _ hm (canonical_create_data _ _ hm hcan)
  have hnd2 : (((n.fs.create (dataName mergefid)).create (hintName mergefid)).map
      Prod.fst).Nodup := FS.nodup_create _ _ (FS.nodup_create _ _ hnodup)
  have hhint : ∀ fid, ((n.fs.create (dataName mergefid)).create (hintName mergefid)).read
      (hintName fid) ≠ none → (toMerge.foldl (fun fs fid => FS.remove fs (dataName fid))
        st.fs).read (hintName fid) ≠ none := by
    intro fid h
    rw [hrem _ (fun g _ heq => dataName_ne_hintName _ _ heq.symm)]
    rw [FS.read_ne_none_iff] at h ⊢
    rw [hnames]
    exact h
  refine ⟨?_, ?_, ?_, ?_, ?_⟩
  · intro x hx
    have hx1 := hremnames x hx
    rw [hnames] at hx1
    exact hcan2 x hx1
  · apply hhint
    rw [FS.read_create_self]
    simp
  · intro fid h
    apply hhint
    obtain ⟨c, hc⟩ := Option.ne_none_iff_exists'.mp h
    rw [FS.read_create_of_some _ _ _ _ (FS.read_create_of_some _ _ _ _ hc)]
    simp
  · intro fid hne h
    rw [FS.read_ne_none_iff] at h ⊢
    have h1 := hremnames _ h
    rw [hnames] at h1
    rcases FS.names_create _ _ _ h1 with h2 | h2
    · rcases FS.names_create _ _ _ h2 with h3 | h3
      · exact h3
      · exact absurd (dataName_injective _ _ h3) hne
    · exact absurd h2 (dataName_ne_hintName _ _)
  · intro fid hfid
    exact foldl_remove_gone toMerge st.fs (by rw [hnames]; exact hnd2) fid hfid

/-- C13: for every store state whose directory holds only well-formed
`<id>.data` / `<id>.hint` names (each name once), a second `Merge` right after
a first `Merge` that returned nil returns with the engine exactly as the first
one left it: no file is created, none is deleted and the key directory is
unchanged (it returns nil, or the error of a failing `os.ReadDir`). -/
theorem C13_merge_idempotent (n n1 : Nord) (env1 env2 : Env)
    (hcan : canonical n.fs) (hnodup : (n.fs.map Prod.fst).Nodup)
    (hfirst : Merge n env1 = Outcome.ok (none, n1)) :
    Merge n1 env2
      = Outcome.ok (if env2.readDirFails then some Error.readDir else none, n1) := by
  cases hd2 : env2.readDirFails with
  | true => simp [Merge, hd2]
  | false =>
    simp only [Bool.false_eq_true, if_false]
    cases hd1 : env1.readDirFails with
    | true => simp [Merge, hd1] at hfirst
    | false =>
      obtain ⟨toMerge, mergefid, hplan, hmem⟩ := mergePlan_canonical n hcan
      obtain ⟨_, _, hm⟩ := mergePlan_bounds n toMerge mergefid hcan hplan
      rw [Merge_of_plan n env1 toMerge mergefid hd1 hplan] at hfirst
      split at hfirst
      · rename_i hlen
        simp only [Outcome.ok.injEq, Prod.mk.injEq, true_and] at hfirst
        subst hfirst
        rw [Merge_of_plan n env2 toMerge mergefid hd2 hplan, if_pos hlen]
      · split at hfirst
        · simp at hfirst
        · split at hfirst
          · simp at hfirst
          · split at hfirst
            · simp at hfirst
            · rename_i st hcopy
              simp only [Outcome.ok.injEq, Prod.mk.injEq, true_and] at hfirst
              obtain ⟨hcan1, hmh, hhints, hdatas, hgone⟩ :=
                Merge_result_dir n env1 toMerge mergefid st hcan hnodup hm hcopy
              subst hfirst
              obtain ⟨toMerge1, mergefid1, hplan1, hmem1⟩ := mergePlan_canonical
                { n with fs := toMerge.foldl (fun fs fid => FS.remove fs (dataName fid)) st.fs }
                hcan1
              have hempty : toMerge1 = [] := by
                rw [List.eq_nil_iff_forall_not_mem]
                intro fid hfid
                obtain ⟨hlt, hdata, hact, hhint, hkey⟩ := (hmem1 fid).mp hfid
                simp only at hdata hact hhint hkey
                by_cases hfm : fid = mergefid
                · subst hfm
                  exact hmh hhint
                · have hin : fid ∈ toMerge := by
                    rw [hmem]
                    refine ⟨hlt, hdatas fid hfm hdata, hact, ?_, hkey⟩
                    by_contra hne
                    exact hhints fid hne hhint
                  exact hdata (hgone fid hin)
              subst hempty
              rw [Merge_of_plan _ env2 [] mergefid1 hd2 hplan1, if_pos (by simp)]

/-- C13 at the engine with `5.data`, `7.data` and the active `8.data`: the first
`Merge` writes `9.data` and `9.hint` and deletes `5.data` and `7.data`, the
second changes nothing. -/
theorem C13_merge_idempotent_witness :
    Merge threeFiles (Env.at 9) = Outcome.ok (none, threeFilesMerged) ∧
      Merge threeFilesMerged (Env.at 10) = Outcome.ok (none, threeFilesMerged) :=
  ⟨by decide,
   C13_merge_idempotent threeFiles threeFilesMerged (Env.at 9) (Env.at 10)
     (fun name hname => by
        have h : name = dataName 5 ∨ name = dataName 7 ∨ name = dataName 8 := by
          have hn : threeFiles.fs.map Prod.fst = [dataName 5, dataName 7, dataName 8] := by
            decide
          rw [hn] at hname
          simpa using hname
        rcases h with h | h | h
        · exact ⟨5, by decide, Or.inl h⟩
        · exact ⟨7, by decide, Or.inl h⟩
        · exact ⟨8, by decide, Or.inl h⟩)
     (by decide) (by decide)⟩

/-! ## The last occurrence of a key -/

theorem logFS_read_nodup (L : List LogFile) (hnodup : (L.map (fun f => f.id)).Nodup)
    (f : LogFile) (hf : f ∈ L) : (logFS L).read (dataName f.id) = some (encodeRecs f.recs) := by
  induction L with
  | nil => simp at hf
  | cons g rest ih =>
    simp only [List.map_cons, List.nodup_cons] at hnodup
    rcases List.mem_cons.mp hf with h | h
    · subst h
      simp [logFS, FS.read]
    · have hne : ¬ dataName g.id = dataName f.id := by
        intro heq
        have := dataName_injective _ _ heq
        exact hnodup.1 (this ▸ List.mem_map_of_mem _ h)
      have := ih hnodup.2 h
      simp only [logFS, List.map_cons, FS.read, hne, if_false] at this ⊢
      exact this

theorem sortLog_perm (L : List LogFile) : (sortLog L).Perm L := by
  unfold sortLog FS.sortBy
  exact List.perm_insertionSort _ L

theorem sortLog_sorted (L : List LogFile) :
    (sortLog L).Pairwise (fun a b => a.id ≤ b.id) := by
  unfold sortLog FS.sortBy
  haveI : IsTotal LogFile (fun a b => decide (a.id ≤ b.id) = true) :=
    ⟨fun a b => by simp only [decide_eq_true_eq]; omega⟩
  haveI : IsTrans LogFile (fun a b => decide (a.id ≤ b.id) = true) :=
    ⟨fun a b c hab hbc => by simp only [decide_eq_true_eq] at *; omega⟩
  have h := List.sorted_insertionSort (fun a b : LogFile => decide (a.id ≤ b.id) = true) L
  exact h.imp (fun hab => by simpa using hab)

theorem sortLog_ids_sorted (L : List LogFile) (hnodup : (L.map (fun f => f.id)).Nodup) :
    ((sortLog L).map (fun f => f.id)).Pairwise (fun a b => a < b) := by
  have hperm := sortLog_perm L
  have hnd : ((sortLog L).map (fun f => f.id)).Nodup :=
    (hperm.map (fun f => f.id)).nodup_iff.mpr hnodup
  have hs := sortLog_sorted L
  have hle : ((sortLog L).map (fun f => f.id)).Pairwise (fun a b => a ≤ b) := by
    rw [List.pairwise_map]
    exact hs
  have hne : ((sortLog L).map (fun f => f.id)).Pairwise (fun a b => a ≠ b) := hnd
  exact (hle.and hne).imp (fun h => Nat.lt_of_le_of_ne h.1 h.2)

/-- `buildKeyDir` on a directory of data files, in whatever order the directory
holds them: the key directory of the files in ascending order of id. -/
theorem buildKeyDir_logFS_any (L : List LogFile) (env : Env)
    (hnodup : (L.map (fun f => f.id)).Nodup)
    (hsmall : ∀ f ∈ L, f.id < 4294967296 ∧ recsSmall f.recs)
    (hread : env.readDirFails = false) :
    buildKeyDir (logFS L) env = Outcome.ok (indexLog (sortLog L) []) := by
  obtain ⟨ids1, hperm, hdir⟩ := readDir_logFS L
  have hlt : ∀ i ∈ ids1, i < 4294967296 := by
    intro i hi
    obtain ⟨f, hf, rfl⟩ := List.mem_map.mp (hperm.subset hi)
    exact (hsmall f hf).1
  have hperm2 : ids1.Perm ((sortLog L).map (fun f => f.id)) :=
    hperm.trans ((sortLog_perm L).map (fun f => f.id)).symm
  unfold buildKeyDir
  simp only [hread, Bool.false_eq_true, if_false, hdir, fileInfos_dataNames ids1 hlt,
    sortBy_id_of_perm _ ids1 hperm2 (sortLog_ids_sorted L hnodup)]
  have hnohint : (((sortLog L).map (fun f => f.id)).map mkInfo).filter
      (fun f => f.ftype = strHint) = [] := by
    rw [List.filter_eq_nil_iff]
    intro a ha
    obtain ⟨i, _, rfl⟩ := List.mem_map.mp ha
    have hne : strData ≠ strHint := by decide
    simp [mkInfo, hne]
  rw [hnohint, List.map_map]
  exact processFiles_log (logFS L) (sortLog L) []
    (fun f hf => ⟨logFS_read_nodup L hnodup f ((sortLog_perm L).subset hf),
      (hsmall f ((sortLog_perm L).subset hf)).2⟩)

theorem indexRecs_get_other (fid : Nat) (recs : List Rec) (pos : Nat) (kd : KeyDir) (k : Bytes)
    (h : ∀ r ∈ recs, r.key ≠ k) : (indexRecs fid recs pos kd).get k = kd.get k := by
  induction recs generalizing pos kd with
  | nil => rfl
  | cons r rest ih =>
    simp only [indexRecs]
    rw [ih _ _ (fun x hx => h x (List.mem_cons_of_mem _ hx)),
      KeyDir.get_set_other _ _ _ _ (h r (List.mem_cons_self _ _))]

theorem indexLog_get_other (L : List LogFile) (kd : KeyDir) (k : Bytes)
    (h : ∀ f ∈ L, ∀ r ∈ f.recs, r.key ≠ k) : (indexLog L kd).get k = kd.get k := by
  induction L generalizing kd with
  | nil => rfl
  | cons f rest ih =>
    simp only [indexLog]
    rw [ih _ (fun g hg => h g (List.mem_cons_of_mem _ hg)),
      indexRecs_get_other _ _ _ _ _ (h f (List.mem_cons_self _ _))]

theorem indexRecs_append (fid : Nat) (a b : List Rec) (pos : Nat) (kd : KeyDir) :
    indexRecs fid (a ++ b) pos kd
      = indexRecs fid b (pos + (encodeRecs a).length) (indexRecs fid a pos kd) := by
  induction a generalizing pos kd with
  | nil => simp [indexRecs, encodeRecs]
  | cons r rest ih =>
    have hstep : indexRecs fid (r :: rest ++ b) pos kd
        = indexRecs fid (rest ++ b) (pos + r.bytes.length)
            (kd.set r.key
              { FileId := fid, ValueSz := r.val.length % 4294967296,
                ValuePos := pos % 4294967296, Timestamp := r.ts }) := rfl
    rw [hstep, ih]
    simp only [indexRecs, encodeRecs, List.length_append]
    rw [Nat.add_assoc]

theorem encodeRecs_append (a b : List Rec) :
    encodeRecs (a ++ b) = encodeRecs a ++ encodeRecs b := by
  induction a with
  | nil => rfl
  | cons r rest ih =>
    have hstep : encodeRecs (r :: rest ++ b) = r.bytes ++ encodeRecs (rest ++ b) := rfl
    rw [hstep, ih]
    simp [encodeRecs]

/-- The locator of the last record with a given key in a file: the offset of
its header, cut to 32 bits. -/
theorem indexRecs_get_last (fid : Nat) (pre post : List Rec) (r : Rec) (kd : KeyDir)
    (hpost : ∀ x ∈ post, x.key ≠ r.key) :
    (indexRecs fid (pre ++ r :: post) 0 kd).get r.key
      = some { FileId := fid, ValueSz := r.val.length % 4294967296,
               ValuePos := (encodeRecs pre).length % 4294967296, Timestamp := r.ts } := by
  rw [indexRecs_append]
  simp only [indexRecs, Nat.zero_add]
  rw [indexRecs_get_other _ _ _ _ _ hpost, KeyDir.get_set_same]

/-- The locator of the last record with a given key in a log. -/
theorem indexLog_get_last (A B : List LogFile) (f : LogFile) (pre post : List Rec) (r : Rec)
    (hf : f.recs = pre ++ r :: post)
    (hpost : ∀ x ∈ post, x.key ≠ r.key)
    (hB : ∀ g ∈ B, ∀ x ∈ g.recs, x.key ≠ r.key) :
    (indexLog (A ++ f :: B) []).get r.key
      = some { FileId := f.id, ValueSz := r.val.length % 4294967296,
               ValuePos := (encodeRecs pre).length % 4294967296, Timestamp := r.ts } := by
  rw [indexLog_append]
  simp only [indexLog]
  rw [indexLog_get_other _ _ _ hB, hf, indexRecs_get_last _ _ _ _ _ hpost]

theorem mem_encodeRecs_length (recs : List Rec) (r : Rec) (h : r ∈ recs) :
    r.bytes.length ≤ (encodeRecs recs).length := by
  induction recs with
  | nil => simp at h
  | cons a rest ih =>
    simp only [encodeRecs, List.length_append]
    rcases List.mem_cons.mp h with h1 | h1
    · subst h1
      omega
    · have := ih h1
      omega

/-- A data file of more than `2 ^ 32` bytes: the record of the key `2` starts at
offset `2 ^ 32`, and the key directory built at startup gives it the position
0. -/
theorem buildKeyDir_offset_4GiB (v : Bytes) (hv : v.length = 4294967283) :
    ∃ kd, buildKeyDir
        (logFS [{ id := 5, recs := [{ ts := 0, key := key1, val := v },
                                    { ts := 0, key := key2, val := valNick }] }]) (Env.at 9)
        = Outcome.ok kd ∧
      (encodeRecs [({ ts := 0, key := key1, val := v } : Rec)]).length = 4294967296 ∧
      kd.get key2 = some { FileId := 5, ValueSz := 4, ValuePos := 0, Timestamp := 0 } := by
  refine ⟨_, buildKeyDir_logFS _ (Env.at 9) (by simp) ?_ rfl, ?_, ?_⟩
  · intro f hf
    simp only [List.mem_singleton] at hf
    subst hf
    refine ⟨by simp, ?_⟩
    intro r hr
    simp only [List.mem_cons, List.mem_singleton, List.not_mem_nil, or_false] at hr
    rcases hr with h | h
    · subst h
      refine ⟨by simp, ?_⟩
      simp only [hv]
      decide
    · subst h
      exact ⟨by simp, by decide⟩
  · simp only [encodeRecs, List.append_nil, Rec.bytes_length, hv]
    rfl
  · simp only [indexLog]
    have h := indexRecs_get_last 5 [({ ts := 0, key := key1, val := v } : Rec)] []
      { ts := 0, key := key2, val := valNick } [] (by simp)
    simp only [List.singleton_append] at h
    rw [h]
    simp only [encodeRecs, List.append_nil, Rec.bytes_length, hv]
    rfl

/-- C20 as stated fails for a data file longer than `2 ^ 32` bytes: there is a
well-formed data file `5.data` (a record of `2 ^ 32` bytes followed by the
record of the key `2`) for which the key directory built at startup maps the key
`2` to `value_pos = 0`, while its record starts at offset `2 ^ 32`. -/
theorem C20_offset_truncated :
    ∃ v : Bytes, ∃ kd, buildKeyDir
        (logFS [{ id := 5, recs := [{ ts := 0, key := key1, val := v },
                                    { ts := 0, key := key2, val := valNick }] }]) (Env.at 9)
        = Outcome.ok kd ∧
      (encodeRecs [({ ts := 0, key := key1, val := v } : Rec)]).length = 4294967296 ∧
      kd.get key2 = some { FileId := 5, ValueSz := 4, ValuePos := 0, Timestamp := 0 } :=
  ⟨List.replicate 4294967283 0, buildKeyDir_offset_4GiB _ (List.length_replicate _ _)⟩

/-- C20, amended: for every directory of well-formed data files without hints
(distinct `uint32` ids, complete records with `uint32` timestamps) none of which
is longer than `2 ^ 32` bytes, the key directory built at startup maps each key
to its last occurrence in visiting order: the record in the data file with the
greatest file id that contains the key and, within that file, the occurrence at
the greatest offset, with `value_pos` that record's header offset and
`value_sz` and `timestamp` those of its header; a key that occurs in no file
has no entry. -/
theorem C20_index_last_occurrence (L : List LogFile) (env : Env)
    (hnodup : (L.map (fun f => f.id)).Nodup)
    (hfiles : ∀ f ∈ L, f.id < 4294967296 ∧ (encodeRecs f.recs).length ≤ 4294967296 ∧
      ∀ r ∈ f.recs, r.ts < 4294967296)
    (hread : env.readDirFails = false) :
    ∃ kd, buildKeyDir (logFS L) env = Outcome.ok kd ∧
      (∀ f ∈ L, ∀ pre r post, f.recs = pre ++ r :: post →
        (∀ x ∈ post, x.key ≠ r.key) →
        (∀ g ∈ L, f.id < g.id → ∀ x ∈ g.recs, x.key ≠ r.key) →
        kd.get r.key = some { FileId := f.id, ValueSz := r.val.length,
                              ValuePos := (encodeRecs pre).length, Timestamp := r.ts }) ∧
      (∀ k, (∀ f ∈ L, ∀ r ∈ f.recs, r.key ≠ k) → kd.get k = none) := by
  have hsmall : ∀ f ∈ L, f.id < 4294967296 ∧ recsSmall f.recs := by
    intro f hf
    obtain ⟨hid, hlen, hts⟩ := hfiles f hf
    refine ⟨hid, fun r hr => ⟨hts r hr, ?_⟩⟩
    have := mem_encodeRecs_length f.recs r hr
    rw [Rec.bytes_length] at this
    omega
  refine ⟨_, buildKeyDir_logFS_any L env hnodup hsmall hread, ?_, ?_⟩
  · intro f hf pre r post hrecs hpost hlater
    have hfs : f ∈ sortLog L := (sortLog_perm L).symm.subset hf
    obtain ⟨A, B, hAB⟩ := List.append_of_mem hfs
    have hsorted := sortLog_ids_sorted L hnodup
    rw [hAB] at hsorted
    simp only [List.map_append, List.map_cons, List.pairwise_append, List.pairwise_cons]
      at hsorted
    have hB : ∀ g ∈ B, ∀ x ∈ g.recs, x.key ≠ r.key := by
      intro g hg
      have hgL : g ∈ L := (sortLog_perm L).subset (by rw [hAB]; simp [hg])
      exact hlater g hgL (hsorted.2.1.1 g.id (List.mem_map_of_mem _ hg))
    rw [hAB, indexLog_get_last A B f pre post r hrecs hpost hB]
    obtain ⟨_, hlen, _⟩ := hfiles f hf
    rw [hrecs, encodeRecs_append] at hlen
    simp only [encodeRecs, List.length_append, Rec.bytes_length] at hlen
    rw [Nat.mod_eq_of_lt (by omega), Nat.mod_eq_of_lt (by omega)]
  · intro k hk
    rw [indexLog_get_other _ _ _ (fun f hf => hk f ((sortLog_perm L).subset hf))]
    rfl

/-- C20, amended, at a directory with `7.data` (`"1" -> "Nick"`) and `5.data`
(`"1" -> "Nikit"`, `"2" -> "Gen"`): the key `1` is mapped to offset 0 of
`7.data`, the key `2` to offset 18 of `5.data`. -/
theorem C20_index_last_occurrence_witness :
    ∃ kd, buildKeyDir (logFS twoFileLog) (Env.at 9) = Outcome.ok kd ∧
      kd.get key1 = some { FileId := 7, ValueSz := 4, ValuePos := 0, Timestamp := 7 } ∧
      kd.get key2 = some { FileId := 5, ValueSz := 3, ValuePos := 18, Timestamp := 6 } := by
  obtain ⟨kd, hbuild, hlast, _⟩ := C20_index_last_occurrence twoFileLog (Env.at 9)
    (by decide) (by decide) rfl
  refine ⟨kd, hbuild, ?_, ?_⟩
  · exact hlast { id := 7, recs := [{ ts := 7, key := key1, val := valNick }] } (by decide)
      [] { ts := 7, key := key1, val := valNick } [] rfl (by decide) (by decide)
  · exact hlast { id := 5, recs := [{ ts := 6, key := key1, val := valNikit },
                                    { ts := 6, key := key2, val := valGen }] } (by decide)
      [{ ts := 6, key := key1, val := valNikit }] { ts := 6, key := key2, val := valGen } []
      rfl (by decide) (by decide)

/-! ## Scanning a data file with a torn tail -/

/-- The header bytes of a record. -/
theorem Rec.bytes_eq (r : Rec) (hkv : r.key.length + r.val.length < 4294967296) :
    r.bytes = (putUint32 r.ts ++ putUint32 r.key.length ++ putUint32 r.val.length)
      ++ r.key ++ r.val := by
  have hk : r.key.length % 4294967296 = r.key.length := Nat.mod_eq_of_lt (by omega)
  have hv : r.val.length % 4294967296 = r.val.length := Nat.mod_eq_of_lt (by omega)
  simp [Rec.bytes, DataFileEntry.Serialize, hk, hv]

/-- One iteration of the scan at a record whose header and key are in the file
in full, whatever follows them. -/
theorem scanData_step (fid : Nat) (pre rest : Bytes) (r : Rec) (kd : KeyDir) (fuel : Nat)
    (hts : r.ts < 4294967296) (hkv : r.key.length + r.val.length < 4294967296) :
    scanData fid
        (pre ++ (putUint32 r.ts ++ putUint32 r.key.length ++ putUint32 r.val.length)
          ++ r.key ++ rest) (fuel + 1) pre.length kd
      = scanData fid
          (pre ++ (putUint32 r.ts ++ putUint32 r.key.length ++ putUint32 r.val.length)
            ++ r.key ++ rest) fuel (pre.length + 12 + r.key.length + r.val.length)
          (kd.set r.key
            { FileId := fid, ValueSz := r.val.length, ValuePos := pre.length % 4294967296,
              Timestamp := r.ts }) := by
  have h12 : (putUint32 r.ts ++ putUint32 r.key.length ++ putUint32 r.val.length).length
      = DataFileEntryHdrLen := rfl
  have hread1 : FS.readAt
      (pre ++ (putUint32 r.ts ++ putUint32 r.key.length ++ putUint32 r.val.length)
        ++ r.key ++ rest) pre.length DataFileEntryHdrLen
      = some (putUint32 r.ts ++ putUint32 r.key.length ++ putUint32 r.val.length) := by
    rw [← h12, List.append_assoc (pre ++ _)]
    exact FS.readAt_mid _ _ _
  have hread2 : FS.readAt
      (pre ++ (putUint32 r.ts ++ putUint32 r.key.length ++ putUint32 r.val.length)
        ++ r.key ++ rest) (pre.length + DataFileEntryHdrLen) r.key.length = some r.key := by
    have hl : (pre ++ (putUint32 r.ts ++ putUint32 r.key.length
        ++ putUint32 r.val.length)).length = pre.length + DataFileEntryHdrLen := by
      rw [List.length_append, h12]
    rw [← hl]
    exact FS.readAt_mid _ _ _
  have hf1 : (putUint32 r.ts ++ putUint32 r.key.length ++ putUint32 r.val.length).take 4
      = putUint32 r.ts := by
    simp [putUint32]
  have hf2 : ((putUint32 r.ts ++ putUint32 r.key.length ++ putUint32 r.val.length).drop 4).take 4
      = putUint32 r.key.length := by
    simp [putUint32]
  have hf3 : ((putUint32 r.ts ++ putUint32 r.key.length ++ putUint32 r.val.length).drop 8).take 4
      = putUint32 r.val.length := by
    simp [putUint32]
  have hpos : pre.length + DataFileEntryHdrLen + (r.key.length + r.val.length) % 4294967296
      = pre.length + 12 + r.key.length + r.val.length := by
    rw [Nat.mod_eq_of_lt hkv]
    simp only [DataFileEntryHdrLen]
    omega
  conv => lhs; unfold scanData
  simp only [hread1, hf1, hf2, hf3, uint32LE_putUint32 _ hts,
    uint32LE_putUint32 r.key.length (by omega), uint32LE_putUint32 r.val.length (by omega),
    hread2, hpos]

/-- The scan runs through the complete records of a file and goes on at what
follows them. -/
theorem scanData_through (fid : Nat) (recs : List Rec) (pre tail : Bytes) (kd : KeyDir)
    (fuel : Nat) (hsmall : recsSmall recs) :
    scanData fid (pre ++ encodeRecs recs ++ tail) (recs.length + fuel) pre.length kd
      = scanData fid (pre ++ encodeRecs recs ++ tail) fuel (pre ++ encodeRecs recs).length
          (indexRecs fid recs pre.length kd) := by
  induction recs generalizing pre kd with
  | nil => simp [encodeRecs, indexRecs]
  | cons r rest ih =>
    obtain ⟨hts, hkv⟩ := hsmall r (List.mem_cons_self _ _)
    have hcontent : pre ++ encodeRecs (r :: rest) ++ tail
        = pre ++ (putUint32 r.ts ++ putUint32 r.key.length ++ putUint32 r.val.length)
            ++ r.key ++ (r.val ++ encodeRecs rest ++ tail) := by
      simp [encodeRecs, Rec.bytes_eq r hkv]
    have hnext : pre ++ encodeRecs (r :: rest) ++ tail
        = (pre ++ r.bytes) ++ encodeRecs rest ++ tail := by
      simp [encodeRecs]
    have hfuel : (r :: rest).length + fuel = (rest.length + fuel) + 1 := by
      simp only [List.length_cons]
      omega
    have hlen : pre.length + 12 + r.key.length + r.val.length = (pre ++ r.bytes).length := by
      rw [List.length_append, Rec.bytes_length]
      omega
    have hv : r.val.length % 4294967296 = r.val.length := Nat.mod_eq_of_lt (by omega)
    rw [hfuel]
    conv => lhs; rw [hcontent]
    rw [scanData_step fid pre _ r kd _ hts hkv, ← hcontent, hlen, hnext,
      ih (pre ++ r.bytes) _ (fun x hx => hsmall x (List.mem_cons_of_mem _ hx))]
    simp only [indexRecs, hv, List.length_append, encodeRecs, List.append_assoc]

theorem take_bytes_header (r : Rec) (cut : Nat)
    (hkv : r.key.length + r.val.length < 4294967296)
    (hcut : DataFileEntryHdrLen + r.key.length ≤ cut) :
    r.bytes.take cut
      = (putUint32 r.ts ++ putUint32 r.key.length ++ putUint32 r.val.length) ++ r.key
          ++ r.val.take (cut - (DataFileEntryHdrLen + r.key.length)) := by
  have hl : ((putUint32 r.ts ++ putUint32 r.key.length ++ putUint32 r.val.length)
      ++ r.key).length = DataFileEntryHdrLen + r.key.length := by
    rw [List.length_append]
    rfl
  rw [Rec.bytes_eq r hkv, List.take_append_eq_append_take, hl,
    List.take_of_length_le (by rw [hl]; exact hcut)]

/-- The scan of a file whose last record is cut inside its header or inside
its value ends without an error; it has entered the complete records and, in
the second case, the last record too. -/
theorem scanData_torn_ok (f : TornFile) (kd : KeyDir)
    (hsmall : recsSmall f.recs)
    (hlast : f.last.ts < 4294967296 ∧ f.last.key.length + f.last.val.length < 4294967296)
    (hcut : f.inHeader ∨ f.inValue) :
    scanData f.id f.bytes (f.bytes.length + 1) 0 kd
      = Outcome.ok (indexRecs f.id f.visible.recs 0 kd) := by
  obtain ⟨fuel, hfuel⟩ : ∃ fuel, f.bytes.length + 1 = f.recs.length + (fuel + 1) := by
    have := encodeRecs_length_ge f.recs
    refine ⟨f.bytes.length - f.recs.length, ?_⟩
    simp only [TornFile.bytes, List.length_append]
    omega
  have hthrough := scanData_through f.id f.recs [] (f.last.bytes.take f.cut) kd
    (fuel + 1) hsmall
  simp only [List.nil_append, List.length_nil] at hthrough
  rw [hfuel]
  show scanData f.id (encodeRecs f.recs ++ f.last.bytes.take f.cut)
    (f.recs.length + (fuel + 1)) 0 kd = _
  rw [hthrough]
  rcases hcut with hh | hv
  · unfold TornFile.inHeader at hh
    have hvis : f.visible.recs = f.recs := by
      simp only [TornFile.visible]
      rw [if_neg (by omega)]
      simp
    rw [hvis]
    unfold scanData
    rw [FS.readAt_end _ _ _ (by decide)]
    simp only [List.length_append, List.length_take, DataFileEntryHdrLen] at hh ⊢
    omega
  · unfold TornFile.inValue at hv
    obtain ⟨hv1, hv2⟩ := hv
    have hvis : f.visible.recs = f.recs ++ [f.last] := by
      simp only [TornFile.visible]
      rw [if_pos hv1]
    rw [hvis, take_bytes_header f.last f.cut hlast.2 hv1]
    have hassoc : encodeRecs f.recs
        ++ ((putUint32 f.last.ts ++ putUint32 f.last.key.length ++ putUint32 f.last.val.length)
          ++ f.last.key ++ f.last.val.take (f.cut - (DataFileEntryHdrLen + f.last.key.length)))
        = encodeRecs f.recs
          ++ (putUint32 f.last.ts ++ putUint32 f.last.key.length
            ++ putUint32 f.last.val.length)
          ++ f.last.key ++ f.last.val.take (f.cut - (DataFileEntryHdrLen + f.last.key.length)) := by
      simp
    rw [hassoc, scanData_step f.id (encodeRecs f.recs) _ f.last _ fuel hlast.1 hlast.2]
    have hend : ∀ kd2, scanData f.id
        (encodeRecs f.recs
          ++ (putUint32 f.last.ts ++ putUint32 f.last.key.length
            ++ putUint32 f.last.val.length)
          ++ f.last.key ++ f.last.val.take (f.cut - (DataFileEntryHdrLen + f.last.key.length)))
        fuel ((encodeRecs f.recs).length + 12 + f.last.key.length + f.last.val.length) kd2
        = Outcome.ok kd2 := by
      intro kd2
      cases fuel with
      | zero => rfl
      | succ fuel2 =>
        unfold scanData
        rw [FS.readAt_end _ _ _ (by decide)]
        rw [Rec.bytes_length] at hv2
        simp only [List.length_append, List.length_take, DataFileEntryHdrLen, putUint32_length]
          at hv1 hv2 ⊢
        omega
    rw [hend, indexRecs_concat]
    simp only [Nat.zero_add]
    rw [Nat.mod_eq_of_lt (show f.last.val.length < 4294967296 by omega)]

/-- The scan of a file whose last record is cut inside its key returns the error
of the failed read of the key. -/
theorem scanData_torn_key (f : TornFile) (kd : KeyDir)
    (hsmall : recsSmall f.recs)
    (hlast : f.last.ts < 4294967296 ∧ f.last.key.length + f.last.val.length < 4294967296)
    (hcut : f.inKey) :
    scanData f.id f.bytes (f.bytes.length + 1) 0 kd = Outcome.error Error.read := by
  obtain ⟨fuel, hfuel⟩ : ∃ fuel, f.bytes.length + 1 = f.recs.length + (fuel + 1) := by
    have := encodeRecs_length_ge f.recs
    refine ⟨f.bytes.length - f.recs.length, ?_⟩
    simp only [TornFile.bytes, List.length_append]
    omega
  have hthrough := scanData_through f.id f.recs [] (f.last.bytes.take f.cut) kd
    (fuel + 1) hsmall
  simp only [List.nil_append, List.length_nil] at hthrough
  rw [hfuel]
  show scanData f.id (encodeRecs f.recs ++ f.last.bytes.take f.cut)
    (f.recs.length + (fuel + 1)) 0 kd = _
  rw [hthrough]
  unfold TornFile.inKey at hcut
  obtain ⟨hc1, hc2⟩ := hcut
  have h12 : (putUint32 f.last.ts ++ putUint32 f.last.key.length
      ++ putUint32 f.last.val.length).length = DataFileEntryHdrLen := rfl
  have htake : f.last.bytes.take f.cut
      = (putUint32 f.last.ts ++ putUint32 f.last.key.length ++ putUint32 f.last.val.length)
          ++ f.last.key.take (f.cut - DataFileEntryHdrLen) := by
    rw [Rec.bytes_eq f.last hlast.2, List.append_assoc, List.take_append_eq_append_take, h12,
      List.take_of_length_le (by rw [h12]; exact hc1),
      List.take_append_of_le_length (by omega)]
  have hread1 : FS.readAt (encodeRecs f.recs ++ f.last.bytes.take f.cut)
      (encodeRecs f.recs).length DataFileEntryHdrLen
      = some (putUint32 f.last.ts ++ putUint32 f.last.key.length
          ++ putUint32 f.last.val.length) := by
    rw [htake, ← List.append_assoc, ← h12]
    exact FS.readAt_mid _ _ _
  have hf2 : ((putUint32 f.last.ts ++ putUint32 f.last.key.length
      ++ putUint32 f.last.val.length).drop 4).take 4 = putUint32 f.last.key.length := by
    simp [putUint32]
  have hread2 : FS.readAt (encodeRecs f.recs ++ f.last.bytes.take f.cut)
      ((encodeRecs f.recs).length + DataFileEntryHdrLen) f.last.key.length = none := by
    apply FS.readAt_end
    · omega
    · rw [htake]
      simp only [List.length_append, List.length_take, h12]
      omega
  unfold scanData
  simp only [hread1, hf2, uint32LE_putUint32 f.last.key.length (by omega), hread2]

/-! ## A directory of data files with torn tails -/

theorem TornFile.cut_cases (f : TornFile) (h : f.cut < f.last.bytes.length) :
    f.inHeader ∨ f.inKey ∨ f.inValue := by
  unfold TornFile.inHeader TornFile.inKey TornFile.inValue
  omega

theorem tornFS_names (T : List TornFile) :
    (tornFS T).map Prod.fst = (T.map (fun f => f.id)).map dataName := by
  simp [tornFS, List.map_map, Function.comp_def]

theorem readDir_tornFS (T : List TornFile) :
    ∃ ids1 : List Nat, ids1.Perm (T.map (fun f => f.id)) ∧
      FS.readDir (tornFS T) = ids1.map dataName := by
  refine ⟨List.insertionSort (fun i j => FS.nameLe (dataName i) (dataName j) = true)
    (T.map (fun f => f.id)), List.perm_insertionSort _ _, ?_⟩
  unfold FS.readDir FS.sortBy
  rw [tornFS_names]
  exact (List.map_insertionSort _ _ dataName _ (fun a _ b _ => Iff.rfl)).symm

theorem tornFS_read (T : List TornFile) (hnodup : (T.map (fun f => f.id)).Nodup)
    (f : TornFile) (hf : f ∈ T) : (tornFS T).read (dataName f.id) = some f.bytes := by
  induction T with
  | nil => simp at hf
  | cons g rest ih =>
    simp only [List.map_cons, List.nodup_cons] at hnodup
    rcases List.mem_cons.mp hf with h | h
    · subst h
      simp [tornFS, FS.read]
    · have hne : ¬ dataName g.id = dataName f.id := by
        intro heq
        have := dataName_injective _ _ heq
        exact hnodup.1 (this ▸ List.mem_map_of_mem _ h)
      have := ih hnodup.2 h
      simp only [tornFS, List.map_cons, FS.read, hne, if_false] at this ⊢
      exact this

/-- The second loop of `buildKeyDir` on one data file with a torn tail: the read
error when the cut is inside the key of the last record, the records whose
header and key are complete otherwise. -/
theorem processFile_torn (fs : FS) (f : TornFile) (kd : KeyDir)
    (hread : fs.read (dataName f.id) = some f.bytes)
    (hsmall : recsSmall f.recs)
    (hlast : f.last.ts < 4294967296 ∧ f.last.key.length + f.last.val.length < 4294967296)
    (hcut : f.cut < f.last.bytes.length) :
    processFile fs [] (mkInfo f.id) kd
      = if f.inKey then Outcome.error Error.read
        else Outcome.ok (indexRecs f.id f.visible.recs 0 kd) := by
  unfold processFile
  have h1 : ¬ (mkInfo f.id).ftype = strHint := by
    simp only [mkInfo]
    decide
  rw [if_neg h1, if_neg (by simp)]
  simp only [mkInfo, hread]
  by_cases hk : f.inKey
  · rw [if_pos hk]
    exact scanData_torn_key f kd hsmall hlast hk
  · rw [if_neg hk]
    refine scanData_torn_ok f kd hsmall hlast ?_
    rcases f.cut_cases hcut with h | h | h
    · exact Or.inl h
    · exact absurd h hk
    · exact Or.inr h

theorem processFiles_torn (fs : FS) (S : List TornFile) (kd : KeyDir)
    (h : ∀ f ∈ S, fs.read (dataName f.id) = some f.bytes ∧ recsSmall f.recs ∧
      (f.last.ts < 4294967296 ∧ f.last.key.length + f.last.val.length < 4294967296) ∧
      f.cut < f.last.bytes.length) :
    processFiles fs [] (S.map (fun f => mkInfo f.id)) kd
      = if ∃ f ∈ S, f.inKey then Outcome.error Error.read
        else Outcome.ok (indexLog (S.map TornFile.visible) kd) := by
  induction S generalizing kd with
  | nil => simp [processFiles, indexLog]
  | cons f rest ih =>
    obtain ⟨hread, hsmall, hlast, hcut⟩ := h f (List.mem_cons_self _ _)
    have hfile := processFile_torn fs f kd hread hsmall hlast hcut
    by_cases hk : f.inKey
    · rw [if_pos hk] at hfile
      rw [if_pos ⟨f, List.mem_cons_self _ _, hk⟩]
      simp only [List.map_cons, processFiles, hfile]
    · rw [if_neg hk] at hfile
      simp only [List.map_cons, processFiles, hfile, indexLog]
      rw [ih _ (fun g hg => h g (List.mem_cons_of_mem _ hg))]
      have hiff : (∃ g ∈ f :: rest, g.inKey) ↔ ∃ g ∈ rest, g.inKey := by
        constructor
        · rintro ⟨g, hg, hgk⟩
          rcases List.mem_cons.mp hg with h1 | h1
          · subst h1
            exact absurd hgk hk
          · exact ⟨g, h1, hgk⟩
        · rintro ⟨g, hg, hgk⟩
          exact ⟨g, List.mem_cons_of_mem _ hg, hgk⟩
      by_cases hex : ∃ g ∈ rest, g.inKey
      · rw [if_pos hex, if_pos (hiff.mpr hex)]
      · rw [if_neg hex, if_neg (fun hc => hex (hiff.mp hc))]
        rfl

theorem sortLog_map_visible (T : List TornFile) :
    (FS.sortBy (fun a b : TornFile => decide (a.id ≤ b.id)) T).map TornFile.visible
      = sortLog (T.map TornFile.visible) := by
  unfold sortLog FS.sortBy
  exact List.map_insertionSort _ _ TornFile.visible T (fun a _ b _ => Iff.rfl)

theorem map_visible_id (S : List TornFile) :
    (S.map TornFile.visible).map (fun f => f.id) = S.map (fun f => f.id) := by
  simp [List.map_map, Function.comp_def, TornFile.visible]

/-- `buildKeyDir` on a directory of data files with torn tails, in whatever
order the directory holds them: the read error when one of the files is cut
inside the key of its last record; otherwise the key directory of the records
whose header and key are complete, the files taken in ascending order of id. -/
theorem buildKeyDir_tornFS (T : List TornFile) (env : Env)
    (hnodup : (T.map (fun f => f.id)).Nodup)
    (hfiles : ∀ f ∈ T, f.id < 4294967296 ∧ recsSmall f.recs ∧
      (f.last.ts < 4294967296 ∧ f.last.key.length + f.last.val.length < 4294967296) ∧
      f.cut < f.last.bytes.length)
    (hread : env.readDirFails = false) :
    buildKeyDir (tornFS T) env
      = if ∃ f ∈ T, f.inKey then Outcome.error Error.read
        else Outcome.ok (indexLog (sortLog (T.map TornFile.visible)) []) := by
  obtain ⟨ids1, hperm, hdir⟩ := readDir_tornFS T
  have hlt : ∀ i ∈ ids1, i < 4294967296 := by
    intro i hi
    obtain ⟨f, hf, rfl⟩ := List.mem_map.mp (hperm.subset hi)
    exact (hfiles f hf).1
  have hSperm : (FS.sortBy (fun a b : TornFile => decide (a.id ≤ b.id)) T).Perm T := by
    unfold FS.sortBy
    exact List.perm_insertionSort _ T
  have hnodupV : ((T.map TornFile.visible).map (fun f => f.id)).Nodup := by
    rw [map_visible_id]
    exact hnodup
  have hsorted := sortLog_ids_sorted (T.map TornFile.visible) hnodupV
  rw [← sortLog_map_visible, map_visible_id] at hsorted
  have hperm2 : ids1.Perm
      ((FS.sortBy (fun a b : TornFile => decide (a.id ≤ b.id)) T).map (fun f => f.id)) :=
    hperm.trans (hSperm.map (fun f => f.id)).symm
  unfold buildKeyDir
  simp only [hread, Bool.false_eq_true, if_false, hdir, fileInfos_dataNames ids1 hlt,
    sortBy_id_of_perm _ ids1 hperm2 hsorted]
  have hnohint : (((FS.sortBy (fun a b : TornFile => decide (a.id ≤ b.id)) T).map
      (fun f => f.id)).map mkInfo).filter (fun f => f.ftype = strHint) = [] := by
    rw [List.filter_eq_nil_iff]
    intro a ha
    obtain ⟨i, _, rfl⟩ := List.mem_map.mp ha
    have hne : strData ≠ strHint := by decide
    simp [mkInfo, hne]
  rw [hnohint, List.map_map]
  have hproc := processFiles_torn (tornFS T)
    (FS.sortBy (fun a b : TornFile => decide (a.id ≤ b.id)) T) []
    (fun f hf => ⟨tornFS_read T hnodup f (hSperm.subset hf),
      (hfiles f (hSperm.subset hf)).2⟩)
  rw [sortLog_map_visible] at hproc
  have hiff : (∃ f ∈ FS.sortBy (fun a b : TornFile => decide (a.id ≤ b.id)) T, f.inKey)
      ↔ ∃ f ∈ T, f.inKey := by
    constructor
    · rintro ⟨f, hf, hk⟩
      exact ⟨f, hSperm.subset hf, hk⟩
    · rintro ⟨f, hf, hk⟩
      exact ⟨f, hSperm.symm.subset hf, hk⟩
  by_cases hex : ∃ f ∈ T, f.inKey
  · rw [if_pos hex]
    rw [if_pos (hiff.mpr hex)] at hproc
    exact hproc
  · rw [if_neg hex]
    rw [if_neg (fun hc => hex (hiff.mp hc))] at hproc
    exact hproc

/-! ## Opening a directory with torn tails -/

theorem TornFile.mem_visible (f : TornFile) (x : Rec) (hx : x ∈ f.visible.recs)
    (hcut : f.cut < f.last.bytes.length) : x ∈ f.recs ∨ (x = f.last ∧ f.inValue) := by
  simp only [TornFile.visible, List.mem_append] at hx
  rcases hx with h | h
  · exact Or.inl h
  · by_cases hc : DataFileEntryHdrLen + f.last.key.length ≤ f.cut
    · rw [if_pos hc] at h
      exact Or.inr ⟨List.mem_singleton.mp h, hc, hcut⟩
    · rw [if_neg hc] at h
      simp at h

/-- `Get` of a key whose locator points at a complete record of its file. -/
theorem Get_of_record (n : Nord) (fid ts : Nat) (pre post : Bytes) (r : Rec)
    (hkv : r.key.length + r.val.length < 4294967296) (hv : r.val ≠ [])
    (hkd : n.keyDir.get r.key
      = some { FileId := fid, ValueSz := r.val.length, ValuePos := pre.length, Timestamp := ts })
    (hfile : n.fs.read (dataName fid) = some (pre ++ r.bytes ++ post)) :
    Get n r.key = (r.val, true) := by
  have hne : r.val.length ≠ 0 := fun h => hv (List.length_eq_zero.mp h)
  have hbytes : pre ++ r.bytes ++ post
      = (pre ++ (putUint32 r.ts ++ putUint32 r.key.length ++ putUint32 r.val.length) ++ r.key)
          ++ r.val ++ post := by
    rw [Rec.bytes_eq r hkv]
    simp only [List.append_assoc]
  have hlen : (pre ++ (putUint32 r.ts ++ putUint32 r.key.length ++ putUint32 r.val.length)
      ++ r.key).length = pre.length + 12 + r.key.length := by
    simp only [List.length_append, putUint32_length]
  have hread := FS.readAt_mid
    (pre ++ (putUint32 r.ts ++ putUint32 r.key.length ++ putUint32 r.val.length) ++ r.key)
    r.val post
  rw [hlen, ← hbytes] at hread
  unfold Get
  simp only [hkd, hne, if_false, hfile, hread]

/-- The torn files of a directory the index builder gets through: distinct
`uint32` ids, no file longer than `2 ^ 32` bytes, `uint32` timestamps, and a last
record that is really cut short. -/
theorem tornFS_small (T : List TornFile)
    (hfiles : ∀ f ∈ T, f.id < 4294967296 ∧ f.bytes.length ≤ 4294967296 ∧
      (∀ r ∈ f.recs, r.ts < 4294967296) ∧ f.last.ts < 4294967296 ∧
      f.last.key.length + f.last.val.length < 4294967296 ∧ f.cut < f.last.bytes.length) :
    ∀ f ∈ T, f.id < 4294967296 ∧ recsSmall f.recs ∧
      (f.last.ts < 4294967296 ∧ f.last.key.length + f.last.val.length < 4294967296) ∧
      f.cut < f.last.bytes.length := by
  intro f hf
  obtain ⟨hid, hlen, hts, hlts, hlkv, hcut⟩ := hfiles f hf
  refine ⟨hid, fun r hr => ⟨hts r hr, ?_⟩, ⟨hlts, hlkv⟩, hcut⟩
  have h1 := mem_encodeRecs_length f.recs r hr
  rw [Rec.bytes_length] at h1
  simp only [TornFile.bytes, List.length_append] at hlen
  omega

/-- C14 as stated fails when the cut is inside a key: `5.data` holds the record
`"1" -> "Nikit"` followed by the record `"abc" -> "v"` with its last 3 bytes
removed; `buildKeyDir` returns the read error of the key and `NewNord`
panics. -/
theorem C14_cut_inside_key :
    tornFS tornInKey
        = [(dataName 5,
            (encodeRecs [{ ts := 6, key := key1, val := valNikit },
                         { ts := 6, key := [97, 98, 99], val := [118] }]).dropLast.dropLast.dropLast)] ∧
      buildKeyDir (tornFS tornInKey) (Env.at 9) = Outcome.error Error.read ∧
      NewNord (tornFS tornInKey) 128 (Env.at 9) = Outcome.panic := by
  decide

/-- C14, amended: for every directory of data files (distinct `uint32` ids, no
hint files, `uint32` timestamps, no file longer than `2 ^ 32` bytes) each of which
is a sequence of complete records followed by a truncated final record: when one
of the files is cut inside the key of its last record, `buildKeyDir` returns the
read error and `NewNord` panics; when every file is cut inside the header or
inside the value of its last record, `buildKeyDir` and `NewNord` succeed, and
every key whose last record (the cut records with a complete key counted) is
complete and has a non-empty value is indexed at that record and `Get` returns
its value. -/
theorem C14_torn_tail (T : List TornFile) (env : Env) (maxFileSize : Nat)
    (hnodup : (T.map (fun f => f.id)).Nodup)
    (hfiles : ∀ f ∈ T, f.id < 4294967296 ∧ f.bytes.length ≤ 4294967296 ∧
      (∀ r ∈ f.recs, r.ts < 4294967296) ∧ f.last.ts < 4294967296 ∧
      f.last.key.length + f.last.val.length < 4294967296 ∧ f.cut < f.last.bytes.length)
    (hread : env.readDirFails = false) (hopen : env.openFails = false) :
    ((∃ f ∈ T, f.inKey) →
        buildKeyDir (tornFS T) env = Outcome.error Error.read ∧
        NewNord (tornFS T) maxFileSize env = Outcome.panic) ∧
      ((∀ f ∈ T, f.inHeader ∨ f.inValue) →
        ∃ n, NewNord (tornFS T) maxFileSize env = Outcome.ok n ∧
          buildKeyDir (tornFS T) env = Outcome.ok n.keyDir ∧
          ∀ f ∈ T, ∀ pre r post, f.recs = pre ++ r :: post → r.val ≠ [] →
            (∀ x ∈ post, x.key ≠ r.key) → (f.inValue → f.last.key ≠ r.key) →
            (∀ g ∈ T, f.id < g.id →
              (∀ x ∈ g.recs, x.key ≠ r.key) ∧ (g.inValue → g.last.key ≠ r.key)) →
            n.keyDir.get r.key
                = some { FileId := f.id, ValueSz := r.val.length,
                         ValuePos := (encodeRecs pre).length, Timestamp := r.ts } ∧
              Get n r.key = (r.val, true)) := by
  have hsmall := tornFS_small T hfiles
  have hbuild := buildKeyDir_tornFS T env hnodup hsmall hread
  constructor
  · intro hex
    rw [if_pos hex] at hbuild
    refine ⟨hbuild, ?_⟩
    simp only [NewNord, Open, hbuild]
  · intro hcuts
    have hno : ¬ ∃ f ∈ T, f.inKey := by
      rintro ⟨f, hf, hk⟩
      unfold TornFile.inKey at hk
      rcases hcuts f hf with h | h
      · unfold TornFile.inHeader at h
        omega
      · unfold TornFile.inValue at h
        omega
    rw [if_neg hno] at hbuild
    refine ⟨{ fs := (tornFS T).create (dataName (env.now % 4294967296))
              keyDir := indexLog (sortLog (T.map TornFile.visible)) []
              activeFileId := env.now % 4294967296
              activeFile := some (dataName (env.now % 4294967296))
              writePos := 0
              MaxFileSize := maxFileSize }, ?_, hbuild, ?_⟩
    · simp only [NewNord, Open, hbuild, hopen, Bool.false_eq_true, if_false]
    · intro f hf pre r post hrecs hv hpost hlast hlater
      obtain ⟨_, hlen, _, _, _, hcut⟩ := hfiles f hf
      have hfs : f.visible ∈ sortLog (T.map TornFile.visible) :=
        (sortLog_perm _).symm.subset (List.mem_map_of_mem _ hf)
      obtain ⟨A, B, hAB⟩ := List.append_of_mem hfs
      have hsorted := sortLog_ids_sorted (T.map TornFile.visible)
        (by rw [map_visible_id]; exact hnodup)
      rw [hAB] at hsorted
      simp only [List.map_append, List.map_cons, List.pairwise_append, List.pairwise_cons]
        at hsorted
      have hB : ∀ g ∈ B, ∀ x ∈ g.recs, x.key ≠ r.key := by
        intro g hg x hx
        have hgV : g ∈ T.map TornFile.visible :=
          (sortLog_perm _).subset (by rw [hAB]; simp [hg])
        obtain ⟨t, ht, rfl⟩ := List.mem_map.mp hgV
        have hlt : f.id < t.id := hsorted.2.1.1 t.visible.id (List.mem_map_of_mem _ hg)
        obtain ⟨h1, h2⟩ := hlater t ht hlt
        rcases t.mem_visible x hx (hfiles t ht).2.2.2.2.2 with h | ⟨h, hin⟩
        · exact h1 x h
        · rw [h]
          exact h2 hin
      have hvis : f.visible.recs = pre ++ r :: (post ++
          (if DataFileEntryHdrLen + f.last.key.length ≤ f.cut then [f.last] else [])) := by
        simp only [TornFile.visible, hrecs, List.append_assoc, List.cons_append]
      have hpost2 : ∀ x ∈ post ++
          (if DataFileEntryHdrLen + f.last.key.length ≤ f.cut then [f.last] else []),
          x.key ≠ r.key := by
        intro x hx
        rcases List.mem_append.mp hx with h | h
        · exact hpost x h
        · by_cases hc : DataFileEntryHdrLen + f.last.key.length ≤ f.cut
          · rw [if_pos hc] at h
            rw [List.mem_singleton.mp h]
            exact hlast ⟨hc, hcut⟩
          · rw [if_neg hc] at h
            simp at h
      have hget := indexLog_get_last A B f.visible pre _ r hvis hpost2 hB
      rw [← hAB] at hget
      have hlen2 : (encodeRecs pre).length + (12 + r.key.length + r.val.length)
          ≤ 4294967296 := by
        simp only [TornFile.bytes, hrecs, encodeRecs_append, encodeRecs, List.length_append,
          Rec.bytes_length] at hlen
        omega
      rw [Nat.mod_eq_of_lt (by omega), Nat.mod_eq_of_lt (by omega)] at hget
      have hget2 : (indexLog (sortLog (T.map TornFile.visible)) []).get r.key
          = some { FileId := f.id, ValueSz := r.val.length,
                   ValuePos := (encodeRecs pre).length, Timestamp := r.ts } := hget
      refine ⟨hget2, ?_⟩
      refine Get_of_record _ f.id r.ts (encodeRecs pre)
        (encodeRecs post ++ f.last.bytes.take f.cut) r (by omega) hv hget2 ?_
      show ((tornFS T).create (dataName (env.now % 4294967296))).read (dataName f.id) = _
      rw [FS.read_create_of_some _ _ _ _ (tornFS_read T hnodup f hf)]
      simp only [TornFile.bytes, hrecs, encodeRecs_append, encodeRecs, List.append_assoc]

/-- C14, amended, at a directory with `7.data` (`"3" -> "Gen"`, then 5 bytes of a
header) and `5.data` (`"1" -> "Nikit"`, then the record `"2" -> "Nick"` without
its last 3 bytes): the store opens, and the keys `1` and `3` are read back. -/
theorem C14_torn_tail_witness :
    ∃ n, NewNord (tornFS tornInValue) 128 (Env.at 9) = Outcome.ok n ∧
      Get n key1 = (valNikit, true) ∧ Get n key3 = (valGen, true) := by
  obtain ⟨n, hopen, _, hkeys⟩ := (C14_torn_tail tornInValue (Env.at 9) 128
    (by decide) (by decide) rfl rfl).2 (by decide)
  refine ⟨n, hopen, ?_, ?_⟩
  · exact (hkeys { id := 5, recs := [{ ts := 6, key := key1, val := valNikit }],
                   last := { ts := 6, key := key2, val := valNick }, cut := 14 } (by decide)
      [] { ts := 6, key := key1, val := valNikit } [] rfl (by decide) (by decide) (by decide)
      (by decide)).2
  · exact (hkeys { id := 7, recs := [{ ts := 7, key := key3, val := valGen }],
                   last := { ts := 8, key := key1, val := valNick }, cut := 5 } (by decide)
      [] { ts := 7, key := key3, val := valGen } [] rfl (by decide) (by decide) (by decide)
      (by decide)).2

/-! ## Names the index builders do not expect -/

theorem Split_no_dot (name : Bytes) (h : ∀ b ∈ name, b.val ≠ 46) : Split name = [name] := by
  unfold Split
  rw [splitAux_no_dot name [] h]
  rfl

theorem fileInfos_dotless (files : List Bytes) (name : Bytes) (hmem : name ∈ files)
    (h : ∀ b ∈ name, b.val ≠ 46) : fileInfos files = none := by
  induction files with
  | nil => simp at hmem
  | cons a rest ih =>
    rcases List.mem_cons.mp hmem with h1 | h1
    · subst h1
      simp only [fileInfos, getFileInfo, Split_no_dot name h]
    · have hrest := ih h1
      unfold fileInfos
      rw [hrest]
      cases getFileInfo a with
      | none => rfl
      | some p => rfl

theorem nameFields_dotless (files : List Bytes) (name : Bytes) (hmem : name ∈ files)
    (h : ∀ b ∈ name, b.val ≠ 46) : nameFields files = none := by
  induction files with
  | nil => simp at hmem
  | cons a rest ih =>
    rcases List.mem_cons.mp hmem with h1 | h1
    · subst h1
      simp only [nameFields, Split_no_dot name h]
    · have hrest := ih h1
      unfold nameFields
      rw [hrest]
      split
      · rename_i hh
        simp at hh
      · rfl

/-- A name without a dot makes both index builders panic: `f[1]` is read before
any test of `len(f)`. -/
theorem dotless_name_panics (fs : FS) (env : Env) (hread : env.readDirFails = false)
    (name : Bytes) (hmem : name ∈ fs.map Prod.fst) (h : ∀ b ∈ name, b.val ≠ 46) :
    buildKeyDir fs env = Outcome.panic ∧ BuildKeyDir fs env = Outcome.panic := by
  constructor
  · unfold buildKeyDir
    rw [fileInfos_dotless _ name ((FS.mem_readDir fs name).mpr hmem) h]
    simp [hread]
  · unfold BuildKeyDir
    simp only [hread, Bool.false_eq_true, if_false]
    rw [nameFields_dotless _ name
      ((FS.mem_sortBy _ _ name).mpr ((FS.mem_readDir fs name).mpr hmem)) h]

/-- The second loop of `BuildKeyDir` does not get past an entry that is not a
hint file and whose first field is not the decimal text of a `uint32`. -/
theorem scanEntries_bad_stem (fs : FS) (fileMap : List Bytes) (files : List Bytes)
    (kd : KeyDir) (name f0 f1 : Bytes) (tl : List Bytes) (hmem : name ∈ files)
    (hsplit : Split name = f0 :: f1 :: tl) (hkind : f1 ≠ strHint)
    (hparse : ParseUint32 f0 = none) :
    ∀ kd1, scanEntries fs fileMap files kd ≠ Outcome.ok kd1 := by
  induction files generalizing kd with
  | nil => simp at hmem
  | cons a rest ih =>
    intro kd1
    by_cases ha : a = name
    · subst ha
      simp [scanEntries, hsplit, hkind, hparse]
    · have hrest : name ∈ rest := by
        rcases List.mem_cons.mp hmem with h1 | h1
        · exact absurd h1.symm ha
        · exact h1
      unfold scanEntries
      split
      · split
        · exact ih _ hrest kd1
        · split
          · simp
          · split
            · split
              · simp
              · split
                · exact ih _ hrest kd1
                · simp
                · simp
            · split
              · simp
              · split
                · exact ih _ hrest kd1
                · simp
                · simp
      · exact ih _ hrest kd1

/-- `BuildKeyDir` never returns a key directory for a directory with such an
entry. -/
theorem BuildKeyDir_bad_stem (fs : FS) (env : Env) (name f0 f1 : Bytes) (tl : List Bytes)
    (hmem : name ∈ fs.map Prod.fst)
    (hsplit : Split name = f0 :: f1 :: tl) (hkind : f1 ≠ strHint)
    (hparse : ParseUint32 f0 = none) :
    ∀ kd, BuildKeyDir fs env ≠ Outcome.ok kd := by
  intro kd
  unfold BuildKeyDir
  split
  · simp
  · simp only
    split
    · simp
    · exact scanEntries_bad_stem fs _ _ [] name f0 f1 tl
        ((FS.mem_sortBy _ _ name).mpr ((FS.mem_readDir fs name).mpr hmem)) hsplit hkind hparse kd

/-- `buildKeyDir` on a directory with one entry that is not a hint file: the
file is scanned as a data file under the id `uint32(Atoi(f[0]))`. -/
theorem buildKeyDir_single (name content f0 f1 : Bytes) (tl : List Bytes) (env : Env)
    (hread : env.readDirFails = false)
    (hsplit : Split name = f0 :: f1 :: tl) (hkind : f1 ≠ strHint) :
    buildKeyDir [(name, content)] env
      = scanData (toUint32 (Atoi f0)) content (content.length + 1) 0 [] := by
  have hdir : FS.readDir [(name, content)] = [name] := rfl
  have hsort : ∀ x : FileInfo, FS.sortBy (fun a b => decide (a.id ≤ b.id)) [x] = [x] :=
    fun _ => rfl
  unfold buildKeyDir
  simp only [hread, Bool.false_eq_true, if_false, hdir, fileInfos, getFileInfo, hsplit, hsort,
    List.filter, hkind, decide_False, List.map_nil, processFiles, processFile, if_false,
    List.not_mem_nil, FS.read, if_true]
  cases scanData (toUint32 (Atoi f0)) content (content.length + 1) 0 [] <;> rfl

/-- What `strconv.Atoi` returns for stems that are not numbers: 0 for `foo` (a
syntax error), and the largest `int` for `99999999999999999999x`, where the
range error is found at the twentieth digit, before the `x` is looked at; as
file ids these are 0 and 4294967295. -/
theorem Atoi_not_a_number :
    AtoiErr [102, 111, 111] = (0, some NumError.malformed) ∧
      AtoiErr stemNines = (9223372036854775807, some NumError.outOfRange) ∧
      toUint32 (Atoi [102, 111, 111]) = 0 ∧
      toUint32 (Atoi stemNines) = 4294967295 := by
  decide

/-- C15 as stated fails: on the directory that holds only `foo.data` (one record,
`"1" -> "Nikit"`), `buildKeyDir` enters the key `1` under the file id 0, while on
the directory without that file it returns the empty key directory, and
`BuildKeyDir` returns the error of `strconv.ParseUint`; on the directory that
holds only `LOCK`, a name without a dot, both builders panic. -/
theorem C15_foo_data_not_skipped :
    buildKeyDir dirFoo (Env.at 9)
        = Outcome.ok [(key1, { FileId := 0, ValueSz := 5, ValuePos := 0, Timestamp := 6 })] ∧
      buildKeyDir (dirFoo.remove ([102, 111, 111] ++ dotData)) (Env.at 9) = Outcome.ok [] ∧
      BuildKeyDir dirFoo (Env.at 9) = Outcome.error Error.parse ∧
      buildKeyDir dirLock (Env.at 9) = Outcome.panic ∧
      BuildKeyDir dirLock (Env.at 9) = Outcome.panic := by
  decide

/-- C15, amended: the index builders do not skip an entry `<stem>.<kind>` whose
kind is not `hint`, whatever its stem. For every directory listing that
`os.ReadDir` returns: if it has such an entry whose stem is not the decimal text
of a `uint32`, `BuildKeyDir` returns no key directory (it fails, with the error of
`strconv.ParseUint` when it gets to that entry); and when the entry is the only
one of the directory and holds complete records, `buildKeyDir` enters every
record of the file under the id `uint32(Atoi(stem))`, the value `strconv.Atoi`
returns with its error dropped: 0 for a stem it rejects with a syntax error
(such as `foo`), 4294967295 for one it rejects with a range error (such as
`99999999999999999999x`). -/
theorem C15_names_not_skipped (fs : FS) (env : Env) (hread : env.readDirFails = false) :
    (∀ name ∈ fs.map Prod.fst, ∀ f0 f1 tl, Split name = f0 :: f1 :: tl → f1 ≠ strHint →
        ParseUint32 f0 = none → ∀ kd, BuildKeyDir fs env ≠ Outcome.ok kd) ∧
      (∀ name f0 f1 tl recs, fs = [(name, encodeRecs recs)] → Split name = f0 :: f1 :: tl →
        f1 ≠ strHint → recsSmall recs →
        buildKeyDir fs env = Outcome.ok (indexRecs (toUint32 (Atoi f0)) recs 0 [])) := by
  constructor
  · intro name hmem f0 f1 tl hsplit hkind hparse
    exact BuildKeyDir_bad_stem fs env name f0 f1 tl hmem hsplit hkind hparse
  · intro name f0 f1 tl recs hfs hsplit hkind hsmall
    subst hfs
    rw [buildKeyDir_single name _ f0 f1 tl env hread hsplit hkind]
    exact scanData_file _ recs [] hsmall

/-- C15, amended, at the directory that holds only `foo.data`: `BuildKeyDir`
does not return the empty key directory, and `buildKeyDir` returns the key
directory with the key `1` under the file id 0; and at the directory that holds
only `99999999999999999999x.data`: `buildKeyDir` returns the key directory with
the key `1` under the file id 4294967295. -/
theorem C15_names_not_skipped_witness :
    (Env.at 9).readDirFails = false ∧
      BuildKeyDir dirFoo (Env.at 9) ≠ Outcome.ok [] ∧
      buildKeyDir dirFoo (Env.at 9)
        = Outcome.ok (indexRecs (toUint32 (Atoi [102, 111, 111]))
            [{ ts := 6, key := key1, val := valNikit }] 0 []) ∧
      toUint32 (Atoi [102, 111, 111]) = 0 ∧
      buildKeyDir dirNines (Env.at 9)
        = Outcome.ok (indexRecs (toUint32 (Atoi stemNines))
            [{ ts := 6, key := key1, val := valNikit }] 0 []) ∧
      toUint32 (Atoi stemNines) = 4294967295 :=
  ⟨rfl,
   (C15_names_not_skipped dirFoo (Env.at 9) rfl).1 ([102, 111, 111] ++ dotData) (by decide)
     [102, 111, 111] strData [] (by decide) (by decide) (by decide) [],
   (C15_names_not_skipped dirFoo (Env.at 9) rfl).2 ([102, 111, 111] ++ dotData)
     [102, 111, 111] strData [] [{ ts := 6, key := key1, val := valNikit }] rfl (by decide)
     (by decide) (by unfold recsSmall; decide),
   by decide,
   (C15_names_not_skipped dirNines (Env.at 9) rfl).2 (stemNines ++ dotData)
     stemNines strData [] [{ ts := 6, key := key1, val := valNikit }] rfl (by decide)
     (by decide) (by unfold recsSmall; decide),
   by decide⟩

/-! ## Scanning a hint file -/

theorem hintBytes_eq (ts : Nat) (r : Rec) (pos : Nat) (hk : r.key.length < 4294967296) :
    hintBytes ts r pos
      = (putUint32 ts ++ putUint32 r.key.length ++ putUint32 r.val.length
          ++ putUint32 (pos % 4294967296)) ++ r.key := by
  simp [hintBytes, HintFileEntry.Serialize, Nat.mod_eq_of_lt hk]

theorem hintBytes_length (ts : Nat) (r : Rec) (pos : Nat) :
    (hintBytes ts r pos).length = 16 + r.key.length := by
  simp [hintBytes, HintFileEntry.Serialize, putUint32]
  omega

/-- One iteration of the scan of a hint file at a complete hint record. -/
theorem scanHint_step (fid : Nat) (pre rest : Bytes) (ts pos : Nat) (r : Rec) (kd : KeyDir)
    (fuel : Nat) (hts : ts < 4294967296)
    (hkv : r.key.length + r.val.length < 4294967296) :
    scanHint fid (pre ++ hintBytes ts r pos ++ rest) (fuel + 1) pre.length kd
      = scanHint fid (pre ++ hintBytes ts r pos ++ rest) fuel
          (pre ++ hintBytes ts r pos).length
          (kd.set r.key
            { FileId := fid, ValueSz := r.val.length, ValuePos := pos % 4294967296,
              Timestamp := ts }) := by
  have hcontent : pre ++ hintBytes ts r pos ++ rest
      = pre ++ (putUint32 ts ++ putUint32 r.key.length ++ putUint32 r.val.length
          ++ putUint32 (pos % 4294967296)) ++ r.key ++ rest := by
    rw [hintBytes_eq ts r pos (by omega)]
    simp only [List.append_assoc]
  have h16 : (putUint32 ts ++ putUint32 r.key.length ++ putUint32 r.val.length
      ++ putUint32 (pos % 4294967296)).length = HintFileEntryHdrLen := rfl
  have hread1 : FS.readAt (pre ++ hintBytes ts r pos ++ rest) pre.length HintFileEntryHdrLen
      = some (putUint32 ts ++ putUint32 r.key.length ++ putUint32 r.val.length
          ++ putUint32 (pos % 4294967296)) := by
    rw [hcontent, ← h16, List.append_assoc (pre ++ _)]
    exact FS.readAt_mid _ _ _
  have hread2 : FS.readAt (pre ++ hintBytes ts r pos ++ rest)
      (pre.length + HintFileEntryHdrLen) r.key.length = some r.key := by
    have hl : (pre ++ (putUint32 ts ++ putUint32 r.key.length ++ putUint32 r.val.length
        ++ putUint32 (pos % 4294967296))).length = pre.length + HintFileEntryHdrLen := by
      rw [List.length_append, h16]
    rw [hcontent, ← hl]
    exact FS.readAt_mid _ _ _
  have hf1 : (putUint32 ts ++ putUint32 r.key.length ++ putUint32 r.val.length
      ++ putUint32 (pos % 4294967296)).take 4 = putUint32 ts := by
    simp [putUint32]
  have hf2 : ((putUint32 ts ++ putUint32 r.key.length ++ putUint32 r.val.length
      ++ putUint32 (pos % 4294967296)).drop 4).take 4 = putUint32 r.key.length := by
    simp [putUint32]
  have hf3 : ((putUint32 ts ++ putUint32 r.key.length ++ putUint32 r.val.length
      ++ putUint32 (pos % 4294967296)).drop 8).take 4 = putUint32 r.val.length := by
    simp [putUint32]
  have hf4 : ((putUint32 ts ++ putUint32 r.key.length ++ putUint32 r.val.length
      ++ putUint32 (pos % 4294967296)).drop 12).take 4 = putUint32 (pos % 4294967296) := by
    simp [putUint32]
  have hpos : pre.length + HintFileEntryHdrLen + r.key.length
      = (pre ++ hintBytes ts r pos).length := by
    rw [List.length_append, hintBytes_length]
    simp only [HintFileEntryHdrLen]
    omega
  conv => lhs; unfold scanHint
  simp only [hread1, hf1, hf2, hf3, hf4, uint32LE_putUint32 _ hts,
    uint32LE_putUint32 r.key.length (by omega), uint32LE_putUint32 r.val.length (by omega),
    uint32LE_putUint32 (pos % 4294967296) (Nat.mod_lt _ (by decide)), hread2, hpos]

/-- The scan runs through the hint records of a file and goes on at what follows
them. -/
theorem scanHint_through (fid : Nat) (copied : List (Nat × Rec)) (pos : Nat) (pre tail : Bytes)
    (kd : KeyDir) (fuel : Nat)
    (hsmall : ∀ c ∈ copied, c.1 < 4294967296 ∧ c.2.key.length + c.2.val.length < 4294967296) :
    scanHint fid (pre ++ encodeHints copied pos ++ tail) (copied.length + fuel) pre.length kd
      = scanHint fid (pre ++ encodeHints copied pos ++ tail) fuel
          (pre ++ encodeHints copied pos).length (indexHints fid copied pos kd) := by
  induction copied generalizing pre kd pos with
  | nil => simp [encodeHints, indexHints]
  | cons c rest ih =>
    obtain ⟨hts, hkv⟩ := hsmall c (List.mem_cons_self _ _)
    have hcontent : pre ++ encodeHints (c :: rest) pos ++ tail
        = pre ++ hintBytes c.1 c.2 pos ++ (encodeHints rest (pos + c.2.bytes.length) ++ tail) := by
      simp [encodeHints]
    have hnext : pre ++ encodeHints (c :: rest) pos ++ tail
        = (pre ++ hintBytes c.1 c.2 pos) ++ encodeHints rest (pos + c.2.bytes.length) ++ tail := by
      simp [encodeHints]
    have hfuel : (c :: rest).length + fuel = (rest.length + fuel) + 1 := by
      simp only [List.length_cons]
      omega
    rw [hfuel]
    conv => lhs; rw [hcontent]
    rw [scanHint_step fid pre _ c.1 pos c.2 kd _ hts hkv, ← hcontent, hnext,
      ih _ (pre ++ hintBytes c.1 c.2 pos) _ (fun x hx => hsmall x (List.mem_cons_of_mem _ hx))]
    simp only [indexHints, encodeHints, List.append_assoc]

theorem encodeHints_length_ge (copied : List (Nat × Rec)) (pos : Nat) :
    copied.length ≤ (encodeHints copied pos).length := by
  induction copied generalizing pos with
  | nil => simp
  | cons c rest ih =>
    have := ih (pos + c.2.bytes.length)
    simp only [encodeHints, List.length_cons, List.length_append, hintBytes_length]
    omega

/-- The scan of a hint file that holds complete hint records. -/
theorem scanHint_file (fid : Nat) (copied : List (Nat × Rec)) (kd : KeyDir)
    (hsmall : ∀ c ∈ copied, c.1 < 4294967296 ∧ c.2.key.length + c.2.val.length < 4294967296) :
    scanHint fid (encodeHints copied 0) ((encodeHints copied 0).length + 1) 0 kd
      = Outcome.ok (indexHints fid copied 0 kd) := by
  obtain ⟨fuel, hfuel⟩ : ∃ fuel,
      (encodeHints copied 0).length + 1 = copied.length + (fuel + 1) := by
    have := encodeHints_length_ge copied 0
    exact ⟨(encodeHints copied 0).length - copied.length, by omega⟩
  have h := scanHint_through fid copied 0 [] [] kd (fuel + 1) hsmall
  simp only [List.nil_append, List.append_nil, List.length_nil] at h
  rw [hfuel, h]
  unfold scanHint
  rw [FS.readAt_end _ _ _ (by decide) (by simp [HintFileEntryHdrLen])]

/-- Entering hint records and entering the records they were written for give
the same key directory, timestamps apart. -/
theorem indexHints_eraseTs (fid : Nat) (copied : List (Nat × Rec)) (pos : Nat)
    (kd1 kd2 : KeyDir) (hkd : kd1.eraseTs = kd2.eraseTs)
    (hsmall : ∀ c ∈ copied, c.2.val.length < 4294967296) :
    (indexHints fid copied pos kd1).eraseTs
      = (indexRecs fid (copied.map Prod.snd) pos kd2).eraseTs := by
  induction copied generalizing pos kd1 kd2 with
  | nil => exact hkd
  | cons c rest ih =>
    simp only [indexHints, List.map_cons, indexRecs]
    apply ih _ _ _ _ (fun x hx => hsmall x (List.mem_cons_of_mem _ hx))
    rw [KeyDir.eraseTs_set, KeyDir.eraseTs_set, hkd,
      Nat.mod_eq_of_lt (hsmall c (List.mem_cons_self _ _))]
    rfl

/-! ## The data file and the hint file of a merge -/

theorem pointsAt_frame (fs fs1 : FS) (key : Bytes) (e : KeyDirEntry) (r : Rec)
    (hread : fs1.read (dataName e.FileId) = fs.read (dataName e.FileId))
    (h : pointsAt fs key e r) : pointsAt fs1 key e r := by
  obtain ⟨h1, h2, h3, h4, content, h5, h6⟩ := h
  exact ⟨h1, h2, h3, h4, content, by rw [hread]; exact h5, h6⟩

/-- The copying loop of `Merge`, started with the merged data file holding `D`
and `writePos` its length, on a key directory whose entries in the files to
merge point at records: it appends those records, in the order of the key
directory, to the data file and a hint record for each to the hint file, and
enters them in `newKeyDir`. -/
theorem copyLive_copied (toMerge : List Nat) (mergefid : Nat) (env : Env) (kd : KeyDir)
    (st st1 : MergeState) (D H : Bytes)
    (hD : st.fs.read (dataName mergefid) = some D)
    (hH : st.fs.read (hintName mergefid) = some H)
    (hpos : st.writePos = D.length)
    (hnot : mergefid ∉ toMerge)
    (hloc : ∀ p ∈ kd, p.2.FileId ∈ toMerge → ∃ r, pointsAt st.fs p.1 p.2 r)
    (hcopy : copyLive toMerge mergefid env kd st = some st1) :
    ∃ copied : List (Nat × Rec),
      copied.map (fun c => (c.2.key, c.2.val.length, c.1))
          = (kd.filter (fun p => p.2.FileId ∈ toMerge)).map
              (fun p => (p.1, p.2.ValueSz, p.2.Timestamp)) ∧
        (∀ c ∈ copied, c.2.ts < 4294967296 ∧ c.2.key.length + c.2.val.length < 4294967296) ∧
        st1.fs.read (dataName mergefid) = some (D ++ encodeRecs (copied.map Prod.snd)) ∧
        st1.fs.read (hintName mergefid) = some (H ++ encodeHints copied D.length) ∧
        st1.newKeyDir = indexHints mergefid copied D.length st.newKeyDir := by
  induction kd generalizing st D H with
  | nil =>
    simp only [copyLive, Option.some.injEq] at hcopy
    subst hcopy
    exact ⟨[], rfl, by simp, by simpa [encodeRecs] using hD, by simpa [encodeHints] using hH, rfl⟩
  | cons p kd ih =>
    obtain ⟨key, kdval⟩ := p
    by_cases hin : kdval.FileId ∈ toMerge
    · obtain ⟨r, hk, hv, hts, hkv, content, hread, hbuf⟩ :=
        hloc (key, kdval) (List.mem_cons_self _ _) hin
      simp only at hk hv hread hbuf
      unfold copyLive at hcopy
      simp only [hin, if_true, hread, hbuf] at hcopy
      split at hcopy
      · simp at hcopy
      · have hne : kdval.FileId ≠ mergefid := fun h => hnot (h ▸ hin)
        have hhint : (HintFileEntry.Serialize
            { Timestamp := kdval.Timestamp, Ksz := key.length % 4294967296,
              Vsz := kdval.ValueSz, ValPos := st.writePos % 4294967296, Key := key }).2
            = hintBytes kdval.Timestamp r D.length := by
          rw [← hk, ← hv, hpos]
          rfl
        rw [hhint] at hcopy
        have hD1 : ((st.fs.append (dataName mergefid) r.bytes).append (hintName mergefid)
            (hintBytes kdval.Timestamp r D.length)).read (dataName mergefid)
            = some (D ++ r.bytes) := by
          rw [FS.read_append_other _ _ _ _ (dataName_ne_hintName _ _), FS.read_append_self, hD]
          rfl
        have hH1 : ((st.fs.append (dataName mergefid) r.bytes).append (hintName mergefid)
            (hintBytes kdval.Timestamp r D.length)).read (hintName mergefid)
            = some (H ++ hintBytes kdval.Timestamp r D.length) := by
          rw [FS.read_append_self,
            FS.read_append_other _ _ _ _ (fun h => dataName_ne_hintName _ _ h.symm), hH]
          rfl
        have hpos1 : st.writePos + (12 + key.length + kdval.ValueSz) = (D ++ r.bytes).length := by
          rw [List.length_append, Rec.bytes_length, hpos, hk, hv]
        obtain ⟨copied, hmap, hsmall, hDf, hHf, hkdf⟩ := ih _ (D ++ r.bytes)
          (H ++ hintBytes kdval.Timestamp r D.length) hD1 hH1 hpos1
          (fun q hq hqin => by
            obtain ⟨rq, hrq⟩ := hloc q (List.mem_cons_of_mem _ hq) hqin
            refine ⟨rq, pointsAt_frame st.fs _ q.1 q.2 rq ?_ hrq⟩
            have hqne : q.2.FileId ≠ mergefid := fun h => hnot (h ▸ hqin)
            rw [FS.read_append_other _ _ _ _ (dataName_ne_hintName _ _),
              FS.read_append_other _ _ _ _ (fun h => hqne (dataName_injective _ _ h))])
          hcopy
        refine ⟨(kdval.Timestamp, r) :: copied, ?_, ?_, ?_, ?_, ?_⟩
        · simp only [List.map_cons, List.filter_cons, hin, decide_True, if_true, hmap, hk, hv]
        · intro c hc
          rcases List.mem_cons.mp hc with h | h
          · subst h
            exact ⟨hts, hkv⟩
          · exact hsmall c h
        · rw [hDf]
          simp only [List.map_cons, encodeRecs, List.append_assoc]
        · rw [hHf]
          simp only [encodeHints, List.append_assoc, List.length_append]
        · rw [hkdf]
          simp only [indexHints, List.length_append, hk, hv, hpos]
    · unfold copyLive at hcopy
      simp only [hin, if_false] at hcopy
      obtain ⟨copied, hmap, hsmall, hDf, hHf, hkdf⟩ := ih st D H hD hH hpos
        (fun q hq hqin => hloc q (List.mem_cons_of_mem _ hq) hqin) hcopy
      refine ⟨copied, ?_, hsmall, hDf, hHf, hkdf⟩
      simp only [List.filter_cons, hin, decide_False, hmap]
      rfl

/-! ## Sorting a listing with an entry left out -/

theorem filter_orderedInsert {α : Type} (r : α → α → Prop) [DecidableRel r] [IsTrans α r]
    (p : α → Bool) (a : α) (l : List α) (hl : l.Sorted r) :
    (l.orderedInsert r a).filter p
      = if p a then (l.filter p).orderedInsert r a else l.filter p := by
  induction l with
  | nil =>
    cases hp : p a <;> simp [hp]
  | cons b l ih =>
    have hl1 : l.Sorted r := hl.of_cons
    by_cases hab : r a b
    · have hall : ∀ c ∈ (b :: l).filter p, r a c := by
        intro c hc
        rcases List.mem_cons.mp (List.mem_filter.mp hc).1 with h | h
        · rw [h]
          exact hab
        · exact IsTrans.trans a b c hab (List.rel_of_sorted_cons hl c h)
      rw [List.orderedInsert_of_le r _ hab]
      cases hp : p a
      · simp [hp]
      · simp only [List.filter_cons_of_pos hp, if_true]
        cases hf : (b :: l).filter p with
        | nil => rfl
        | cons x xs =>
          rw [List.orderedInsert_of_le r _ (hall x (by rw [hf]; exact List.mem_cons_self _ _))]
    · have hins : (b :: l).orderedInsert r a = b :: l.orderedInsert r a := by
        simp [List.orderedInsert, hab]
      rw [hins]
      cases hb : p b
      · rw [List.filter_cons_of_neg (by simp [hb]), List.filter_cons_of_neg (by simp [hb])]
        exact ih hl1
      · rw [List.filter_cons_of_pos hb, List.filter_cons_of_pos hb, ih hl1]
        cases hp : p a
        · simp
        · simp [List.orderedInsert, hab]

/-- A stable sort of a listing with some entries left out is the stable sort of
the listing with those entries left out. -/
theorem filter_sortBy {α : Type} (le : α → α → Bool)
    (htotal : ∀ a b, le a b = true ∨ le b a = true)
    (htrans : ∀ a b c, le a b = true → le b c = true → le a c = true)
    (p : α → Bool) (l : List α) :
    (FS.sortBy le l).filter p = FS.sortBy le (l.filter p) := by
  haveI : IsTotal α (fun a b => le a b = true) := ⟨htotal⟩
  haveI : IsTrans α (fun a b => le a b = true) := ⟨htrans⟩
  unfold FS.sortBy
  induction l with
  | nil => rfl
  | cons a l ih =>
    rw [List.insertionSort, filter_orderedInsert _ p a _ (List.sorted_insertionSort _ l), ih]
    cases hp : p a
    · rw [List.filter_cons_of_neg (by simp [hp])]
      simp
    · rw [List.filter_cons_of_pos hp]
      simp [List.insertionSort]

theorem FS.nameLe_total (a b : Bytes) : FS.nameLe a b = true ∨ FS.nameLe b a = true := by
  induction a generalizing b with
  | nil => exact Or.inl (by cases b <;> rfl)
  | cons x xs ih =>
    cases b with
    | nil => exact Or.inr rfl
    | cons y ys =>
      simp only [FS.nameLe]
      by_cases h1 : x.val < y.val
      · simp [h1]
      · by_cases h2 : y.val < x.val
        · simp [h2]
        · simp only [h1, h2, if_false]
          exact ih ys

theorem FS.nameLe_trans (a b c : Bytes) (hab : FS.nameLe a b = true)
    (hbc : FS.nameLe b c = true) : FS.nameLe a c = true := by
  induction a generalizing b c with
  | nil => cases c <;> rfl
  | cons x xs ih =>
    cases b with
    | nil => simp [FS.nameLe] at hab
    | cons y ys =>
      cases c with
      | nil => simp [FS.nameLe] at hbc
      | cons z zs =>
        simp only [FS.nameLe] at hab hbc ⊢
        by_cases h1 : x.val < y.val
        · by_cases h2 : y.val < z.val
          · simp [show x.val < z.val by omega]
          · by_cases h3 : z.val < y.val
            · simp [h2, h3] at hbc
            · simp [show x.val < z.val by omega]
        · by_cases h1b : y.val < x.val
          · simp [h1, h1b] at hab
          · simp only [h1, h1b, if_false] at hab
            by_cases h2 : y.val < z.val
            · simp [show x.val < z.val by omega]
            · by_cases h3 : z.val < y.val
              · simp [h2, h3] at hbc
              · simp only [h2, h3, if_false] at hbc
                simp only [show ¬ x.val < z.val by omega, show ¬ z.val < x.val by omega,
                  if_false]
                exact ih ys zs hab hbc

theorem FS.names_remove_filter (fs : FS) (x : Bytes) (h : (fs.map Prod.fst).Nodup) :
    (fs.remove x).map Prod.fst = (fs.map Prod.fst).filter (fun n => decide (n ≠ x)) := by
  induction fs with
  | nil => rfl
  | cons p rest ih =>
    obtain ⟨n0, d0⟩ := p
    simp only [List.map_cons, List.nodup_cons] at h
    by_cases h0 : n0 = x
    · subst h0
      simp only [FS.remove, if_true, List.map_cons]
      rw [List.filter_cons_of_neg (by simp)]
      symm
      rw [List.filter_eq_self]
      intro a ha
      have : a ≠ n0 := fun hc => h.1 (hc ▸ ha)
      simpa using this
    · simp only [FS.remove, h0, if_false, List.map_cons]
      rw [List.filter_cons_of_pos (by simpa using h0), ih h.2]

/-- The listing of a directory with a file removed. -/
theorem FS.readDir_remove (fs : FS) (x : Bytes) (h : (fs.map Prod.fst).Nodup) :
    FS.readDir (fs.remove x) = (FS.readDir fs).filter (fun n => decide (n ≠ x)) := by
  unfold FS.readDir
  rw [FS.names_remove_filter fs x h, filter_sortBy _ FS.nameLe_total FS.nameLe_trans]

/-! ## Index builds that differ in timestamps only -/

theorem scanData_eraseTs (fid : Nat) (content : Bytes) (fuel pos : Nat) (kd1 kd2 : KeyDir)
    (hkd : kd1.eraseTs = kd2.eraseTs) :
    (scanData fid content fuel pos kd1).eraseTs = (scanData fid content fuel pos kd2).eraseTs := by
  induction fuel generalizing pos kd1 kd2 with
  | zero => simp only [scanData, Outcome.eraseTs, hkd]
  | succ fuel ih =>
    unfold scanData
    cases FS.readAt content pos DataFileEntryHdrLen with
    | none => simp only [Outcome.eraseTs, hkd]
    | some buf =>
      simp only
      cases FS.readAt content (pos + DataFileEntryHdrLen) (uint32LE ((buf.drop 4).take 4)) with
      | none => rfl
      | some key =>
        simp only
        apply ih
        rw [KeyDir.eraseTs_set, KeyDir.eraseTs_set, hkd]

theorem scanHint_eraseTs (fid : Nat) (content : Bytes) (fuel pos : Nat) (kd1 kd2 : KeyDir)
    (hkd : kd1.eraseTs = kd2.eraseTs) :
    (scanHint fid content fuel pos kd1).eraseTs = (scanHint fid content fuel pos kd2).eraseTs := by
  induction fuel generalizing pos kd1 kd2 with
  | zero => simp only [scanHint, Outcome.eraseTs, hkd]
  | succ fuel ih =>
    unfold scanHint
    cases FS.readAt content pos HintFileEntryHdrLen with
    | none => simp only [Outcome.eraseTs, hkd]
    | some buf =>
      simp only
      cases FS.readAt content (pos + HintFileEntryHdrLen) (uint32LE ((buf.drop 4).take 4)) with
      | none => rfl
      | some key =>
        simp only
        apply ih
        rw [KeyDir.eraseTs_set, KeyDir.eraseTs_set, hkd]

/-- The loop of `buildKeyDir` goes on in the same way after two outcomes that
differ in timestamps only. -/
theorem processFiles_cons_eraseTs (fs1 fs2 : FS) (hm1 hm2 : List Nat) (e1 e2 : FileInfo)
    (rest1 rest2 : List FileInfo) (kd1 kd2 : KeyDir)
    (hfile : (processFile fs1 hm1 e1 kd1).eraseTs = (processFile fs2 hm2 e2 kd2).eraseTs)
    (hrest : ∀ a b : KeyDir, a.eraseTs = b.eraseTs →
      (processFiles fs1 hm1 rest1 a).eraseTs = (processFiles fs2 hm2 rest2 b).eraseTs) :
    (processFiles fs1 hm1 (e1 :: rest1) kd1).eraseTs
      = (processFiles fs2 hm2 (e2 :: rest2) kd2).eraseTs := by
  unfold processFiles
  cases h1 : processFile fs1 hm1 e1 kd1 with
  | ok a =>
    cases h2 : processFile fs2 hm2 e2 kd2 with
    | ok b =>
      rw [h1, h2] at hfile
      simp only [Outcome.eraseTs, Outcome.ok.injEq] at hfile
      exact hrest a b hfile
    | error e => simp [h1, h2, Outcome.eraseTs] at hfile
    | panic => simp [h1, h2, Outcome.eraseTs] at hfile
  | error e =>
    cases h2 : processFile fs2 hm2 e2 kd2 with
    | ok b => simp [h1, h2, Outcome.eraseTs] at hfile
    | error e0 =>
      rw [h1, h2] at hfile
      exact hfile
    | panic => simp [h1, h2, Outcome.eraseTs] at hfile
  | panic =>
    cases h2 : processFile fs2 hm2 e2 kd2 with
    | ok b => simp [h1, h2, Outcome.eraseTs] at hfile
    | error e0 => simp [h1, h2, Outcome.eraseTs] at hfile
    | panic => rfl

/-- The loop of `buildKeyDir` over a listing of well-formed names, on a directory
where `<m>.data` holds records and `<m>.hint` their hint records, and the same
loop on the directory and the listing without `<m>.hint`: the outcomes differ
in timestamps only. -/
theorem processFiles_hint_removed (fs : FS) (m : Nat) (copied : List (Nat × Rec))
    (hm1 hm2 : List Nat) (files : List FileInfo) (kd1 kd2 : KeyDir)
    (hD : fs.read (dataName m) = some (encodeRecs (copied.map Prod.snd)))
    (hH : fs.read (hintName m) = some (encodeHints copied 0))
    (hsmall : ∀ c ∈ copied, c.1 < 4294967296 ∧ c.2.ts < 4294967296 ∧
      c.2.key.length + c.2.val.length < 4294967296)
    (hin : m ∈ hm1) (hout : m ∉ hm2) (hother : ∀ i, i ≠ m → (i ∈ hm1 ↔ i ∈ hm2))
    (hfiles : ∀ e ∈ files, ∃ id, e = mkInfo id ∨ e = hintInfo id)
    (hkd : kd1.eraseTs = kd2.eraseTs) :
    (processFiles fs hm1 files kd1).eraseTs
      = (processFiles (fs.remove (hintName m)) hm2
          (files.filter (fun e => decide (e.name ≠ hintName m))) kd2).eraseTs := by
  induction files generalizing kd1 kd2 with
  | nil => simp only [List.filter_nil, processFiles, Outcome.eraseTs, hkd]
  | cons e rest ih =>
    have hrest : ∀ a b : KeyDir, a.eraseTs = b.eraseTs →
        (processFiles fs hm1 rest a).eraseTs
          = (processFiles (fs.remove (hintName m)) hm2
              (rest.filter (fun e => decide (e.name ≠ hintName m))) b).eraseTs :=
      fun a b hab => ih a b (fun x hx => hfiles x (List.mem_cons_of_mem _ hx)) hab
    obtain ⟨id, hid | hid⟩ := hfiles e (List.mem_cons_self _ _)
    · -- a data file
      subst hid
      have hkeep : (mkInfo id :: rest).filter (fun e => decide (e.name ≠ hintName m))
          = mkInfo id :: rest.filter (fun e => decide (e.name ≠ hintName m)) := by
        apply List.filter_cons_of_pos
        simp only [mkInfo, decide_eq_true_eq]
        exact dataName_ne_hintName _ _
      rw [hkeep]
      refine processFiles_cons_eraseTs _ _ _ _ _ _ _ _ _ _ ?_ hrest
      have hkind : ¬ (mkInfo id).ftype = strHint := by
        simp only [mkInfo]
        decide
      unfold processFile
      rw [if_neg hkind, if_neg hkind]
      by_cases hidm : id = m
      · subst hidm
        rw [if_pos (by simpa [mkInfo] using hin), if_neg (by simpa [mkInfo] using hout)]
        simp only [mkInfo, hH]
        rw [FS.read_remove_other _ _ _ (dataName_ne_hintName _ _), hD]
        simp only
        rw [scanHint_file id copied kd1 (fun c hc => ⟨(hsmall c hc).1, (hsmall c hc).2.2⟩),
          scanData_file id _ kd2 (fun r hr => by
            obtain ⟨c, hc, rfl⟩ := List.mem_map.mp hr
            exact (hsmall c hc).2)]
        simp only [Outcome.eraseTs, Outcome.ok.injEq]
        exact indexHints_eraseTs id copied 0 kd1 kd2 hkd
          (fun c hc => by have := (hsmall c hc).2.2; omega)
      · have hiff := hother id hidm
        by_cases hh : id ∈ hm1
        · rw [if_pos (by simpa [mkInfo] using hh), if_pos (by simpa [mkInfo] using hiff.mp hh)]
          simp only [mkInfo]
          rw [FS.read_remove_other _ _ _
            (fun h => hidm (hintName_injective _ _ h))]
          cases fs.read (hintName id) with
          | none => rfl
          | some c => exact scanHint_eraseTs id c _ 0 kd1 kd2 hkd
        · rw [if_neg (by simpa [mkInfo] using hh),
            if_neg (by simpa [mkInfo] using fun h => hh (hiff.mpr h))]
          simp only [mkInfo]
          rw [FS.read_remove_other _ _ _ (dataName_ne_hintName _ _)]
          cases fs.read (dataName id) with
          | none => rfl
          | some c => exact scanData_eraseTs id c _ 0 kd1 kd2 hkd
    · -- a hint file
      subst hid
      have hskip : ∀ (fs0 : FS) (hm : List Nat) (kd : KeyDir),
          processFile fs0 hm (hintInfo id) kd = Outcome.ok kd := by
        intro fs0 hm kd
        simp [processFile, hintInfo]
      by_cases hidm : id = m
      · subst hidm
        have hdrop : (hintInfo id :: rest).filter (fun e => decide (e.name ≠ hintName id))
            = rest.filter (fun e => decide (e.name ≠ hintName id)) := by
          apply List.filter_cons_of_neg
          simp [hintInfo]
        have hl : processFiles fs hm1 (hintInfo id :: rest) kd1
            = processFiles fs hm1 rest kd1 := by
          simp only [processFiles, hskip]
        rw [hdrop, hl]
        exact hrest kd1 kd2 hkd
      · have hkeep : (hintInfo id :: rest).filter (fun e => decide (e.name ≠ hintName m))
            = hintInfo id :: rest.filter (fun e => decide (e.name ≠ hintName m)) := by
          apply List.filter_cons_of_pos
          simp only [hintInfo, decide_eq_true_eq]
          exact fun h => hidm (hintName_injective _ _ h)
        rw [hkeep]
        refine processFiles_cons_eraseTs _ _ _ _ _ _ _ _ _ _ ?_ hrest
        rw [hskip, hskip]
        simp only [Outcome.eraseTs, hkd]

theorem fileInfos_filter (l : List Bytes) (infos : List FileInfo) (p : Bytes → Bool)
    (h : fileInfos l = some infos) :
    fileInfos (l.filter p) = some (infos.filter (fun e => p e.name)) := by
  induction l generalizing infos with
  | nil =>
    simp only [fileInfos, Option.some.injEq] at h
    subst h
    rfl
  | cons name rest ih =>
    unfold fileInfos at h
    split at h
    · rename_i id ftype infos0 hinfo hrest
      simp only [Option.some.injEq] at h
      subst h
      have ih0 := ih infos0 hrest
      cases hp : p name
      · rw [List.filter_cons_of_neg (by simp [hp]), ih0]
        congr 1
        symm
        apply List.filter_cons_of_neg
        simp [hp]
      · rw [List.filter_cons_of_pos hp]
        unfold fileInfos
        rw [hinfo, ih0]
        simp only [Option.some.injEq]
        symm
        apply List.filter_cons_of_pos
        exact hp
    · simp at h

theorem fileInfos_canonical (l : List Bytes)
    (hcan : ∀ name ∈ l, ∃ id, id < 4294967296 ∧ (name = dataName id ∨ name = hintName id)) :
    ∃ infos, fileInfos l = some infos ∧
      ∀ e, e ∈ infos ↔ ∃ id, id < 4294967296 ∧
        ((e = mkInfo id ∧ dataName id ∈ l) ∨ (e = hintInfo id ∧ hintName id ∈ l)) := by
  induction l with
  | nil => exact ⟨[], rfl, by simp⟩
  | cons name rest ih =>
    obtain ⟨infos, hinfos, hmem⟩ := ih (fun x hx => hcan x (List.mem_cons_of_mem _ hx))
    obtain ⟨id, hid, hname⟩ := hcan name (List.mem_cons_self _ _)
    rcases hname with hname | hname
    · subst hname
      refine ⟨mkInfo id :: infos, by
        simp only [fileInfos, getFileInfo_dataName id hid, hinfos, mkInfo], ?_⟩
      intro e
      simp only [List.mem_cons, hmem]
      constructor
      · rintro (h | ⟨j, hj, h⟩)
        · exact ⟨id, hid, Or.inl ⟨h, Or.inl rfl⟩⟩
        · rcases h with ⟨h1, h2⟩ | ⟨h1, h2⟩
          · exact ⟨j, hj, Or.inl ⟨h1, Or.inr h2⟩⟩
          · exact ⟨j, hj, Or.inr ⟨h1, Or.inr h2⟩⟩
      · rintro ⟨j, hj, h⟩
        rcases h with ⟨h1, h2 | h2⟩ | ⟨h1, h2 | h2⟩
        · left
          rw [h1, dataName_injective _ _ h2]
        · exact Or.inr ⟨j, hj, Or.inl ⟨h1, h2⟩⟩
        · exact absurd h2.symm (dataName_ne_hintName _ _)
        · exact Or.inr ⟨j, hj, Or.inr ⟨h1, h2⟩⟩
    · subst hname
      refine ⟨hintInfo id :: infos, by
        simp only [fileInfos, getFileInfo_hintName id hid, hinfos, hintInfo], ?_⟩
      intro e
      simp only [List.mem_cons, hmem]
      constructor
      · rintro (h | ⟨j, hj, h⟩)
        · exact ⟨id, hid, Or.inr ⟨h, Or.inl rfl⟩⟩
        · rcases h with ⟨h1, h2⟩ | ⟨h1, h2⟩
          · exact ⟨j, hj, Or.inl ⟨h1, Or.inr h2⟩⟩
          · exact ⟨j, hj, Or.inr ⟨h1, Or.inr h2⟩⟩
      · rintro ⟨j, hj, h⟩
        rcases h with ⟨h1, h2 | h2⟩ | ⟨h1, h2 | h2⟩
        · exact absurd h2 (dataName_ne_hintName _ _)
        · exact Or.inr ⟨j, hj, Or.inl ⟨h1, h2⟩⟩
        · left
          rw [h1, hintName_injective _ _ h2]
        · exact Or.inr ⟨j, hj, Or.inr ⟨h1, h2⟩⟩

/-- `buildKeyDir` on a directory of well-formed names where `<m>.data` holds
records and `<m>.hint` their hint records, and on the same directory without
`<m>.hint`: the outcomes differ in timestamps only. -/
theorem buildKeyDir_hint_removed (fs : FS) (env : Env) (m : Nat) (copied : List (Nat × Rec))
    (hcan : canonical fs) (hnodup : (fs.map Prod.fst).Nodup)
    (hD : fs.read (dataName m) = some (encodeRecs (copied.map Prod.snd)))
    (hH : fs.read (hintName m) = some (encodeHints copied 0))
    (hsmall : ∀ c ∈ copied, c.1 < 4294967296 ∧ c.2.ts < 4294967296 ∧
      c.2.key.length + c.2.val.length < 4294967296) :
    (buildKeyDir fs env).eraseTs = (buildKeyDir (fs.remove (hintName m)) env).eraseTs := by
  cases hread : env.readDirFails with
  | true => simp [buildKeyDir, hread]
  | false =>
    obtain ⟨infos, hinfos, hmem⟩ := fileInfos_canonical (FS.readDir fs)
      (fun name hname => hcan name ((FS.mem_readDir fs name).mp hname))
    have hinfos2 := fileInfos_filter (FS.readDir fs) infos (fun n => decide (n ≠ hintName m))
      hinfos
    have hle_total : ∀ a b : FileInfo,
        decide (a.id ≤ b.id) = true ∨ decide (b.id ≤ a.id) = true := by
      intro a b
      simp only [decide_eq_true_eq]
      omega
    have hle_trans : ∀ a b c : FileInfo, decide (a.id ≤ b.id) = true →
        decide (b.id ≤ c.id) = true → decide (a.id ≤ c.id) = true := by
      intro a b c hab hbc
      simp only [decide_eq_true_eq] at *
      omega
    have hsort := filter_sortBy (fun a b : FileInfo => decide (a.id ≤ b.id)) hle_total hle_trans
      (fun e => decide (e.name ≠ hintName m)) infos
    have hhmem : hintName m ∈ FS.readDir fs := by
      rw [FS.mem_readDir, ← FS.read_ne_none_iff, hH]
      simp
    have hfiles : ∀ e ∈ FS.sortBy (fun a b : FileInfo => decide (a.id ≤ b.id)) infos,
        ∃ id, e = mkInfo id ∨ e = hintInfo id := by
      intro e he
      obtain ⟨id, _, h⟩ := (hmem e).mp ((FS.mem_sortBy _ _ e).mp he)
      rcases h with ⟨h, _⟩ | ⟨h, _⟩
      · exact ⟨id, Or.inl h⟩
      · exact ⟨id, Or.inr h⟩
    have hkinds : ∀ e ∈ FS.sortBy (fun a b : FileInfo => decide (a.id ≤ b.id)) infos,
        e.ftype = strHint → e = hintInfo e.id := by
      intro e he hk
      obtain ⟨id, h | h⟩ := hfiles e he
      · rw [h] at hk
        simp only [mkInfo] at hk
        exact absurd hk (by decide)
      · rw [h]
        rfl
    unfold buildKeyDir
    rw [FS.readDir_remove fs _ hnodup]
    simp only [hread, Bool.false_eq_true, if_false, hinfos, hinfos2, ← hsort]
    apply processFiles_hint_removed fs m copied _ _ _ [] [] hD hH hsmall
    · -- the hint file of `m` is in the listing
      rw [List.mem_map]
      refine ⟨hintInfo m, ?_, rfl⟩
      rw [List.mem_filter]
      refine ⟨(FS.mem_sortBy _ _ _).mpr ((hmem _).mpr ?_), by simp [hintInfo]⟩
      obtain ⟨id, hid, hname⟩ := hcan (hintName m) ((FS.mem_readDir fs _).mp hhmem)
      rcases hname with h | h
      · exact absurd h.symm (dataName_ne_hintName _ _)
      · have := hintName_injective _ _ h
        subst this
        exact ⟨m, hid, Or.inr ⟨rfl, hhmem⟩⟩
    · -- and it is the only hint file of `m`
      rw [List.mem_map]
      rintro ⟨e, he, hid⟩
      obtain ⟨he1, hk⟩ := List.mem_filter.mp he
      obtain ⟨he2, hq⟩ := List.mem_filter.mp he1
      have := hkinds e he2 (by simpa using hk)
      rw [this, hid] at hq
      simp [hintInfo] at hq
    · intro i hi
      simp only [List.mem_map, List.mem_filter]
      constructor
      · rintro ⟨e, ⟨he, hk⟩, hid⟩
        refine ⟨e, ⟨⟨he, ?_⟩, hk⟩, hid⟩
        have := hkinds e he (by simpa using hk)
        rw [this, hid]
        simp only [hintInfo, decide_eq_true_eq]
        exact fun h => hi (hintName_injective _ _ h)
      · rintro ⟨e, ⟨⟨he, _⟩, hk⟩, hid⟩
        exact ⟨e, ⟨he, hk⟩, hid⟩
    · exact hfiles
    · rfl

/-! ## Opening the store with and without the hint file of a merge -/

theorem foldl_remove_nodup (ids : List Nat) (fs : FS) (h : (fs.map Prod.fst).Nodup) :
    ((ids.foldl (fun fs fid => FS.remove fs (dataName fid)) fs).map Prod.fst).Nodup := by
  induction ids generalizing fs with
  | nil => exact h
  | cons id ids ih =>
    simp only [List.foldl_cons]
    exact ih _ (FS.nodup_remove fs _ h)

/-- `Get` looks at the data files and at the key directory without its
timestamps. -/
theorem Get_of_reads (n1 n2 : Nord) (k : Bytes)
    (hfs : ∀ id, n1.fs.read (dataName id) = n2.fs.read (dataName id))
    (hkd : n1.keyDir.eraseTs = n2.keyDir.eraseTs) : Get n1 k = Get n2 k := by
  have h := KeyDir.get_eraseTs n1.keyDir k
  rw [hkd, KeyDir.get_eraseTs] at h
  unfold Get
  cases h1 : n1.keyDir.get k with
  | none =>
    rw [h1] at h
    cases h2 : n2.keyDir.get k with
    | none => rfl
    | some e2 => simp [h2] at h
  | some e1 =>
    rw [h1] at h
    cases h2 : n2.keyDir.get k with
    | none => simp [h2] at h
    | some e2 =>
      rw [h2] at h
      simp only [Option.map_some', Option.some.injEq, Bitcask.eraseTs,
        KeyDirEntry.mk.injEq, and_true] at h
      obtain ⟨hf, hs, hp⟩ := h
      simp only [hf, hs, hp, hfs]

theorem FS.read_remove_create (fs : FS) (x y z : Bytes) (h : y ≠ z) :
    ((fs.remove z).create x).read y = (fs.create x).read y := by
  by_cases hyx : y = x
  · subst hyx
    rw [FS.read_create_self, FS.read_create_self, FS.read_remove_other _ _ _ h]
  · rw [FS.read_create_other _ _ _ hyx, FS.read_create_other _ _ _ hyx,
      FS.read_remove_other _ _ _ h]

/-- When the index builds on a directory and on the directory without a hint
file differ in timestamps only, the stores opened on the two directories return
the same for every `Get`. -/
theorem NewNord_hint_removed (fs : FS) (m maxFileSize : Nat) (env : Env)
    (h : (buildKeyDir fs env).eraseTs = (buildKeyDir (fs.remove (hintName m)) env).eraseTs)
    (a : Nord) (ha : NewNord fs maxFileSize env = Outcome.ok a) :
    ∃ b, NewNord (fs.remove (hintName m)) maxFileSize env = Outcome.ok b ∧
      ∀ k, Get a k = Get b k := by
  obtain ⟨kd, hkd, hopen, hform⟩ := Open_ok_form _ a env ha
  simp only at hkd hform
  rw [hkd] at h
  cases hb : buildKeyDir (fs.remove (hintName m)) env with
  | ok kd2 =>
    rw [hb] at h
    simp only [Outcome.eraseTs, Outcome.ok.injEq] at h
    refine ⟨{ fs := (fs.remove (hintName m)).create (dataName (env.now % 4294967296))
              keyDir := kd2
              activeFileId := env.now % 4294967296
              activeFile := some (dataName (env.now % 4294967296))
              writePos := 0
              MaxFileSize := maxFileSize }, ?_, ?_⟩
    · simp only [NewNord, Open, hb, hopen, Bool.false_eq_true, if_false]
    · intro k
      subst hform
      apply Get_of_reads
      · intro id
        exact (FS.read_remove_create fs _ _ _ (dataName_ne_hintName _ _)).symm
      · exact h
  | error e => simp [hb, Outcome.eraseTs] at h
  | panic => simp [hb, Outcome.eraseTs] at h

/-! ## Hint equivalence -/

/-- C16 as stated fails on the timestamp: when the clock moved from second 6 to
second 7 between the two readings of `Put("1", "Nikit")`, `Merge` writes to
`9.data` the record of `"1"` with the timestamp 6 of its header and to `9.hint` a
hint record of `"1"` with the timestamp 7 of the key directory; the key directory
read from `9.hint` and the one scanned from `9.data` differ in it. -/
theorem C16_hint_timestamp_differs :
    (match Merge skewedFiles (Env.at 9) with
      | Outcome.ok (none, n1) => (n1.fs.read (dataName 9), n1.fs.read (hintName 9))
      | _ => (none, none))
        = (some (encodeRecs [{ ts := 6, key := key1, val := valNikit },
                             { ts := 7, key := key2, val := valNick }]),
           some (encodeHints [(7, { ts := 6, key := key1, val := valNikit }),
                              (7, { ts := 7, key := key2, val := valNick })] 0)) ∧
      scanHint 9 (encodeHints [(7, { ts := 6, key := key1, val := valNikit }),
                               (7, { ts := 7, key := key2, val := valNick })] 0) 100 0 []
        = Outcome.ok [(key1, { FileId := 9, ValueSz := 5, ValuePos := 0, Timestamp := 7 }),
                      (key2, { FileId := 9, ValueSz := 4, ValuePos := 18, Timestamp := 7 })] ∧
      scanData 9 (encodeRecs [{ ts := 6, key := key1, val := valNikit },
                              { ts := 7, key := key2, val := valNick }]) 100 0 []
        = Outcome.ok [(key1, { FileId := 9, ValueSz := 5, ValuePos := 0, Timestamp := 6 }),
                      (key2, { FileId := 9, ValueSz := 4, ValuePos := 18, Timestamp := 7 })] := by
  decide

/-- C16, amended: let `Merge` select more than one file and return nil, the
merged id being new (no `<merge_id>.data`, no `<merge_id>.hint` before, not the
id of a selected file), and let every entry of the key directory whose file is
selected point at a complete record of its key. Then `<merge_id>.data` holds
those records in the order of the key directory and `<merge_id>.hint` one hint
record for each, with the same key and value size, with `value_pos` the offset
of the header of that record in `<merge_id>.data` (cut to 32 bits) and with the
timestamp of the key directory entry (not necessarily that of the record); and
from any key directory, reading `<merge_id>.hint` and scanning `<merge_id>.data`
with the hint file removed give key directories that are equal timestamps
apart, so that `Get` returns the same for every key. When the names of the
directory are well formed and distinct, `buildKeyDir` on the whole directory
with and without `<merge_id>.hint` ends in the same way, with key directories
that are equal timestamps apart, and the stores `NewNord` opens on the two
directories return the same for every `Get`. -/
theorem C16_hint_equivalence (n n1 : Nord) (env : Env) (toMerge : List Nat) (mergefid : Nat)
    (hplan : mergePlan n = some (toMerge, mergefid))
    (hmany : 1 < toMerge.length)
    (hmerge : Merge n env = Outcome.ok (none, n1))
    (hnew : n.fs.read (dataName mergefid) = none ∧ n.fs.read (hintName mergefid) = none ∧
      mergefid ∉ toMerge)
    (hts : ∀ p ∈ n.keyDir, p.2.Timestamp < 4294967296)
    (hloc : ∀ p ∈ n.keyDir, p.2.FileId ∈ toMerge → ∃ r, pointsAt n.fs p.1 p.2 r) :
    ∃ copied : List (Nat × Rec),
      copied.map (fun c => (c.2.key, c.2.val.length, c.1))
          = (n.keyDir.filter (fun p => p.2.FileId ∈ toMerge)).map
              (fun p => (p.1, p.2.ValueSz, p.2.Timestamp)) ∧
        n1.fs.read (dataName mergefid) = some (encodeRecs (copied.map Prod.snd)) ∧
        n1.fs.read (hintName mergefid) = some (encodeHints copied 0) ∧
        (∀ kd0 hintMap hintMap1, mergefid ∈ hintMap → mergefid ∉ hintMap1 →
          processFile n1.fs hintMap (mkInfo mergefid) kd0
              = Outcome.ok (indexHints mergefid copied 0 kd0) ∧
            processFile (n1.fs.remove (hintName mergefid)) hintMap1 (mkInfo mergefid) kd0
              = Outcome.ok (indexRecs mergefid (copied.map Prod.snd) 0 kd0) ∧
            (indexHints mergefid copied 0 kd0).eraseTs
              = (indexRecs mergefid (copied.map Prod.snd) 0 kd0).eraseTs ∧
            ∀ k, Get { n1 with keyDir := indexHints mergefid copied 0 kd0 } k
              = Get { n1 with keyDir := indexRecs mergefid (copied.map Prod.snd) 0 kd0 } k) ∧
        (canonical n.fs → (n.fs.map Prod.fst).Nodup → ∀ (envB : Env) (maxFileSize : Nat),
          (buildKeyDir n1.fs envB).eraseTs
              = (buildKeyDir (n1.fs.remove (hintName mergefid)) envB).eraseTs ∧
            ∀ a, NewNord n1.fs maxFileSize envB = Outcome.ok a →
              ∃ b, NewNord (n1.fs.remove (hintName mergefid)) maxFileSize envB = Outcome.ok b ∧
                ∀ k, Get a k = Get b k) := by
  obtain ⟨hnoD, hnoH, hnot⟩ := hnew
  have hdir : env.readDirFails = false := by
    cases h : env.readDirFails with
    | false => rfl
    | true =>
      unfold Merge at hmerge
      simp [h] at hmerge
  rw [Merge_of_plan n env toMerge mergefid hdir hplan, if_neg (by omega)] at hmerge
  split at hmerge
  · simp at hmerge
  · split at hmerge
    · simp at hmerge
    · split at hmerge
      · simp at hmerge
      · rename_i st hcopy
        simp only [Outcome.ok.injEq, Prod.mk.injEq, true_and] at hmerge
        subst hmerge
        have hD0 : ((n.fs.create (dataName mergefid)).create (hintName mergefid)).read
            (dataName mergefid) = some [] := by
          rw [FS.read_create_other _ _ _ (dataName_ne_hintName _ _), FS.read_create_self, hnoD]
          rfl
        have hH0 : ((n.fs.create (dataName mergefid)).create (hintName mergefid)).read
            (hintName mergefid) = some [] := by
          rw [FS.read_create_self,
            FS.read_create_other _ _ _ (fun h => dataName_ne_hintName _ _ h.symm), hnoH]
          rfl
        obtain ⟨copied, hmap, hsmall, hDf, hHf, _⟩ := copyLive_copied toMerge mergefid env
          n.keyDir _ st [] [] hD0 hH0 rfl hnot
          (fun p hp hin => by
            obtain ⟨r, hr⟩ := hloc p hp hin
            refine ⟨r, pointsAt_frame n.fs _ p.1 p.2 r ?_ hr⟩
            have hne : p.2.FileId ≠ mergefid := fun h => hnot (h ▸ hin)
            rw [FS.read_create_other _ _ _ (dataName_ne_hintName _ _),
              FS.read_create_other _ _ _ (fun h => hne (dataName_injective _ _ h))])
          hcopy
        simp only [List.nil_append, List.length_nil] at hDf hHf
        obtain ⟨hrem, _⟩ := foldl_remove_frame toMerge st.fs
        have hD1 : (toMerge.foldl (fun fs fid => FS.remove fs (dataName fid)) st.fs).read
            (dataName mergefid) = some (encodeRecs (copied.map Prod.snd)) := by
          rw [hrem _ (fun fid hfid h => hnot (by rw [dataName_injective mergefid fid h]; exact hfid)),
            hDf]
        have hH1 : (toMerge.foldl (fun fs fid => FS.remove fs (dataName fid)) st.fs).read
            (hintName mergefid) = some (encodeHints copied 0) := by
          rw [hrem _ (fun fid _ h => dataName_ne_hintName _ _ h.symm), hHf]
        have hsmallH : ∀ c ∈ copied,
            c.1 < 4294967296 ∧ c.2.key.length + c.2.val.length < 4294967296 := by
          intro c hc
          refine ⟨?_, (hsmall c hc).2⟩
          have hmem : (c.2.key, c.2.val.length, c.1)
              ∈ copied.map (fun c => (c.2.key, c.2.val.length, c.1)) :=
            List.mem_map_of_mem (fun c : Nat × Rec => (c.2.key, c.2.val.length, c.1)) hc
          rw [hmap] at hmem
          obtain ⟨p, hp, hpe⟩ := List.mem_map.mp hmem
          simp only [Prod.mk.injEq] at hpe
          rw [← hpe.2.2]
          exact hts p (List.mem_filter.mp hp).1
        have hsmallD : recsSmall (copied.map Prod.snd) := by
          intro r hr
          obtain ⟨c, hc, rfl⟩ := List.mem_map.mp hr
          exact hsmall c hc
        refine ⟨copied, hmap, hD1, hH1, ?_, ?_⟩
        swap
        · intro hcan hnodup envB maxFileSize
          obtain ⟨_, _, hm⟩ := mergePlan_bounds n toMerge mergefid hcan hplan
          obtain ⟨hcan1, _⟩ := Merge_result_dir n env toMerge mergefid st hcan hnodup hm hcopy
          have hnodup1 : ((toMerge.foldl (fun fs fid => FS.remove fs (dataName fid)) st.fs).map
              Prod.fst).Nodup := by
            apply foldl_remove_nodup
            rw [(copyLive_frame _ _ _ _ _ _ hcopy).2]
            exact FS.nodup_create _ _ (FS.nodup_create _ _ hnodup)
          have hbuild := buildKeyDir_hint_removed _ envB mergefid copied hcan1 hnodup1 hD1 hH1
            (fun c hc => ⟨(hsmallH c hc).1, (hsmall c hc).1, (hsmall c hc).2⟩)
          exact ⟨hbuild, fun a ha => NewNord_hint_removed _ mergefid maxFileSize envB hbuild a ha⟩
        intro kd0 hintMap hintMap1 hin hout
        have hkind : ¬ (mkInfo mergefid).ftype = strHint := by
          simp only [mkInfo]
          decide
        have hets := indexHints_eraseTs mergefid copied 0 kd0 kd0 rfl
          (fun c hc => by have := (hsmall c hc).2; omega)
        refine ⟨?_, ?_, hets, ?_⟩
        · unfold processFile
          rw [if_neg hkind, if_pos (by simpa [mkInfo] using hin)]
          simp only [mkInfo, hH1]
          exact scanHint_file mergefid copied kd0 hsmallH
        · unfold processFile
          rw [if_neg hkind, if_neg (by simpa [mkInfo] using hout)]
          simp only [mkInfo]
          rw [FS.read_remove_other _ _ _ (dataName_ne_hintName _ _), hD1]
          exact scanData_file mergefid _ kd0 hsmallD
        · intro k
          exact Get_eraseTs _ _ k rfl hets

/-- C16, amended, at the engine with `5.data`, `7.data` and the active `8.data`:
`Merge` writes `9.data` and `9.hint`; the key directory read from `9.hint` and the
one scanned from `9.data` are equal timestamps apart. -/
theorem C16_hint_equivalence_witness :
    Merge threeFiles (Env.at 9) = Outcome.ok (none, threeFilesMerged) ∧
      ∃ kdH kdD, processFile threeFilesMerged.fs [9] (mkInfo 9) [] = Outcome.ok kdH ∧
        processFile (threeFilesMerged.fs.remove (hintName 9)) [] (mkInfo 9) []
          = Outcome.ok kdD ∧
        kdH.eraseTs = kdD.eraseTs ∧
        ∃ a b, NewNord threeFilesMerged.fs 20 (Env.at 10) = Outcome.ok a ∧
          NewNord (threeFilesMerged.fs.remove (hintName 9)) 20 (Env.at 10) = Outcome.ok b ∧
          ∀ k, Get a k = Get b k := by
  obtain ⟨copied, _, _, _, h, hdirs⟩ := C16_hint_equivalence threeFiles threeFilesMerged (Env.at 9)
    [5, 7] 9 (by decide) (by decide) (by decide) (by decide) (by decide)
    (fun p hp hin => by
      have hkd : threeFiles.keyDir
          = [(key1, { FileId := 5, ValueSz := 5, ValuePos := 0, Timestamp := 6 }),
             (key2, { FileId := 7, ValueSz := 4, ValuePos := 0, Timestamp := 7 }),
             (key3, { FileId := 8, ValueSz := 3, ValuePos := 0, Timestamp := 8 })] := by
        decide
      rw [hkd] at hp
      simp only [List.mem_cons, List.mem_singleton, List.not_mem_nil, or_false] at hp
      rcases hp with h | h | h
      · subst h
        exact ⟨{ ts := 6, key := key1, val := valNikit }, rfl, rfl, by decide, by decide,
          Rec.bytes { ts := 6, key := key1, val := valNikit }, by decide, by decide⟩
      · subst h
        exact ⟨{ ts := 7, key := key2, val := valNick }, rfl, rfl, by decide, by decide,
          Rec.bytes { ts := 7, key := key2, val := valNick }, by decide, by decide⟩
      · subst h
        exact absurd hin (by decide))
  obtain ⟨h1, h2, h3, _⟩ := h [] [9] [] (by decide) (by decide)
  have hcan : canonical threeFiles.fs := by
    intro name hname
    have hn : threeFiles.fs.map Prod.fst = [dataName 5, dataName 7, dataName 8] := by
      decide
    rw [hn] at hname
    simp only [List.mem_cons, List.mem_singleton, List.not_mem_nil, or_false] at hname
    rcases hname with h | h | h
    · exact ⟨5, by decide, Or.inl h⟩
    · exact ⟨7, by decide, Or.inl h⟩
    · exact ⟨8, by decide, Or.inl h⟩
  obtain ⟨_, hopen⟩ := hdirs hcan (by decide) (Env.at 10) 20
  have hok : (match NewNord threeFilesMerged.fs 20 (Env.at 10) with
      | Outcome.ok _ => true
      | _ => false) = true := by
    decide
  cases ha : NewNord threeFilesMerged.fs 20 (Env.at 10) with
  | ok a =>
    obtain ⟨b, hb, hget⟩ := hopen a ha
    exact ⟨by decide, _, _, h1, h2, h3, a, b, rfl, hb, hget⟩
  | error e => simp [ha] at hok
  | panic => simp [ha] at hok

/-! ## A zero-length value -/

/-- C21: for every engine state, key and clock, when `Put(k, empty value)`
returns no error, the key directory holds an entry for `k` with `value_sz = 0`,
`Get(k)` reports not found (and returns the empty slice), and a following
`Delete(k)` leaves the key directory, and the whole engine state, unchanged. -/
theorem C21_empty_value_reads_as_deleted (n n1 : Nord) (k : Bytes) (env : Env)
    (h : Put n k [] env = (none, n1)) :
    (∃ e, n1.keyDir.get k = some e ∧ e.ValueSz = 0) ∧
      Get n1 k = ([], false) ∧
      (Delete n1 k).keyDir = n1.keyDir ∧ Delete n1 k = n1 := by
  obtain ⟨e, hsz, _, he⟩ := Put_ok_keyDir n n1 k [] env h
  have hz : e.ValueSz = 0 := by simpa using hsz
  refine ⟨⟨e, he, hz⟩, ?_, ?_, ?_⟩
  · simp [Get, he, hz]
  · simp [Delete, he, hz]
  · simp [Delete, he, hz]

/-- C21 at the engine opened on an empty directory with `MaxFileSize = 128`:
`Put("1", "")` returns no error, `Get("1")` reports not found and `Delete("1")`
changes nothing. -/
theorem C21_empty_value_reads_as_deleted_witness :
    Put (emptyStore 128 5) key1 [] (Env.at 6)
        = (none, (Put (emptyStore 128 5) key1 [] (Env.at 6)).2) ∧
      Get (Put (emptyStore 128 5) key1 [] (Env.at 6)).2 key1 = ([], false) ∧
      Delete (Put (emptyStore 128 5) key1 [] (Env.at 6)).2 key1
        = (Put (emptyStore 128 5) key1 [] (Env.at 6)).2 :=
  ⟨by decide,
   (C21_empty_value_reads_as_deleted (emptyStore 128 5) _ key1 (Env.at 6) (by decide)).2.1,
   (C21_empty_value_reads_as_deleted (emptyStore 128 5) _ key1 (Env.at 6) (by decide)).2.2.2⟩

/-! ## What `Delete` changes -/

/-- C23: for every engine state and key `k`, `Delete(k)` leaves the key directory
entry of every other key, the directory (all file names and contents), the
active file id, the active file handle, `writePos` and `MaxFileSize` unchanged;
`Delete` of a key that is absent or has `value_sz = 0` (already deleted) leaves
the whole state unchanged; and `Delete(k)` twice gives the same state as
`Delete(k)` once. -/
theorem C23_delete_frame (n : Nord) (k : Bytes) :
    (∀ k2, k2 ≠ k → (Delete n k).keyDir.get k2 = n.keyDir.get k2) ∧
      (Delete n k).fs = n.fs ∧ (Delete n k).activeFileId = n.activeFileId ∧
      (Delete n k).activeFile = n.activeFile ∧ (Delete n k).writePos = n.writePos ∧
      (Delete n k).MaxFileSize = n.MaxFileSize ∧
      (n.keyDir.get k = none → Delete n k = n) ∧
      (∀ e, n.keyDir.get k = some e → e.ValueSz = 0 → Delete n k = n) ∧
      Delete (Delete n k) k = Delete n k := by
  obtain ⟨h1, h2, h3, h4, h5⟩ := Delete_frame n k
  refine ⟨?_, h1, h2, h3, h4, h5, ?_, ?_, ?_⟩
  · intro k2 hk2
    unfold Delete
    split
    · rfl
    · split
      · rfl
      · exact KeyDir.get_set_other _ _ _ _ (fun h => hk2 h.symm)
  · intro hnone
    simp [Delete, hnone]
  · intro e he hz
    simp [Delete, he, hz]
  · cases hget : n.keyDir.get k with
    | none => simp [Delete, hget]
    | some e =>
      by_cases hz : e.ValueSz = 0
      · simp [Delete, hget, hz]
      · have hd : Delete n k
            = { n with keyDir := n.keyDir.set k ⟨0, 0, 0, 0⟩ } := by
          simp [Delete, hget, hz]
        rw [hd]
        simp [Delete, KeyDir.get_set_same]

/-! ## The record codec of `src/main.go` -/

theorem copyAt_append (a z src : Bytes) (off : Nat) (hoff : off = a.length)
    (h : src.length ≤ z.length) :
    copyAt (a ++ z) off src = a ++ src ++ z.drop src.length := by
  subst hoff
  unfold copyAt
  have h1 : (a ++ z).length - a.length = z.length := by simp
  rw [h1, List.take_left, List.take_of_length_le h, Nat.min_eq_left h, List.drop_append]

/-- The buffer `encodeKv` returns: the three header fields, the key, the
value. -/
theorem encodeKv_eq (key val : Bytes) (now : Int) :
    encodeKv key val now
      = putUint32 (toUint32 now) ++ putUint32 (key.length % 4294967296)
          ++ putUint32 (val.length % 4294967296) ++ key ++ val := by
  unfold encodeKv
  simp only
  have h0 : List.replicate (4 + 4 + 4 + key.length + val.length) (0 : Byte)
      = [] ++ List.replicate (4 + 4 + 4 + key.length + val.length) (0 : Byte) := rfl
  rw [h0, copyAt_append [] _ (putUint32 (toUint32 now)) 0 rfl
    (by simp [putUint32]; omega)]
  simp only [List.nil_append, List.drop_replicate, putUint32_length]
  rw [copyAt_append (putUint32 (toUint32 now)) _ (putUint32 (key.length % 4294967296)) 4 rfl
    (by simp [putUint32]; omega)]
  simp only [List.drop_replicate, putUint32_length]
  rw [copyAt_append (putUint32 (toUint32 now) ++ putUint32 (key.length % 4294967296)) _
    (putUint32 (val.length % 4294967296)) 8 rfl (by simp [putUint32]; omega)]
  simp only [List.drop_replicate, putUint32_length]
  rw [copyAt_append (putUint32 (toUint32 now) ++ putUint32 (key.length % 4294967296)
      ++ putUint32 (val.length % 4294967296)) _ key 12 rfl
    (by simp only [List.length_replicate]; omega)]
  simp only [List.drop_replicate]
  rw [copyAt_append (putUint32 (toUint32 now) ++ putUint32 (key.length % 4294967296)
      ++ putUint32 (val.length % 4294967296) ++ key) _ val (12 + key.length)
    (by simp [putUint32]; omega) (by simp only [List.length_replicate]; omega)]
  simp only [List.drop_replicate]
  have hz : 4 + 4 + 4 + key.length + val.length - 4 - 4 - 4 - key.length - val.length = 0 := by
    omega
  rw [hz]
  simp

/-- C22: for every key and value shorter than `2 ^ 32` bytes and every clock
reading, `decodeKv(encodeKv(key, value))` returns `(key, value)` (and does not
panic); the encoded buffer has `12 + len(key) + len(value)` bytes, its bytes 4..7
are the little-endian encoding of the key length and its bytes 8..11 that of the
value length. -/
theorem C22_decodeKv_encodeKv (key val : Bytes) (now : Int)
    (hk : key.length < 4294967296) (hv : val.length < 4294967296) :
    decodeKv (encodeKv key val now) = some (key, val) ∧
      (encodeKv key val now).length = 12 + key.length + val.length ∧
      ((encodeKv key val now).drop 4).take 4 = putUint32 key.length ∧
      ((encodeKv key val now).drop 8).take 4 = putUint32 val.length ∧
      uint32LE (((encodeKv key val now).drop 4).take 4) = key.length ∧
      uint32LE (((encodeKv key val now).drop 8).take 4) = val.length := by
  have heq := encodeKv_eq key val now
  rw [Nat.mod_eq_of_lt hk, Nat.mod_eq_of_lt hv] at heq
  have hlen : (encodeKv key val now).length = 12 + key.length + val.length := by
    rw [heq]
    simp only [List.length_append, putUint32_length]
  have h4 : ((encodeKv key val now).drop 4).take 4 = putUint32 key.length := by
    rw [heq]
    simp [putUint32]
  have h8 : ((encodeKv key val now).drop 8).take 4 = putUint32 val.length := by
    rw [heq]
    simp [putUint32]
  refine ⟨?_, hlen, h4, h8, ?_, ?_⟩
  · unfold decodeKv
    rw [if_neg (by omega)]
    simp only [h4, uint32LE_putUint32 key.length hk]
    rw [if_pos (by omega)]
    have hkey : ((encodeKv key val now).drop 12).take (12 + key.length - 12) = key := by
      rw [heq]
      have h12 : putUint32 (toUint32 now) ++ putUint32 key.length ++ putUint32 val.length
          ++ key ++ val
          = (putUint32 (toUint32 now) ++ putUint32 key.length ++ putUint32 val.length)
              ++ (key ++ val) := by
        simp only [List.append_assoc]
      have hl : (putUint32 (toUint32 now) ++ putUint32 key.length
          ++ putUint32 val.length).length = 12 := rfl
      rw [h12, ← hl, List.drop_left, hl, Nat.add_sub_cancel_left, List.take_left]
    have hval : (encodeKv key val now).drop (12 + key.length) = val := by
      rw [heq]
      have hl : (putUint32 (toUint32 now) ++ putUint32 key.length
          ++ putUint32 val.length ++ key).length = 12 + key.length := by
        simp only [List.length_append, putUint32_length]
      rw [← hl, List.drop_left]
    rw [hkey, hval]
  · rw [h4, uint32LE_putUint32 key.length hk]
  · rw [h8, uint32LE_putUint32 val.length hv]

/-- C22 at the key `1`, the value `Nikit` and the clock reading 1700000000: the
18 bytes of the buffer, and what `decodeKv` returns for it. -/
theorem C22_decodeKv_encodeKv_witness :
    encodeKv key1 valNikit 1700000000
        = [0, 241, 83, 101, 1, 0, 0, 0, 5, 0, 0, 0, 49, 78, 105, 107, 105, 116] ∧
      decodeKv (encodeKv key1 valNikit 1700000000) = some (key1, valNikit) :=
  ⟨by decide, (C22_decodeKv_encodeKv key1 valNikit 1700000000 (by decide) (by decide)).1⟩

end Bitcask
